import Mathlib

/-!
# B+Tree index (`src/src/btree.cpp`): shallow embedding and verified properties

The embedding follows `btree.cpp` function by function.

* A node page is a record of fixed-length arrays, modelled as lists.  Every array access
  is bounds-checked: an access outside the array makes the operation return `none`
  (the C++ behaviour is undefined there).
* `INTARRAYLEAFSIZE` and `INTARRAYNONLEAFSIZE` come from `btree.h`, which is not part of
  the sources at hand; they are the parameters `L` and `M` of every function.
* Keys are C `int`s.  The code only compares and copies them, so they are modelled as `Int`.
* The buffer manager and the blob file are external.  They are modelled as a list of pages in
  which page number `p ≥ 1` is the entry at position `p - 1`; a pointer obtained from
  `readPage`/`allocPage` is modelled by the page number, and a store through such a pointer
  by `writePage`.  Pin counts and dirty flags are not modelled.
* A page cast to the wrong node type has a layout-dependent meaning; the page-level
  functions return `none` there.
* Console output is not modelled.  The diagnostic `testPrint` is modelled by the pages and
  array slots it reads, where `insertEntry` calls it (line 191, for the key 4999).  Its call
  at the end of `fullNodeHandler` (line 259) changes nothing and is not modelled: there the
  root is the internal node just written and its first two child slots hold the pages of
  leaves (with `M = 1` the call also reads child slot 2, one past the array).
* The relation scan used by the constructor is external; the records it yields are a list
  of (record locator, bytes) pairs, an `int` being 4 bytes, little-endian.
* In the page-level functions the counter `numOfNodes` is a natural number: it is only
  incremented.  The bookkeeping functions of the namespace `Shape` leave the page contents
  out and keep the `allocPage` calls and the assignments to `rootPageNum`, `numOfNodes` and
  `metadata->rootPageNo`, the outcome of every test on page contents being an argument;
  there `numOfNodes` is an `int` whose sums are taken in 32-bit two's complement.  Every run
  of the page-level functions is a run of the bookkeeping functions (`insertAll_shape`).
-/

set_option linter.unusedVariables false

namespace badgerdb

/-! ## Data model -/

/-- Page number in the index file (`PageId`); `0` is the null page number. -/
abbrev PageId := Nat

/-- Modelled from the spec: the record locator type `RecordId` is declared outside
`src/`; it is an opaque reference to a record of the relation (page and slot). -/
structure RecordId where
  page_number : Nat
  slot_number : Nat
  deriving DecidableEq, Repr

/-- Modelled from the spec: the attribute type tag `Datatype` (integer / float / string),
declared outside `src/`. -/
inductive Datatype where
  | INTEGER
  | DOUBLE
  | STRING
  deriving DecidableEq, Repr

/-- Modelled from the spec: comparison operators accepted by `startScan`, declared outside
`src/`. -/
inductive Operator where
  | LT
  | LTE
  | GTE
  | GT
  deriving DecidableEq, Repr

/-- Modelled from the spec: the metadata record `IndexMetaInfo` of `btree.h` (relation name,
attribute byte offset, attribute type, root page number). -/
structure IndexMetaInfo where
  relationName : String
  attrByteOffset : Int
  attrType : Datatype
  rootPageNo : PageId
  deriving DecidableEq, Repr

/-- Modelled from the spec: the leaf node record `LeafNodeInt` of `btree.h`: key slots, record
locator slots and the right sibling page number.  An empty key slot holds `-1`. -/
structure LeafNodeInt where
  keyArray : List Int
  ridArray : List RecordId
  rightSibPageNo : PageId
  deriving DecidableEq, Repr

/-- Modelled from the spec: the internal node record `NonLeafNodeInt` of `btree.h`: level
marker, `M` key slots and `M + 1` child page numbers. -/
structure NonLeafNodeInt where
  level : Int
  keyArray : List Int
  pageNoArray : List PageId
  deriving DecidableEq, Repr

/-- A page of the index file, seen through the cast the code applies to it. -/
inductive Page where
  | header (m : IndexMetaInfo)
  | leaf (n : LeafNodeInt)
  | nonLeaf (n : NonLeafNodeInt)
  deriving DecidableEq, Repr

/-- The members of `BTreeIndex` that the insertion code uses, together with the pages of
the index file. -/
structure BTreeIndex where
  file : List Page
  headerPageNum : PageId
  rootPageNum : PageId
  numOfNodes : Nat
  attrByteOffset : Int
  attributeType : Datatype
  deriving DecidableEq, Repr

/-- Errors a scan operation can signal (the exception headers included by `btree.cpp`). -/
inductive ScanError where
  | BadOpcodes
  | BadScanrange
  | NoSuchKeyFound
  | ScanNotInitialized
  | IndexScanCompleted
  deriving DecidableEq, Repr

/-! ## Page store -/

/-- Modelled from the spec: `allocPage` of the external page store appends a page and returns
its (non-null) page number. -/
def allocPage (file : List Page) (fresh : Page) : PageId × List Page :=
  (file.length + 1, file ++ [fresh])

/-- Modelled from the spec: `readPage` of the external page store. -/
def readPage (file : List Page) (p : PageId) : Option Page :=
  if p = 0 then none else file[p - 1]?

/-- A store through a pointer into page `p`. -/
def writePage (file : List Page) (p : PageId) (pg : Page) : Option (List Page) :=
  if p = 0 then none else if p - 1 < file.length then some (file.set (p - 1) pg) else none

/-- The cast `(IndexMetaInfo*)page` after `readPage`. -/
def readHeader (file : List Page) (p : PageId) : Option IndexMetaInfo :=
  match readPage file p with
  | some (Page.header m) => some m
  | _ => none

/-- The cast `(LeafNodeInt*)page` after `readPage`. -/
def readLeaf (file : List Page) (p : PageId) : Option LeafNodeInt :=
  match readPage file p with
  | some (Page.leaf n) => some n
  | _ => none

/-- The cast `(NonLeafNodeInt*)page` after `readPage`. -/
def readNonLeaf (file : List Page) (p : PageId) : Option NonLeafNodeInt :=
  match readPage file p with
  | some (Page.nonLeaf n) => some n
  | _ => none

/-- Modelled from the spec: a page handed out by `allocPage` of the external page store, seen
as a leaf.  It is taken zero-filled: the code never initialises child slots and tests them
against page number 0 (lines 303 and 387). -/
def zeroLeaf (L : Nat) : LeafNodeInt :=
  { keyArray := List.replicate L 0
    ridArray := List.replicate L ⟨0, 0⟩
    rightSibPageNo := 0 }

/-- Modelled from the spec: a page handed out by `allocPage` of the external page store, seen
as an internal node (zero-filled, as for `zeroLeaf`). -/
def zeroNonLeaf (M : Nat) : NonLeafNodeInt :=
  { level := 0
    keyArray := List.replicate M 0
    pageNoArray := List.replicate (M + 1) 0 }

/-! ## Array access and loops -/

/-- The store `xs[i] = v`. -/
def wr {α : Type} (xs : List α) (i : Nat) (v : α) : Option (List α) :=
  if i < xs.length then some (xs.set i v) else none

/-- The loop `for (i = lo; n iterations; i++) body`: `forLoop body lo n`. -/
def forLoop {σ : Type} (body : Nat → σ → Option σ) : Nat → Nat → σ → Option σ
  | _, 0, s => some s
  | i, n + 1, s => (body i s).bind (forLoop body (i + 1) n)

/-- The loop of lines 204-207 (repeated verbatim on the parent at lines 250-253):
```
while (i > 0 && (keyValue < keyArray[i-1] || keyArray[i-1] == -1)) {
  if (keyArray[i-1] != -1) keyArray[i] = keyArray[i-1];
  i--;
}
```
started at `i`; returns the final `i` and the key array. -/
def shiftKeys (keyValue : Int) : Nat → List Int → Option (Nat × List Int)
  | 0, keyArray => some (0, keyArray)
  | i + 1, keyArray =>
    match keyArray[i]? with
    | none => none
    | some x =>
      if keyValue < x ∨ x = -1 then
        if x ≠ -1 then
          match wr keyArray (i + 1) x with
          | none => none
          | some keyArray1 => shiftKeys keyValue i keyArray1
        else shiftKeys keyValue i keyArray
      else some (i + 1, keyArray)

/-! ## `BTreeIndex::insertToNode` (lines 198-213) -/

/-- The function `insertToNode(node, key, rid)`. -/
def insertToNode (L : Nat) (node : LeafNodeInt) (key : Int) (rid : RecordId) :
    Option LeafNodeInt :=
  let keyValue := key
  match shiftKeys keyValue L node.keyArray with
  | none => none
  | some (i, keyArray) =>
    match wr keyArray i keyValue with
    | none => none
    | some keyArray1 => some { node with keyArray := keyArray1 }

/-! ## `BTreeIndex::splitLeafNode` (lines 321-348) -/

/-- Body of the loop of lines 335-338; `j = i - middlePoint`. -/
def splitLeafCopyBody (middlePoint : Nat) (leftNode : LeafNodeInt) (i : Nat)
    (rightNode : LeafNodeInt) : Option LeafNodeInt :=
  match leftNode.keyArray[i]?, leftNode.ridArray[i]? with
  | some k, some r =>
    match wr rightNode.keyArray (i - middlePoint) k, wr rightNode.ridArray (i - middlePoint) r with
    | some ks, some rs => some { rightNode with keyArray := ks, ridArray := rs }
    | _, _ => none
  | _, _ => none

/-- Body of the loop of lines 339-342, on the pair (left node, right node). -/
def splitLeafWipeBody (i : Nat) (lr : LeafNodeInt × LeafNodeInt) :
    Option (LeafNodeInt × LeafNodeInt) :=
  match wr lr.2.keyArray i (-1), wr lr.1.keyArray i (-1) with
  | some rk, some lk => some ({ lr.1 with keyArray := lk }, { lr.2 with keyArray := rk })
  | _, _ => none

/-- Lines 330-342 on the two nodes: returns the left node, the right node and `middleKey`. -/
def splitLeafNodes (L : Nat) (leftNode rightNode : LeafNodeInt) :
    Option (LeafNodeInt × LeafNodeInt × Int) :=
  let middlePoint := L / 2
  match leftNode.keyArray[middlePoint]? with
  | none => none
  | some middleKey =>
    match forLoop (splitLeafCopyBody middlePoint leftNode) middlePoint (L - middlePoint)
        rightNode with
    | none => none
    | some rightNode1 =>
      match forLoop splitLeafWipeBody middlePoint (L - middlePoint) (leftNode, rightNode1) with
      | none => none
      | some (leftNode2, rightNode2) => some (leftNode2, rightNode2, middleKey)

/-- The function `splitLeafNode(leftNode, middleKey, pid)`; `leftNode` is the page number of
the node to split.  Returns the new state, `middleKey` and `pid`. -/
def splitLeafNode (L : Nat) (s : BTreeIndex) (leftNode : PageId) :
    Option (BTreeIndex × Int × PageId) :=
  match allocPage s.file (Page.leaf (zeroLeaf L)) with
  | (pid, file) =>
    match readLeaf file leftNode, readLeaf file pid with
    | some left, some right =>
      match splitLeafNodes L left right with
      | none => none
      | some (left1, right1, middleKey) =>
        match writePage file leftNode (Page.leaf left1) with
        | none => none
        | some file1 =>
          match writePage file1 pid (Page.leaf right1) with
          | none => none
          | some file2 =>
            some ({ s with file := file2, numOfNodes := s.numOfNodes + 1 }, middleKey, pid)
    | _, _ => none

/-! ## `BTreeIndex::splitNonLeafNode` (lines 353-376) -/

/-- Body of the loop of lines 365-368; `j = i - middlePoint`. -/
def splitNonLeafCopyBody (middlePoint : Nat) (leftNode : NonLeafNodeInt) (i : Nat)
    (rightNode : NonLeafNodeInt) : Option NonLeafNodeInt :=
  match leftNode.keyArray[i]?, leftNode.pageNoArray[i]? with
  | some k, some p =>
    match wr rightNode.keyArray (i - middlePoint) k,
        wr rightNode.pageNoArray (i - middlePoint) p with
    | some ks, some ps => some { rightNode with keyArray := ks, pageNoArray := ps }
    | _, _ => none
  | _, _ => none

/-- Body of the loop of lines 369-372, on the pair (left node, right node). -/
def splitNonLeafWipeBody (i : Nat) (lr : NonLeafNodeInt × NonLeafNodeInt) :
    Option (NonLeafNodeInt × NonLeafNodeInt) :=
  match wr lr.2.keyArray i (-1), wr lr.1.keyArray i (-1) with
  | some rk, some lk => some ({ lr.1 with keyArray := lk }, { lr.2 with keyArray := rk })
  | _, _ => none

/-- Lines 360-372 on the two nodes.  The midpoint is `INTARRAYLEAFSIZE/2` (line 361) while
the loops run to `INTARRAYNONLEAFSIZE`. -/
def splitNonLeafNodes (L M : Nat) (leftNode rightNode : NonLeafNodeInt) :
    Option (NonLeafNodeInt × NonLeafNodeInt × Int) :=
  let middlePoint := L / 2
  match leftNode.keyArray[middlePoint]? with
  | none => none
  | some middleKey =>
    match forLoop (splitNonLeafCopyBody middlePoint leftNode) middlePoint (M - middlePoint)
        rightNode with
    | none => none
    | some rightNode1 =>
      match forLoop splitNonLeafWipeBody middlePoint (M - middlePoint)
          (leftNode, rightNode1) with
      | none => none
      | some (leftNode2, rightNode2) => some (leftNode2, rightNode2, middleKey)

/-- The function `splitNonLeafNode(leftNode, middleKey, pid)`. -/
def splitNonLeafNode (L M : Nat) (s : BTreeIndex) (leftNode : PageId) :
    Option (BTreeIndex × Int × PageId) :=
  match allocPage s.file (Page.nonLeaf (zeroNonLeaf M)) with
  | (pid, file) =>
    match readNonLeaf file leftNode, readNonLeaf file pid with
    | some left, some right =>
      match splitNonLeafNodes L M left right with
      | none => none
      | some (left1, right1, middleKey) =>
        match writePage file leftNode (Page.nonLeaf left1) with
        | none => none
        | some file1 =>
          match writePage file1 pid (Page.nonLeaf right1) with
          | none => none
          | some file2 =>
            some ({ s with file := file2, numOfNodes := s.numOfNodes + 1 }, middleKey, pid)
    | _, _ => none

/-! ## `BTreeIndex::fullNodeHandler` (lines 218-261) -/

/-- Lines 247-256 on the parent node: shift the keys, then store the separator and the two
page numbers. -/
def pushUp (M : Nat) (parentNode : NonLeafNodeInt) (middleKey : Int)
    (currPageNo rightPageNum : PageId) : Option NonLeafNodeInt :=
  match shiftKeys middleKey M parentNode.keyArray with
  | none => none
  | some (nonLeafIndex, keyArray) =>
    match wr keyArray nonLeafIndex middleKey with
    | none => none
    | some keyArray1 =>
      match wr parentNode.pageNoArray nonLeafIndex currPageNo with
      | none => none
      | some pageNoArray1 =>
        match wr pageNoArray1 (nonLeafIndex + 1) rightPageNum with
        | none => none
        | some pageNoArray2 =>
          some { parentNode with keyArray := keyArray1, pageNoArray := pageNoArray2 }

/-- Lines 221-229: when there is no parent, allocate the new root page (its number is stored
in `rootPageNum`), fill its keys with `-1` and set its level to `1`.  Returns the state and
the page number of the parent. -/
def newParent (M : Nat) (s : BTreeIndex) (parentNode : Option PageId) :
    Option (BTreeIndex × PageId) :=
  match parentNode with
  | some p => some (s, p)
  | none =>
    match allocPage s.file (Page.nonLeaf (zeroNonLeaf M)) with
    | (pid, file) =>
      match readNonLeaf file pid with
      | none => none
      | some parent =>
        match forLoop (fun i ks => wr ks i (-1)) 0 M parent.keyArray with
        | none => none
        | some ks =>
          match writePage file pid (Page.nonLeaf { parent with keyArray := ks, level := 1 }) with
          | none => none
          | some file1 => some ({ s with file := file1, rootPageNum := pid }, pid)

/-- The function `fullNodeHandler(currNode, parentNode, currPageNo, isLeaf)`; `currNode` and
`parentNode` are the page numbers of the nodes the pointers refer to (`none` for `NULL`). -/
def fullNodeHandler (L M : Nat) (s : BTreeIndex) (currNode : PageId)
    (parentNode : Option PageId) (currPageNo : PageId) (isLeaf : Bool) : Option BTreeIndex :=
  match newParent M s parentNode with
  | none => none
  | some (s1, parentPage) =>
    match (if isLeaf then splitLeafNode L s1 currNode else splitNonLeafNode L M s1 currNode) with
    | none => none
    | some (s2, middleKey, rightPageNum) =>
      match readNonLeaf s2.file parentPage with
      | none => none
      | some parent =>
        match pushUp M parent middleKey currPageNo rightPageNum with
        | none => none
        | some parent1 =>
          match writePage s2.file parentPage (Page.nonLeaf parent1) with
          | none => none
          | some file => some { s2 with file := file }

/-! ## `BTreeIndex::traverse` (lines 381-451) -/

/-- The loop of lines 386-390, with `n` iterations left and loop variable `i`:
```
for (i = 0; i < INTARRAYNONLEAFSIZE; i++)
  if (currNode->pageNoArray[i+1] == 0 || currNode->keyArray[i] > keyValue) break;
```
Returns the final `i`. -/
def findChild (currNode : NonLeafNodeInt) (keyValue : Int) : Nat → Nat → Option Nat
  | 0, i => some i
  | n + 1, i =>
    match currNode.pageNoArray[i + 1]? with
    | none => none
    | some p =>
      if p = 0 then some i
      else
        match currNode.keyArray[i]? with
        | none => none
        | some x => if x > keyValue then some i else findChild currNode keyValue n (i + 1)

/-- The read `keyArray[n - 1]` of the fullness tests. -/
def lastKey (keyArray : List Int) (n : Nat) : Option Int :=
  if n = 0 then none else keyArray[n - 1]?

/-- Lines 410-422 and 402-405: split the child when the fullness test fires. -/
def splitIfFull (L M : Nat) (s : BTreeIndex) (test : Int) (childNode currNode : PageId)
    (i : Nat) : Option BTreeIndex :=
  if test ≠ -1 then
    match readNonLeaf s.file currNode with
    | none => none
    | some node =>
      match node.pageNoArray[i]? with
      | none => none
      | some pageNo =>
        match fullNodeHandler L M s childNode (some currNode) pageNo true with
        | none => none
        | some s1 => some { s1 with numOfNodes := s1.numOfNodes + 1 }
  else some s

/-- The function `traverse(currNode, key, rid)`; `currNode` is the page number of the node.
The recursion depth is bounded by the first argument. -/
def traverse (L M : Nat) : Nat → BTreeIndex → PageId → Int → RecordId → Option BTreeIndex
  | 0, _, _, _, _ => none
  | fuel + 1, s, currNode, key, rid =>
    let keyValue := key
    match readNonLeaf s.file currNode with
    | none => none
    | some node =>
      match findChild node keyValue M 0 with
      | none => none
      | some i =>
        match node.pageNoArray[i]? with
        | none => none
        | some childPageNo =>
          if node.level ≠ 1 then
            match readNonLeaf s.file childPageNo with
            | none => none
            | some _ =>
              match traverse L M fuel s childPageNo key rid with
              | none => none
              | some s1 =>
                match readNonLeaf s1.file currNode with
                | none => none
                | some node1 =>
                  match node1.keyArray[M]? with
                  | none => none
                  | some test => splitIfFull L M s1 test childPageNo currNode i
          else
            match readLeaf s.file childPageNo with
            | none => none
            | some childNode =>
              match insertToNode L childNode key rid with
              | none => none
              | some childNode1 =>
                match writePage s.file childPageNo (Page.leaf childNode1) with
                | none => none
                | some file =>
                  match lastKey childNode1.keyArray L with
                  | none => none
                  | some test =>
                    splitIfFull L M { s with file := file } test childPageNo currNode i

/-! ## `BTreeIndex::testPrint` (lines 264-316) -/

/-- A loop that reads the key slots `0 .. n - 1` of a node (lines 289-291, 294-296, 299-301
and 311-313). -/
def readKeys (keyArray : List Int) (n : Nat) : Option Unit :=
  if n ≤ keyArray.length then some () else none

/-- The loop of lines 302-314, with `n` iterations left and loop variable `j`: the child page
numbers from slot `j` on are read until a null one is met, and each of these pages is read
and its `L` key slots are listed as those of a leaf. -/
def testPrintLoop (L : Nat) (file : List Page) (testRootNode : NonLeafNodeInt) :
    Nat → Nat → Option Unit
  | 0, _ => some ()
  | n + 1, j =>
    match testRootNode.pageNoArray[j]? with
    | none => none
    | some p =>
      if p = 0 then some ()
      else
        match readLeaf file p with
        | none => none
        | some test3RightNode =>
          match readKeys test3RightNode.keyArray L with
          | none => none
          | some _ => testPrintLoop L file testRootNode n (j + 1)

/-- The function `testPrint()` without its output: the root page is read as an internal
node (lines 268-271), the pages of its child slots 0 and 1 are read as leaves (lines
273-282), key slot 0 of the root is read (line 284), the `M` key slots of the root and the
`L` key slots of the two leaves are listed (lines 289-301), and the loop over the further
child slots `j = 2 .. 99` is run (lines 302-314).  The result is `none` when one of these
reads has no result. -/
def testPrint (L M : Nat) (s : BTreeIndex) : Option Unit :=
  match readNonLeaf s.file s.rootPageNum with
  | none => none
  | some testRootNode =>
    match testRootNode.pageNoArray[0]? with
    | none => none
    | some leftPageNo =>
      match readLeaf s.file leftPageNo with
      | none => none
      | some testLeftNode =>
        match testRootNode.pageNoArray[1]? with
        | none => none
        | some rightPageNo =>
          match readLeaf s.file rightPageNo with
          | none => none
          | some testRightNode =>
            match testRootNode.keyArray[0]? with
            | none => none
            | some _ =>
              match readKeys testRootNode.keyArray M, readKeys testLeftNode.keyArray L,
                  readKeys testRightNode.keyArray L with
              | some _, some _, some _ => testPrintLoop L s.file testRootNode 98 2
              | _, _, _ => none

/-! ## `BTreeIndex::insertEntry` (lines 104-192) -/

/-- Lines 113-129: the first insertion. -/
def insertFirst (L : Nat) (s : BTreeIndex) (metadata : IndexMetaInfo) (keyValue : Int)
    (rid : RecordId) : Option BTreeIndex :=
  match allocPage s.file (Page.leaf (zeroLeaf L)) with
  | (pid, file) =>
    match writePage file s.headerPageNum (Page.header { metadata with rootPageNo := pid }) with
    | none => none
    | some file1 =>
      match readLeaf file1 pid with
      | none => none
      | some rootNode =>
        match forLoop (fun i ks => wr ks i (-1)) 0 L rootNode.keyArray with
        | none => none
        | some ks =>
          match wr ks 0 keyValue, wr rootNode.ridArray 0 rid with
          | some ks1, some rs1 =>
            match writePage file1 pid
                (Page.leaf { rootNode with keyArray := ks1, ridArray := rs1 }) with
            | none => none
            | some file2 =>
              some { s with file := file2, rootPageNum := pid, numOfNodes := s.numOfNodes + 1 }
          | _, _ => none

/-- Lines 140-153: the root is the only node. -/
def insertSingle (L M : Nat) (s : BTreeIndex) (key : Int) (rid : RecordId) :
    Option BTreeIndex :=
  match readLeaf s.file s.rootPageNum with
  | none => none
  | some rootNode =>
    match insertToNode L rootNode key rid with
    | none => none
    | some rootNode1 =>
      match writePage s.file s.rootPageNum (Page.leaf rootNode1) with
      | none => none
      | some file =>
        match lastKey rootNode1.keyArray L with
        | none => none
        | some test =>
          if test ≠ -1 then
            match fullNodeHandler L M { s with file := file } s.rootPageNum none s.rootPageNum
                true with
            | none => none
            | some s1 => some { s1 with numOfNodes := s1.numOfNodes + 1 }
          else some { s with file := file }

/-- Lines 156-169: more than one node. -/
def insertGeneral (L M fuel : Nat) (s : BTreeIndex) (metadata : IndexMetaInfo) (key : Int)
    (rid : RecordId) : Option BTreeIndex :=
  match readNonLeaf s.file metadata.rootPageNo with
  | none => none
  | some _ =>
    match traverse L M fuel s metadata.rootPageNo key rid with
    | none => none
    | some s1 =>
      match readNonLeaf s1.file metadata.rootPageNo with
      | none => none
      | some rootNode =>
        match lastKey rootNode.keyArray M with
        | none => none
        | some test =>
          if test ≠ -1 then
            match fullNodeHandler L M s1 metadata.rootPageNo none s1.rootPageNum true with
            | none => none
            | some s2 => some { s2 with numOfNodes := s2.numOfNodes + 1 }
          else some s1

/-- The function `insertEntry(key, rid)`; `fuel` bounds the depth of the descent.  The last
step is line 191, `if (keyValue == 4999) testPrint();`. -/
def insertEntry (L M fuel : Nat) (s : BTreeIndex) (key : Int) (rid : RecordId) :
    Option BTreeIndex :=
  let keyValue := key
  match readHeader s.file s.headerPageNum with
  | none => none
  | some metadata =>
    match (if metadata.rootPageNo = 0 then insertFirst L s metadata keyValue rid
           else if s.numOfNodes = 1 then insertSingle L M s key rid
           else insertGeneral L M fuel s metadata key rid) with
    | none => none
    | some s1 =>
      match readHeader s1.file s1.headerPageNum with
      | none => none
      | some metadata1 =>
        match writePage s1.file s1.headerPageNum
            (Page.header { metadata1 with rootPageNo := s1.rootPageNum }) with
        | none => none
        | some file =>
          if keyValue = 4999 then
            match testPrint L M { s1 with file := file } with
            | none => none
            | some _ => some { s1 with file := file }
          else some { s1 with file := file }

/-! ## Constructor (lines 58-73) and scan operations (lines 457-481) -/

/-- The index right after lines 58-73 of the constructor, before any record is inserted.
`rootPageNum` is not initialised by the constructor; its initial value is a parameter. -/
def emptyIndex (relationName : String) (attrByteOffset : Int) (attrType : Datatype)
    (rootPageNum : PageId) : BTreeIndex :=
  { file := [Page.header { relationName := relationName, attrByteOffset := attrByteOffset,
                           attrType := attrType, rootPageNo := 0 }]
    headerPageNum := 1
    rootPageNum := rootPageNum
    numOfNodes := 0
    attrByteOffset := attrByteOffset
    attributeType := attrType }

/-- The function `startScan` (lines 457-463): the body is empty. -/
def startScan (s : BTreeIndex) (lowValParm : Int) (lowOpParm : Operator) (highValParm : Int)
    (highOpParm : Operator) : Except ScanError BTreeIndex :=
  Except.ok s

/-- The function `scanNext(outRid)` (lines 469-472): the body is empty; the result carries the
value of the reference parameter `outRid` after the call. -/
def scanNext (s : BTreeIndex) (outRid : RecordId) : Except ScanError (BTreeIndex × RecordId) :=
  Except.ok (s, outRid)

/-- The function `endScan` (lines 478-481): the body is empty. -/
def endScan (s : BTreeIndex) : Except ScanError BTreeIndex :=
  Except.ok s


/-! ## Observations and closed forms used in the statements -/

/-- Closed form of a copy loop: `n` elements of `src` from `i` on land in `dst` from `j` on. -/
def copied {α : Type} (dst src : List α) (j i n : Nat) : List α :=
  dst.take j ++ (src.drop i).take n ++ dst.drop (j + n)

/-- Closed form of a fill loop: `n` slots of `xs` from `i` on hold `v`. -/
def filled {α : Type} (xs : List α) (i n : Nat) (v : α) : List α :=
  xs.take i ++ List.replicate n v ++ xs.drop (i + n)


/-- The entries a leaf holds: the (key, record locator) pairs of its occupied slots, in slot
order (a slot is occupied when its key is not `-1`, as in the listing loops of lines
294-300). -/
def leafEntries (node : LeafNodeInt) : List (Int × RecordId) :=
  (node.keyArray.zip node.ridArray).filter (fun e => decide (e.1 ≠ -1))

/-- The keys a leaf holds, in slot order. -/
def leafKeys (node : LeafNodeInt) : List Int :=
  node.keyArray.filter (fun x => decide (x ≠ -1))

/-! ## Concrete inputs -/

/-- An index whose only node is the leaf `node`, stored in page 2 as the root. -/
def indexOfLeaf (node : LeafNodeInt) : BTreeIndex :=
  { file := [Page.header { relationName := "rel", attrByteOffset := 0,
                           attrType := Datatype.INTEGER, rootPageNo := 2 },
             Page.leaf node]
    headerPageNum := 1
    rootPageNum := 2
    numOfNodes := 1
    attrByteOffset := 0
    attributeType := Datatype.INTEGER }

/-- A full leaf of capacity 4 with distinct keys. -/
def fullLeaf4 : LeafNodeInt :=
  { keyArray := [1, 3, 5, 8]
    ridArray := [⟨1, 0⟩, ⟨3, 0⟩, ⟨5, 0⟩, ⟨8, 0⟩]
    rightSibPageNo := 0 }

/-- A full leaf of capacity 3. -/
def fullLeaf3 : LeafNodeInt :=
  { keyArray := [1, 2, 3]
    ridArray := [⟨1, 0⟩, ⟨2, 0⟩, ⟨3, 0⟩]
    rightSibPageNo := 0 }

/-- A full leaf of capacity 4 in which the key 5 occurs on both sides of the midpoint. -/
def dupLeaf4 : LeafNodeInt :=
  { keyArray := [1, 5, 5, 8]
    ridArray := [⟨1, 0⟩, ⟨5, 0⟩, ⟨5, 1⟩, ⟨8, 0⟩]
    rightSibPageNo := 0 }

/-- The calls `insertEntry(key, rid)` for each pair of the list in turn (as the loop of lines
78-84 issues them). -/
def insertAll (L M fuel : Nat) (s : BTreeIndex) : List (Int × RecordId) → Option BTreeIndex
  | [] => some s
  | (key, rid) :: rest =>
    match insertEntry L M fuel s key rid with
    | none => none
    | some s1 => insertAll L M fuel s1 rest

/-- The record locator used for key `k` in the concrete scenarios. -/
def ridOf (k : Nat) : RecordId := ⟨k, 0⟩

/-- The root leaf of capacity 4 after the first insertion `insertEntry(5, ridOf 5)`. -/
def leafAfter5 : LeafNodeInt :=
  { keyArray := [5, -1, -1, -1]
    ridArray := [ridOf 5, ⟨0, 0⟩, ⟨0, 0⟩, ⟨0, 0⟩]
    rightSibPageNo := 0 }

/-- A leaf of capacity 4 holding the sorted keys 3 and 5. -/
def leaf35 : LeafNodeInt :=
  { keyArray := [3, 5, -1, -1]
    ridArray := [ridOf 3, ridOf 5, ⟨0, 0⟩, ⟨0, 0⟩]
    rightSibPageNo := 0 }

/-- The tree of leaf capacity 4 and internal capacity 4 inside `traverse`, right after key 0
was stored in the left leaf (page 2), which is now full: the root (page 3) has the separator 5
and the children 2 and 4. -/
def fullChildIndex : BTreeIndex :=
  { file := [Page.header { relationName := "rel", attrByteOffset := 0,
                           attrType := Datatype.INTEGER, rootPageNo := 3 },
             Page.leaf { keyArray := [0, 1, 2, 3]
                         ridArray := [ridOf 5, ⟨0, 0⟩, ⟨0, 0⟩, ⟨0, 0⟩]
                         rightSibPageNo := 0 },
             Page.nonLeaf { level := 1, keyArray := [5, -1, -1, -1],
                            pageNoArray := [2, 4, 0, 0, 0] },
             Page.leaf { keyArray := [5, 8, -1, -1]
                         ridArray := [⟨0, 0⟩, ⟨0, 0⟩, ⟨0, 0⟩, ⟨0, 0⟩]
                         rightSibPageNo := 0 }]
    headerPageNum := 1
    rootPageNum := 3
    numOfNodes := 3
    attrByteOffset := 0
    attributeType := Datatype.INTEGER }

/-- A full internal node of capacity 4 with distinct sorted separators. -/
def fullInternal4 : NonLeafNodeInt :=
  { level := 1
    keyArray := [10, 20, 30, 40]
    pageNoArray := [3, 4, 5, 6, 7] }

/-- An index in which page 2 holds the internal node `node`. -/
def indexOfInternal (node : NonLeafNodeInt) : BTreeIndex :=
  { file := [Page.header { relationName := "rel", attrByteOffset := 0,
                           attrType := Datatype.INTEGER, rootPageNo := 2 },
             Page.nonLeaf node]
    headerPageNum := 1
    rootPageNum := 2
    numOfNodes := 7
    attrByteOffset := 0
    attributeType := Datatype.INTEGER }

/-- An internal node of capacity 4 with the separators 10 and 20 and three children. -/
def internal2of4 : NonLeafNodeInt :=
  { level := 1
    keyArray := [10, 20, -1, -1]
    pageNoArray := [3, 4, 5, 0, 0] }
/-- The leaf written by the first insertion: `key` and `rid` in slot 0 of a zero-filled page
whose key slots were set to `-1`. -/
def singleEntryLeaf (L : Nat) (key : Int) (rid : RecordId) : LeafNodeInt :=
  { keyArray := key :: List.replicate (L - 1) (-1)
    ridArray := rid :: List.replicate (L - 1) ⟨0, 0⟩
    rightSibPageNo := 0 }

/-- The child page numbers of an internal node, left to right, up to the first null
reference (the stop test of line 303). -/
def childPages (node : NonLeafNodeInt) : List PageId :=
  node.pageNoArray.takeWhile (fun p => decide (p ≠ 0))

/-- The keys held by the leaves stored in the given pages, in the order of the pages. -/
def keysOfLeaves (file : List Page) : List PageId → Option (List Int)
  | [] => some []
  | p :: ps =>
    match readLeaf file p, keysOfLeaves file ps with
    | some node, some ks => some (leafKeys node ++ ks)
    | _, _ => none

/-- Reading the leaves from left to right: the keys of the root when the root is a leaf,
otherwise the keys of the leaves in the order of the root's child references. -/
def leafChainKeys (s : BTreeIndex) : Option (List Int) :=
  match readPage s.file s.rootPageNum with
  | some (Page.leaf node) => some (leafKeys node)
  | some (Page.nonLeaf root) => keysOfLeaves s.file (childPages root)
  | _ => none
/-- An index whose header is page 1 and whose further pages are `pages`, with the given root
page number (in the metadata and in `rootPageNum`) and node counter. -/
def scenarioIndex (relationName : String) (attrByteOffset : Int) (attrType : Datatype)
    (rootPage numOfNodes : Nat) (pages : List Page) : BTreeIndex :=
  { file := Page.header { relationName := relationName, attrByteOffset := attrByteOffset,
                          attrType := attrType, rootPageNo := rootPage } :: pages
    headerPageNum := 1
    rootPageNum := rootPage
    numOfNodes := numOfNodes
    attrByteOffset := attrByteOffset
    attributeType := attrType }
/-- The seven insertions of the scenario of spec section 8, with the record locator `ridOf k`
for key `k`. -/
def scenarioEntries : List (Int × RecordId) :=
  [(5, ridOf 5), (3, ridOf 3), (8, ridOf 8), (1, ridOf 1), (9, ridOf 9), (2, ridOf 2),
   (7, ridOf 7)]

/-- The caller's iteration over a scan (spec section 7): `scanNext` is called until it signals
scan-completed, at most `fuel` times, and the record locators it returned are collected.
The result is `none` when another error is signalled or when the scan has not completed
within `fuel` calls. -/
def scanAll : Nat → BTreeIndex → RecordId → Option (List RecordId)
  | 0, _, _ => none
  | fuel + 1, s, outRid =>
    match scanNext s outRid with
    | Except.error ScanError.IndexScanCompleted => some []
    | Except.error _ => none
    | Except.ok (s1, rid) =>
      match scanAll fuel s1 rid with
      | none => none
      | some rids => some (rid :: rids)

/-- A full internal node of capacity 6 with distinct sorted separators. -/
def fullInternal6 : NonLeafNodeInt :=
  { level := 1
    keyArray := [10, 20, 30, 40, 50, 60]
    pageNoArray := [3, 4, 5, 6, 7, 8, 9] }

/-- The tree of leaf capacity 2 and internal capacity 2 after the insertions of the keys 5
and 3: the root (page 3) has the separator 5 and the leaves in pages 2 and 4. -/
def beforeRootFull : BTreeIndex :=
  { file := [Page.header { relationName := "rel", attrByteOffset := 0,
                           attrType := Datatype.INTEGER, rootPageNo := 3 },
             Page.leaf { keyArray := [3, -1], ridArray := [ridOf 5, ⟨0, 0⟩],
                         rightSibPageNo := 0 },
             Page.nonLeaf { level := 1, keyArray := [5, -1], pageNoArray := [2, 4, 0] },
             Page.leaf { keyArray := [5, -1], ridArray := [⟨0, 0⟩, ⟨0, 0⟩],
                         rightSibPageNo := 0 }]
    headerPageNum := 1
    rootPageNum := 3
    numOfNodes := 3
    attrByteOffset := 0
    attributeType := Datatype.INTEGER }

/-- The tree `beforeRootFull` after `traverse` stored key 8: the right leaf was split and the
root now holds the separators 5 and 8 and is full. -/
def rootFull : BTreeIndex :=
  { file := [Page.header { relationName := "rel", attrByteOffset := 0,
                           attrType := Datatype.INTEGER, rootPageNo := 3 },
             Page.leaf { keyArray := [3, -1], ridArray := [ridOf 5, ⟨0, 0⟩],
                         rightSibPageNo := 0 },
             Page.nonLeaf { level := 1, keyArray := [5, 8], pageNoArray := [2, 4, 5] },
             Page.leaf { keyArray := [5, -1], ridArray := [⟨0, 0⟩, ⟨0, 0⟩],
                         rightSibPageNo := 0 },
             Page.leaf { keyArray := [8, -1], ridArray := [⟨0, 0⟩, ⟨0, 0⟩],
                         rightSibPageNo := 0 }]
    headerPageNum := 1
    rootPageNum := 3
    numOfNodes := 5
    attrByteOffset := 0
    attributeType := Datatype.INTEGER }

/-- A leaf of capacity 4 holding the sorted keys 5, 7, 9. -/
def leaf579 : LeafNodeInt :=
  { keyArray := [5, 7, 9, -1]
    ridArray := [ridOf 5, ridOf 7, ridOf 9, ⟨0, 0⟩]
    rightSibPageNo := 0 }

/-- One leaf insertion step of the insertion engine on the nodes (lines 148-150 and
409-418 without the parent update): `insertToNode`, the fullness test on the last key slot
and, when it fires, the split into the leaf and the freshly allocated `rightPage`.  Returns
the resulting leaves. -/
def insertStepLeaves (L : Nat) (node rightPage : LeafNodeInt) (key : Int) (rid : RecordId) :
    Option (List LeafNodeInt) :=
  match insertToNode L node key rid with
  | none => none
  | some node1 =>
    match lastKey node1.keyArray L with
    | none => none
    | some test =>
      if test ≠ -1 then
        match splitLeafNodes L node1 rightPage with
        | none => none
        | some (left, right, _) => some [left, right]
      else some [node1]

/-- Modelled from the spec: the 4-byte integer that starts at byte `b` of a record (bytes as
numbers below 256, little-endian two's complement); `none` when the four bytes are not all
inside the record. -/
def int32At (record : List Nat) (b : Nat) : Option Int :=
  match record[b]?, record[b + 1]?, record[b + 2]?, record[b + 3]? with
  | some b0, some b1, some b2, some b3 =>
    let v := b0 % 256 + 256 * (b1 % 256) + 65536 * (b2 % 256) + 16777216 * (b3 % 256)
    some (if v < 2147483648 then (v : Int) else (v : Int) - 4294967296)
  | _, _, _, _ => none

/-- Lines 82 and 106: the key the constructor hands to `insertEntry` for a record,
`*((int*)record.c_str() + attrByteOffset)`.  The cast to `int*` is applied before the
addition, so the pointer advances by `attrByteOffset` ints, that is `4 * attrByteOffset`
bytes. -/
def constructorKey (record : List Nat) (attrByteOffset : Int) : Option Int :=
  if attrByteOffset < 0 then none else int32At record (4 * attrByteOffset.toNat)

/-- The loop of lines 78-84 over the records of the relation, each given as its record
locator and its bytes (the relation scan is external). -/
def bulkLoad (L M fuel : Nat) (attrByteOffset : Int) (s : BTreeIndex) :
    List (RecordId × List Nat) → Option BTreeIndex
  | [] => some s
  | (rid, record) :: rest =>
    match constructorKey record attrByteOffset with
    | none => none
    | some key =>
      match insertEntry L M fuel s key rid with
      | none => none
      | some s1 => bulkLoad L M fuel attrByteOffset s1 rest

/-- The constructor `BTreeIndex::BTreeIndex` (lines 58-86) from the creation of the metadata
page on; `relation` lists the records the relation scan yields. -/
def constructIndex (L M fuel : Nat) (relationName : String) (attrByteOffset : Int)
    (attrType : Datatype) (rootPageNum : PageId) (relation : List (RecordId × List Nat)) :
    Option BTreeIndex :=
  bulkLoad L M fuel attrByteOffset (emptyIndex relationName attrByteOffset attrType rootPageNum)
    relation

/-- A record of 20 bytes holding the five integers 10, 20, 30, 40, 50. -/
def record5 : List Nat :=
  [10, 0, 0, 0, 20, 0, 0, 0, 30, 0, 0, 0, 40, 0, 0, 0, 50, 0, 0, 0]

/-- The node type of a page: 0 for the metadata page, 1 for a leaf, 2 for an internal node. -/
def Page.kind : Page → Nat
  | Page.header _ => 0
  | Page.leaf _ => 1
  | Page.nonLeaf _ => 2

/-- Every page of `file` is still a page of `file1`, with the same node type. -/
def KeepsPages (file file1 : List Page) : Prop :=
  ∀ (p : Nat) (pg : Page), readPage file p = some pg →
    ∃ pg1, readPage file1 p = some pg1 ∧ pg1.kind = pg.kind

/-- The relation between the node counter and the shape of the tree: the metadata page is
readable and either the tree is empty (root page number 0, counter 0), or the root is a leaf
and the counter is 1, or the root is an internal node and the counter is at least 3; in the
last two cases the metadata root page number equals `rootPageNum`. -/
def CounterInv (s : BTreeIndex) : Prop :=
  ∃ md, readHeader s.file s.headerPageNum = some md
    ∧ ((md.rootPageNo = 0 ∧ s.numOfNodes = 0)
      ∨ (md.rootPageNo = s.rootPageNum ∧ s.numOfNodes = 1
          ∧ ∃ n, readLeaf s.file s.rootPageNum = some n)
      ∨ (md.rootPageNo = s.rootPageNum ∧ 3 ≤ s.numOfNodes
          ∧ ∃ n, readNonLeaf s.file s.rootPageNum = some n))

/-! ## The bookkeeping of `insertEntry`: pages allocated, root page number, node counter

The functions of this section are `insertEntry` and its helpers with the contents of the node
pages left out.  What is kept is every `allocPage` call, together with the node type the new
page is initialised as, and every assignment to `rootPageNum`, `numOfNodes` and
`metadata->rootPageNo`.  The code branches on page contents in four places (lines 149, 165,
397 with 402, and 410); the outcome of each of these tests is an argument, so that the
functions describe the calls whatever the pages hold, also after a page has been written
through a pointer of the other node type.  `numOfNodes` is an `int`: the sums are taken in
32-bit two's complement. -/

/-- The value of an `int` sum: 32-bit two's complement wrap-around. -/
def int32 (n : Int) : Int :=
  (n + 2147483648) % 4294967296 - 2147483648

/-- The bookkeeping state: for every page of the index file the node type it was allocated
as (0 for the metadata page, 1 for a leaf, 2 for an internal node, as `Page.kind`), the
metadata field `rootPageNo`, and the members `rootPageNum` and `numOfNodes`. -/
structure Shape where
  pages : List Nat
  rootPageNo : Nat
  rootPageNum : Nat
  numOfNodes : Int
  deriving DecidableEq, Repr

/-- The outcomes of the tests on page contents during one call of `traverse`: the node is
at level 1 and `full` is the test of line 410 on its child leaf, or the node is not at
level 1 (line 397), `below` is the recursive call of line 400 and `full` is the test of
line 402. -/
inductive Descent where
  | leafChild (full : Bool)
  | innerChild (below : Descent) (full : Bool)
  deriving Repr

/-- The outcomes of the tests on page contents during one call of `insertEntry`: the test of
line 149 (the root leaf is full), the descent of line 164, and the test of line 165 (the
root is full).  A call uses the ones of the branch it takes. -/
structure Outcome where
  rootLeafFull : Bool
  descent : Descent
  rootFull : Bool
  deriving Repr

/-- The node type page `p` was allocated as (`none` when there is no such page). -/
def Shape.readKind (s : Shape) (p : Nat) : Option Nat :=
  if p = 0 then none else s.pages[p - 1]?

/-- The call `allocPage`: a page of the given node type is appended; returns its number. -/
def Shape.allocPage (s : Shape) (kind : Nat) : Nat × Shape :=
  (s.pages.length + 1, { s with pages := s.pages ++ [kind] })

/-- The function `splitLeafNode` (lines 321-348): the right page is allocated as a leaf
(lines 325-328) and the node counter is incremented (line 345). -/
def Shape.splitLeafNode (s : Shape) : Shape :=
  match s.allocPage 1 with
  | (_, s1) => { s1 with numOfNodes := int32 (s1.numOfNodes + 1) }

/-- The function `splitNonLeafNode` (lines 353-376): the right page is allocated as an
internal node (lines 355-358) and the node counter is incremented (line 375). -/
def Shape.splitNonLeafNode (s : Shape) : Shape :=
  match s.allocPage 2 with
  | (_, s1) => { s1 with numOfNodes := int32 (s1.numOfNodes + 1) }

/-- The function `fullNodeHandler` (lines 218-261): when `parentNode` is `NULL` a page is
allocated as an internal node and its number is stored in `rootPageNum` (lines 221-229);
then the node is split by `splitLeafNode` or `splitNonLeafNode` (lines 235-244). -/
def Shape.fullNodeHandler (s : Shape) (parentIsNull isLeaf : Bool) : Shape :=
  match (if parentIsNull then
          match s.allocPage 2 with
          | (pid, s0) => { s0 with rootPageNum := pid }
         else s) with
  | s1 => if isLeaf then s1.splitLeafNode else s1.splitNonLeafNode

/-- The function `traverse` (lines 381-423): below a node that is not at level 1 the
descent continues (line 400) and the child is split when the test of line 402 fires
(lines 403-404); below a node at level 1 the child is split when the test of line 410
fires (lines 418-419).  Each split is `fullNodeHandler(childNode, currNode, ..., 1)`
followed by `numOfNodes++`. -/
def Shape.traverse (s : Shape) : Descent → Shape
  | Descent.innerChild below full =>
    match Shape.traverse s below with
    | s1 =>
      if full then
        match s1.fullNodeHandler false true with
        | s2 => { s2 with numOfNodes := int32 (s2.numOfNodes + 1) }
      else s1
  | Descent.leafChild full =>
    if full then
      match s.fullNodeHandler false true with
      | s2 => { s2 with numOfNodes := int32 (s2.numOfNodes + 1) }
    else s

/-- The function `insertEntry` (lines 104-192): the first insertion allocates the root as a
leaf (lines 114-129); with `numOfNodes == 1` the root is handled as a leaf and split with a
`NULL` parent when full (lines 140-153); otherwise the descent runs and the root is split
with a `NULL` parent when full (lines 156-169); at the end the root page number is stored
in the metadata (line 189). -/
def Shape.insertEntry (s : Shape) (o : Outcome) : Shape :=
  match (if s.rootPageNo = 0 then
          match s.allocPage 1 with
          | (pid, s0) =>
            { s0 with rootPageNum := pid, rootPageNo := pid,
                      numOfNodes := int32 (s0.numOfNodes + 1) }
         else if s.numOfNodes = 1 then
          if o.rootLeafFull then
            match s.fullNodeHandler true true with
            | s2 => { s2 with numOfNodes := int32 (s2.numOfNodes + 1) }
          else s
         else
          match s.traverse o.descent with
          | s1 =>
            if o.rootFull then
              match s1.fullNodeHandler true true with
              | s2 => { s2 with numOfNodes := int32 (s2.numOfNodes + 1) }
            else s1) with
  | s3 => { s3 with rootPageNo := s3.rootPageNum }

/-- The index right after lines 58-73 of the constructor: the metadata page is the only page,
its `rootPageNo` is 0 and `numOfNodes` is 0; `rootPageNum` is not initialised. -/
def Shape.emptyIndex (rootPageNum : Nat) : Shape :=
  { pages := [0], rootPageNo := 0, rootPageNum := rootPageNum, numOfNodes := 0 }

/-- A sequence of `insertEntry` calls, one for each element of the list. -/
def Shape.insertAll (s : Shape) : List Outcome → Shape
  | [] => s
  | o :: rest => Shape.insertAll (s.insertEntry o) rest

/-- The relation between the node counter and the root: the counter is not negative and
at most twice the number of node pages, and either the tree is empty (metadata root page
number 0, counter 0), or the root page was allocated as a leaf and the counter is 1, or the
root page was allocated as an internal node and the counter is at least 3; in the last two
cases the metadata root page number equals `rootPageNum`. -/
def Shape.Inv (s : Shape) : Prop :=
  0 ≤ s.numOfNodes ∧ s.numOfNodes + 2 ≤ 2 * s.pages.length
    ∧ ((s.rootPageNo = 0 ∧ s.numOfNodes = 0)
      ∨ (s.rootPageNo = s.rootPageNum ∧ s.numOfNodes = 1
          ∧ s.readKind s.rootPageNum = some 1)
      ∨ (s.rootPageNo = s.rootPageNum ∧ 3 ≤ s.numOfNodes
          ∧ s.readKind s.rootPageNum = some 2))

/-- The bookkeeping state of an index whose metadata page holds the root page number
`rootPageNo`: the node types of its pages, `rootPageNum` and `numOfNodes`. -/
def shapeWith (rootPageNo : Nat) (s : BTreeIndex) : Shape :=
  { pages := s.file.map Page.kind, rootPageNo := rootPageNo,
    rootPageNum := s.rootPageNum, numOfNodes := s.numOfNodes }

/-- The bookkeeping state of an index, the root page number being read from its metadata
page. -/
def shapeOf (s : BTreeIndex) : Option Shape :=
  match readHeader s.file s.headerPageNum with
  | none => none
  | some metadata => some (shapeWith metadata.rootPageNo s)

/-! # Theorems -/

/-! ### Array stores and the key-shifting loop -/

theorem wr_eq_some {α : Type} (xs : List α) (i : Nat) (v : α) (h : i < xs.length) :
    wr xs i v = some (xs.set i v) := by
  simp [wr, h]

theorem wr_append_cons {α : Type} (A : List α) (y v : α) (rest : List α) :
    wr (A ++ y :: rest) A.length v = some (A ++ v :: rest) := by
  simp [wr]

theorem getElem?_append_cons {α : Type} (A : List α) (x : α) (rest : List α) :
    (A ++ x :: rest)[A.length]? = some x := by
  rw [List.getElem?_append_right (le_refl _)]; simp

/-- Walking down through empty slots leaves the array unchanged. -/
theorem shiftKeys_skip (k : Int) (body : List Int) :
    ∀ (t : Nat) (rest : List Int),
      shiftKeys k (body.length + t) (body ++ List.replicate t (-1) ++ rest)
        = shiftKeys k body.length (body ++ List.replicate t (-1) ++ rest)
  | 0, rest => by simp
  | t + 1, rest => by
    have h := shiftKeys_skip k body t ((-1) :: rest)
    have e : body ++ List.replicate (t + 1) (-1) ++ rest
        = body ++ List.replicate t (-1) ++ (-1) :: rest := by
      simp [List.replicate_succ', List.append_assoc]
    rw [e, ← h]
    have hget : (body ++ List.replicate t (-1) ++ (-1 : Int) :: rest)[body.length + t]?
        = some (-1) := by
      rw [List.getElem?_append_right (by simp)]
      simp
    rw [← Nat.add_assoc]
    simp only [shiftKeys, hget]
    simp

/-- The shifting phase: the keys `B` greater than `k` move one slot to the right. -/
theorem shiftKeys_shift (k : Int) (A : List Int)
    (hA : ∀ a, A.getLast? = some a → ¬ (k < a) ∧ a ≠ -1) :
    ∀ (B : List Int) (y : Int) (rest : List Int), (∀ b ∈ B, k < b ∧ b ≠ -1) →
      shiftKeys k (A.length + B.length) (A ++ B ++ y :: rest)
        = some (A.length, A ++ B.headD y :: B ++ rest) := by
  intro B
  induction B using List.reverseRecOn with
  | nil =>
    intro y rest _
    simp only [List.length_nil, Nat.add_zero, List.append_nil, List.headD_nil]
    rcases List.eq_nil_or_concat A with hnil | ⟨A1, a, hcat⟩
    · subst hnil; simp [shiftKeys]
    · rw [List.concat_eq_append] at hcat
      subst hcat
      have ha := hA a (by simp)
      have hget : (A1 ++ [a] ++ y :: rest)[A1.length]? = some a := by
        rw [List.append_assoc]; exact getElem?_append_cons A1 a _
      simp only [List.length_append, List.length_singleton, shiftKeys, hget]
      simp [ha.1, ha.2]
  | append_singleton B1 x ih =>
    intro y rest hB
    have hx := hB x (by simp)
    have hB1 : ∀ b ∈ B1, k < b ∧ b ≠ -1 := fun b hb => hB b (by simp [hb])
    have hget : (A ++ (B1 ++ [x]) ++ y :: rest)[A.length + B1.length]? = some x := by
      have := getElem?_append_cons (A ++ B1) x (y :: rest)
      simpa [List.append_assoc] using this
    have hwr : wr (A ++ (B1 ++ [x]) ++ y :: rest) (A.length + B1.length + 1) x
        = some (A ++ B1 ++ x :: x :: rest) := by
      have := wr_append_cons (A ++ (B1 ++ [x])) y x rest
      simp only [List.length_append, List.length_singleton, ← Nat.add_assoc] at this
      rw [this]; simp
    simp only [List.length_append, List.length_singleton, ← Nat.add_assoc, shiftKeys, hget, hwr]
    simp only [hx.1, hx.2, true_or, ne_eq, not_false_eq_true, if_true]
    rw [ih x (x :: rest) hB1]
    cases B1 <;> simp

theorem shiftKeys_insert (k : Int) (A B : List Int) (t : Nat)
    (hA : ∀ a, A.getLast? = some a → ¬ (k < a) ∧ a ≠ -1)
    (hB : ∀ b ∈ B, k < b ∧ b ≠ -1) :
    shiftKeys k (A.length + B.length + (t + 1)) (A ++ B ++ List.replicate (t + 1) (-1))
      = some (A.length, A ++ B.headD (-1) :: B ++ List.replicate t (-1)) := by
  have h1 := shiftKeys_skip k (A ++ B) (t + 1) []
  simp only [List.append_nil, List.length_append] at h1
  rw [h1, List.replicate_succ]
  exact shiftKeys_shift k A hA B (-1) _ hB

/-! ### `insertToNode` -/

/-- Closed form of `insertToNode` on a leaf whose stored keys are `A ++ B`, the keys of `A`
ending with one not above `key` and all keys of `B` above `key`. -/
theorem insertToNode_eq (L : Nat) (node : LeafNodeInt) (key : Int) (rid : RecordId)
    (A B : List Int) (t : Nat) (hL : L = A.length + B.length + (t + 1))
    (hkeys : node.keyArray = A ++ B ++ List.replicate (t + 1) (-1))
    (hA : ∀ a, A.getLast? = some a → ¬ (key < a) ∧ a ≠ -1)
    (hB : ∀ b ∈ B, key < b ∧ b ≠ -1) :
    insertToNode L node key rid
      = some { node with keyArray := A ++ key :: B ++ List.replicate t (-1) } := by
  unfold insertToNode
  simp only [hL, hkeys, shiftKeys_insert key A B t hA hB]
  have := wr_append_cons A (B.headD (-1)) key (B ++ List.replicate t (-1))
  simp only [List.cons_append, List.append_assoc] at this ⊢
  rw [this]

/-- A sorted list is its keys not above `k` followed by its keys above `k`. -/
theorem sorted_filter_split (k : Int) :
    ∀ ks : List Int, ks.Sorted (· ≤ ·) →
      ks = ks.filter (fun x => decide (x ≤ k)) ++ ks.filter (fun x => decide (k < x))
  | [], _ => by simp
  | x :: t, h => by
    have ht : t.Sorted (· ≤ ·) := h.of_cons
    have hx : ∀ y ∈ t, x ≤ y := fun y hy => List.rel_of_sorted_cons h y hy
    by_cases hxk : x ≤ k
    · have : ¬ k < x := not_lt.mpr hxk
      simp only [List.filter_cons, hxk, this, decide_True, decide_False, if_true,
        List.cons_append]
      simp only [Bool.false_eq_true, if_false]
      exact congrArg _ (sorted_filter_split k t ht)
    · have hkx : k < x := not_le.mp hxk
      have h1 : (x :: t).filter (fun x => decide (x ≤ k)) = [] := by
        rw [List.filter_eq_nil_iff]
        intro y hy
        rcases List.mem_cons.mp hy with rfl | hy
        · simpa using hkx
        · have := hx y hy
          simp only [decide_eq_true_eq, not_le]; omega
      have h2 : (x :: t).filter (fun x => decide (k < x)) = x :: t := by
        rw [List.filter_eq_self]
        intro y hy
        rcases List.mem_cons.mp hy with rfl | hy
        · simpa using hkx
        · have := hx y hy
          simp only [decide_eq_true_eq]; omega
      rw [h1, h2]; rfl

theorem sorted_insert_middle (k : Int) (ks : List Int) (h : ks.Sorted (· ≤ ·)) :
    (ks.filter (fun x => decide (x ≤ k)) ++ k :: ks.filter (fun x => decide (k < x))).Sorted
      (· ≤ ·) := by
  have hs := sorted_filter_split k ks h
  rw [hs] at h
  have hp := List.pairwise_append.mp h
  unfold List.Sorted
  rw [List.pairwise_append]
  refine ⟨hp.1, ?_, ?_⟩
  · rw [List.pairwise_cons]
    refine ⟨?_, hp.2.1⟩
    intro b hb
    have := (List.mem_filter.mp hb).2
    simp only [decide_eq_true_eq] at this
    omega
  · intro a ha b hb
    have ha1 := (List.mem_filter.mp ha).2
    simp only [decide_eq_true_eq] at ha1
    rcases List.mem_cons.mp hb with rfl | hb
    · exact ha1
    · have := (List.mem_filter.mp hb).2
      simp only [decide_eq_true_eq] at this
      omega

/-- C2. `insertToNode` keeps a leaf's keys sorted: on a leaf whose key array is `n < L`
non-sentinel keys in non-decreasing order followed by sentinel slots, inserting a key
different from `-1` succeeds and yields `n + 1` non-sentinel keys in non-decreasing order
followed by sentinel slots, the stored keys being a permutation of the old keys plus the new
one. -/
theorem insertToNode_keeps_sorted (L n : Nat) (node : LeafNodeInt) (ks : List Int) (k : Int)
    (rid : RecordId) (hn : n < L) (hlen : ks.length = n)
    (hkeys : node.keyArray = ks ++ List.replicate (L - n) (-1))
    (hns : ∀ x ∈ ks, x ≠ -1) (hsorted : ks.Sorted (· ≤ ·)) (hk : k ≠ -1) :
    ∃ node1 ks1, insertToNode L node k rid = some node1
      ∧ node1.keyArray = ks1 ++ List.replicate (L - (n + 1)) (-1)
      ∧ ks1.length = n + 1 ∧ (∀ x ∈ ks1, x ≠ -1) ∧ ks1.Sorted (· ≤ ·)
      ∧ ks1.Perm (k :: ks) := by
  have hs := sorted_filter_split k ks hsorted
  set A := ks.filter (fun x => decide (x ≤ k)) with hAdef
  set B := ks.filter (fun x => decide (k < x)) with hBdef
  have hAB : A.length + B.length = n := by
    rw [← hlen, ← List.length_append, ← hs]
  have hA : ∀ a, A.getLast? = some a → ¬ (k < a) ∧ a ≠ -1 := by
    intro a ha
    have hmem : a ∈ A := List.mem_of_getLast?_eq_some ha
    have h1 := List.mem_filter.mp hmem
    simp only [decide_eq_true_eq] at h1
    exact ⟨not_lt.mpr h1.2, hns a h1.1⟩
  have hB : ∀ b ∈ B, k < b ∧ b ≠ -1 := by
    intro b hb
    have h1 := List.mem_filter.mp hb
    simp only [decide_eq_true_eq] at h1
    exact ⟨h1.2, hns b h1.1⟩
  have ht : L - n = (L - (n + 1)) + 1 := by omega
  have hkeys1 : node.keyArray = A ++ B ++ List.replicate ((L - (n + 1)) + 1) (-1) := by
    rw [hkeys, ← hs, ← ht]
  have hL : L = A.length + B.length + ((L - (n + 1)) + 1) := by omega
  refine ⟨_, A ++ k :: B, insertToNode_eq L node k rid A B (L - (n + 1)) hL hkeys1 hA hB,
    by simp, ?_, ?_, sorted_insert_middle k ks hsorted, ?_⟩
  · simp only [List.length_append, List.length_cons]; omega
  · intro x hx
    rcases List.mem_append.mp hx with hx | hx
    · exact hns x (List.mem_filter.mp hx).1
    · rcases List.mem_cons.mp hx with rfl | hx
      · exact hk
      · exact hns x (List.mem_filter.mp hx).1
  · have : (A ++ k :: B).Perm (k :: (A ++ B)) := List.perm_middle
    rw [← hs] at this
    exact this

/-! ### Copy and fill loops -/

theorem copied_zero {α : Type} (dst src : List α) (j i : Nat) : copied dst src j i 0 = dst := by
  simp [copied]

theorem filled_zero {α : Type} (xs : List α) (i : Nat) (v : α) : filled xs i 0 v = xs := by
  simp [filled]

theorem copied_step {α : Type} (dst src : List α) (j i n : Nat) (x : α)
    (hj : j < dst.length) (hx : src[i]? = some x) :
    copied (dst.set j x) src (j + 1) (i + 1) n = copied dst src j i (n + 1) := by
  have hi : i < src.length := by
    rcases List.getElem?_eq_some.mp hx with ⟨h, _⟩; exact h
  have hxi : src[i] = x := by
    rcases List.getElem?_eq_some.mp hx with ⟨_, h⟩; exact h
  unfold copied
  have h1 : (dst.set j x).take (j + 1) = dst.take j ++ [x] := by
    rw [List.set_eq_take_append_cons_drop, if_pos hj]
    rw [List.take_append_eq_append_take]
    simp [List.length_take, Nat.min_eq_left (Nat.le_of_lt hj)]
  have h2 : (dst.set j x).drop (j + 1 + n) = dst.drop (j + (n + 1)) := by
    rw [List.drop_set_of_lt x dst (by omega)]
    congr 1; omega
  have h3 : (src.drop i).take (n + 1) = x :: (src.drop (i + 1)).take n := by
    rw [List.drop_eq_getElem_cons hi, List.take_succ_cons, hxi]
  rw [h1, h2, h3]
  simp

theorem filled_step {α : Type} (xs : List α) (i n : Nat) (v : α) (hi : i < xs.length) :
    filled (xs.set i v) (i + 1) n v = filled xs i (n + 1) v := by
  unfold filled
  have h1 : (xs.set i v).take (i + 1) = xs.take i ++ [v] := by
    rw [List.set_eq_take_append_cons_drop, if_pos hi]
    rw [List.take_append_eq_append_take]
    simp [List.length_take, Nat.min_eq_left (Nat.le_of_lt hi)]
  have h2 : (xs.set i v).drop (i + 1 + n) = xs.drop (i + (n + 1)) := by
    rw [List.drop_set_of_lt v xs (by omega)]
    congr 1; omega
  rw [h1, h2, List.replicate_succ]
  simp

theorem length_copied {α : Type} (dst src : List α) (j i n : Nat)
    (hj : j + n ≤ dst.length) (hi : i + n ≤ src.length) :
    (copied dst src j i n).length = dst.length := by
  simp only [copied, List.length_append, List.length_take, List.length_drop]
  omega

theorem length_filled {α : Type} (xs : List α) (i n : Nat) (v : α) (h : i + n ≤ xs.length) :
    (filled xs i n v).length = xs.length := by
  simp only [filled, List.length_append, List.length_take, List.length_drop,
    List.length_replicate]
  omega

/-- The fill loop of lines 123-125 and 225-227. -/
theorem forLoop_fill {α : Type} (v : α) :
    ∀ (n i : Nat) (xs : List α), i + n ≤ xs.length →
      forLoop (fun i ks => wr ks i v) i n xs = some (filled xs i n v)
  | 0, i, xs, _ => by simp [forLoop, filled_zero]
  | n + 1, i, xs, h => by
    have hi : i < xs.length := by omega
    simp only [forLoop, wr_eq_some xs i v hi, Option.some_bind]
    rw [forLoop_fill v n (i + 1) (xs.set i v) (by simp; omega), filled_step xs i n v hi]

theorem forLoop_fill_all {α : Type} (v : α) (n : Nat) (xs : List α) (h : xs.length = n) :
    forLoop (fun i ks => wr ks i v) 0 n xs = some (List.replicate n v) := by
  rw [forLoop_fill v n 0 xs (by omega)]
  simp [filled, ← h]

/-- The copy loop of `splitLeafNode` (lines 335-338). -/
theorem forLoop_splitLeafCopy (m : Nat) (left : LeafNodeInt) :
    ∀ (n i : Nat) (right : LeafNodeInt), m ≤ i →
      i + n ≤ left.keyArray.length → i + n ≤ left.ridArray.length →
      (i - m) + n ≤ right.keyArray.length → (i - m) + n ≤ right.ridArray.length →
      forLoop (splitLeafCopyBody m left) i n right
        = some { right with
            keyArray := copied right.keyArray left.keyArray (i - m) i n
            ridArray := copied right.ridArray left.ridArray (i - m) i n }
  | 0, i, right, _, _, _, _, _ => by simp [forLoop, copied_zero]
  | n + 1, i, right, hm, h1, h2, h3, h4 => by
    have hk : i < left.keyArray.length := by omega
    have hr : i < left.ridArray.length := by omega
    have hk1 : left.keyArray[i]? = some left.keyArray[i] := List.getElem?_eq_getElem hk
    have hr1 : left.ridArray[i]? = some left.ridArray[i] := List.getElem?_eq_getElem hr
    have hj1 : i - m < right.keyArray.length := by omega
    have hj2 : i - m < right.ridArray.length := by omega
    have hstep : i + 1 - m = i - m + 1 := by omega
    simp only [forLoop, splitLeafCopyBody, hk1, hr1, wr_eq_some _ _ _ hj1, wr_eq_some _ _ _ hj2,
      Option.some_bind]
    rw [forLoop_splitLeafCopy m left n (i + 1) _ (by omega) (by omega) (by omega)
      (by simp only [List.length_set]; omega) (by simp only [List.length_set]; omega)]
    simp only [hstep, copied_step _ _ _ _ _ _ hj1 hk1, copied_step _ _ _ _ _ _ hj2 hr1]

/-- The wipe loop of `splitLeafNode` (lines 339-342). -/
theorem forLoop_splitLeafWipe :
    ∀ (n i : Nat) (left right : LeafNodeInt),
      i + n ≤ left.keyArray.length → i + n ≤ right.keyArray.length →
      forLoop splitLeafWipeBody i n (left, right)
        = some ({ left with keyArray := filled left.keyArray i n (-1) },
                { right with keyArray := filled right.keyArray i n (-1) })
  | 0, i, left, right, _, _ => by simp [forLoop, filled_zero]
  | n + 1, i, left, right, h1, h2 => by
    have hl : i < left.keyArray.length := by omega
    have hr : i < right.keyArray.length := by omega
    simp only [forLoop, splitLeafWipeBody, wr_eq_some _ _ _ hl, wr_eq_some _ _ _ hr,
      Option.some_bind]
    rw [forLoop_splitLeafWipe n (i + 1) _ _ (by simp only [List.length_set]; omega)
      (by simp only [List.length_set]; omega)]
    simp only [filled_step _ _ _ _ hl, filled_step _ _ _ _ hr]

/-- Closed form of lines 330-342 on a leaf with `L ≥ 1` slots and a right page with `L`
slots: the left node keeps its first `L/2` keys; the right node receives the keys from `L/2`
on, of which only the first `L/2` survive the wipe; the record locators from `L/2` on are
copied to the right node. -/
theorem splitLeafNodes_eq (L : Nat) (left right : LeafNodeInt) (hL : 0 < L)
    (hlk : left.keyArray.length = L) (hlr : left.ridArray.length = L)
    (hrk : right.keyArray.length = L) (hrr : right.ridArray.length = L) :
    ∃ middleKey, left.keyArray[L / 2]? = some middleKey ∧
      splitLeafNodes L left right
        = some ({ left with
                    keyArray := left.keyArray.take (L / 2) ++ List.replicate (L - L / 2) (-1) },
                { right with
                    keyArray := (left.keyArray.drop (L / 2)).take (L / 2)
                      ++ List.replicate (L - L / 2) (-1)
                    ridArray := left.ridArray.drop (L / 2) ++ right.ridArray.drop (L - L / 2) },
                middleKey) := by
  have hm : L / 2 < L := Nat.div_lt_self hL (by decide)
  have hmk : left.keyArray[L / 2]? = some left.keyArray[L / 2] :=
    List.getElem?_eq_getElem (by omega)
  refine ⟨_, hmk, ?_⟩
  unfold splitLeafNodes
  simp only [hmk]
  rw [forLoop_splitLeafCopy (L / 2) left (L - L / 2) (L / 2) right (le_refl _) (by omega)
    (by omega) (by omega) (by omega)]
  simp only
  rw [forLoop_splitLeafWipe (L - L / 2) (L / 2) _ _ (by omega)
    (by simp only [Nat.sub_self]; rw [length_copied] <;> omega)]
  have e1 : filled left.keyArray (L / 2) (L - L / 2) (-1)
      = left.keyArray.take (L / 2) ++ List.replicate (L - L / 2) (-1) := by
    unfold filled
    rw [List.drop_of_length_le (by omega)]; simp
  have hc : ∀ {α : Type} (dst src : List α), src.length = L →
      copied dst src (L / 2 - L / 2) (L / 2) (L - L / 2)
        = src.drop (L / 2) ++ dst.drop (L - L / 2) := by
    intro α dst src hsrc
    have ht : (src.drop (L / 2)).take (L - L / 2) = src.drop (L / 2) :=
      List.take_of_length_le (by simp only [List.length_drop]; omega)
    simp only [copied, Nat.sub_self, List.take_zero, List.nil_append, Nat.zero_add, ht]
  have e2 := hc right.ridArray left.ridArray hlr
  have e3 : filled (copied right.keyArray left.keyArray (L / 2 - L / 2) (L / 2) (L - L / 2))
      (L / 2) (L - L / 2) (-1)
      = (left.keyArray.drop (L / 2)).take (L / 2) ++ List.replicate (L - L / 2) (-1) := by
    rw [hc right.keyArray left.keyArray hlk]
    have hd : (left.keyArray.drop (L / 2) ++ right.keyArray.drop (L - L / 2)).drop
        (L / 2 + (L - L / 2)) = [] :=
      List.drop_of_length_le (by
        simp only [List.length_append, List.length_drop]; omega)
    have ht : (left.keyArray.drop (L / 2) ++ right.keyArray.drop (L - L / 2)).take (L / 2)
        = (left.keyArray.drop (L / 2)).take (L / 2) :=
      List.take_append_of_le_length (by simp only [List.length_drop]; omega)
    simp only [filled, hd, ht, List.append_nil]
  rw [e1, e2, e3]

/-! ### Page store -/

theorem readPage_some {file : List Page} {p : Nat} {pg : Page}
    (h : readPage file p = some pg) : 0 < p ∧ p ≤ file.length := by
  unfold readPage at h
  unfold PageId at *
  by_cases hp : p = 0
  · simp [hp] at h
  · rw [if_neg hp] at h
    have := (List.getElem?_eq_some.mp h).1
    constructor <;> omega

theorem readPage_append {file : List Page} {p : Nat} {pg : Page} (x : Page)
    (h : readPage file p = some pg) : readPage (file ++ [x]) p = some pg := by
  obtain ⟨hb0, hb1⟩ := readPage_some h
  unfold readPage at h ⊢
  unfold PageId at *
  have hp : p ≠ 0 := by omega
  rw [if_neg hp] at h ⊢
  rw [List.getElem?_append_left (by omega)]
  exact h

theorem readPage_alloc (file : List Page) (x : Page) :
    readPage (file ++ [x]) (file.length + 1) = some x := by
  unfold readPage
  simp

theorem writePage_eq (file : List Page) (p : Nat) (pg : Page) (h0 : 0 < p)
    (hp : p ≤ file.length) : writePage file p pg = some (file.set (p - 1) pg) := by
  unfold writePage
  have h1 : p ≠ 0 := by omega
  have h2 : p - 1 < file.length := by omega
  simp [h1, h2]

theorem readPage_set_same (file : List Page) (p : Nat) (pg : Page) (h0 : 0 < p)
    (hp : p ≤ file.length) : readPage (file.set (p - 1) pg) p = some pg := by
  unfold readPage
  have h1 : p ≠ 0 := by omega
  rw [if_neg h1, List.getElem?_set_self (by omega)]

theorem readPage_set_other (file : List Page) (p q : Nat) (pg : Page) (h0 : 0 < p)
    (hq : 0 < q) (hne : p ≠ q) : readPage (file.set (q - 1) pg) p = readPage file p := by
  unfold readPage
  have h1 : p ≠ 0 := by omega
  rw [if_neg h1, if_neg h1, List.getElem?_set_ne (by omega)]

theorem readLeaf_some {file : List Page} {p : Nat} {n : LeafNodeInt}
    (h : readLeaf file p = some n) : readPage file p = some (Page.leaf n) := by
  unfold readLeaf at h
  split at h
  · simp only [Option.some.injEq] at h; subst h; assumption
  · simp at h

theorem readLeaf_of_readPage {file : List Page} {p : Nat} {n : LeafNodeInt}
    (h : readPage file p = some (Page.leaf n)) : readLeaf file p = some n := by
  unfold readLeaf; rw [h]

theorem readNonLeaf_some {file : List Page} {p : Nat} {n : NonLeafNodeInt}
    (h : readNonLeaf file p = some n) : readPage file p = some (Page.nonLeaf n) := by
  unfold readNonLeaf at h
  split at h
  · simp only [Option.some.injEq] at h; subst h; assumption
  · simp at h

theorem readNonLeaf_of_readPage {file : List Page} {p : Nat} {n : NonLeafNodeInt}
    (h : readPage file p = some (Page.nonLeaf n)) : readNonLeaf file p = some n := by
  unfold readNonLeaf; rw [h]

theorem readHeader_some {file : List Page} {p : Nat} {m : IndexMetaInfo}
    (h : readHeader file p = some m) : readPage file p = some (Page.header m) := by
  unfold readHeader at h
  split at h
  · simp only [Option.some.injEq] at h; subst h; assumption
  · simp at h

theorem readHeader_of_readPage {file : List Page} {p : Nat} {m : IndexMetaInfo}
    (h : readPage file p = some (Page.header m)) : readHeader file p = some m := by
  unfold readHeader; rw [h]

/-! ### `splitLeafNode` -/

/-- The left node after a leaf split. -/
theorem splitLeafNode_eq (L : Nat) (s : BTreeIndex) (p : Nat) (node : LeafNodeInt)
    (hL : 0 < L) (hread : readLeaf s.file p = some node)
    (hk : node.keyArray.length = L) (hr : node.ridArray.length = L) :
    ∃ s1 middleKey left right,
      splitLeafNode L s p = some (s1, middleKey, s.file.length + 1)
      ∧ node.keyArray[L / 2]? = some middleKey
      ∧ left = { node with
          keyArray := node.keyArray.take (L / 2) ++ List.replicate (L - L / 2) (-1) }
      ∧ right = { zeroLeaf L with
          keyArray := (node.keyArray.drop (L / 2)).take (L / 2)
            ++ List.replicate (L - L / 2) (-1)
          ridArray := node.ridArray.drop (L / 2) ++ (zeroLeaf L).ridArray.drop (L - L / 2) }
      ∧ s1 = { s with
          file := ((s.file ++ [Page.leaf (zeroLeaf L)]).set (p - 1) (Page.leaf left)).set
            s.file.length (Page.leaf right)
          numOfNodes := s.numOfNodes + 1 }
      ∧ readLeaf s1.file p = some left
      ∧ readLeaf s1.file (s.file.length + 1) = some right := by
  have hpg := readLeaf_some hread
  obtain ⟨hb0, hb1⟩ := readPage_some hpg
  obtain ⟨middleKey, hmk, hsplit⟩ := splitLeafNodes_eq L node (zeroLeaf L) hL hk hr
    (by simp [zeroLeaf]) (by simp [zeroLeaf])
  refine ⟨_, middleKey, _, _, ?_, hmk, rfl, rfl, rfl, ?_, ?_⟩
  · unfold splitLeafNode allocPage
    simp only [readLeaf_of_readPage (readPage_append _ hpg),
      readLeaf_of_readPage (readPage_alloc s.file _), hsplit]
    rw [writePage_eq _ p _ hb0 (by simp; omega)]
    simp only
    rw [writePage_eq _ (s.file.length + 1) _ (by omega) (by simp)]
    simp
  · apply readLeaf_of_readPage
    have h1 := readPage_set_other ((s.file ++ [Page.leaf (zeroLeaf L)]).set (p - 1)
      (Page.leaf { node with
          keyArray := node.keyArray.take (L / 2) ++ List.replicate (L - L / 2) (-1) }))
      p (s.file.length + 1) (Page.leaf { zeroLeaf L with
          keyArray := (node.keyArray.drop (L / 2)).take (L / 2)
            ++ List.replicate (L - L / 2) (-1)
          ridArray := node.ridArray.drop (L / 2) ++ (zeroLeaf L).ridArray.drop (L - L / 2) })
      hb0 (by omega) (by omega)
    simp only [Nat.add_sub_cancel] at h1
    rw [h1]
    exact readPage_set_same _ p _ hb0 (by simp; omega)
  · apply readLeaf_of_readPage
    have h1 := readPage_set_same ((s.file ++ [Page.leaf (zeroLeaf L)]).set (p - 1)
      (Page.leaf { node with
          keyArray := node.keyArray.take (L / 2) ++ List.replicate (L - L / 2) (-1) }))
      (s.file.length + 1) (Page.leaf { zeroLeaf L with
          keyArray := (node.keyArray.drop (L / 2)).take (L / 2)
            ++ List.replicate (L - L / 2) (-1)
          ridArray := node.ridArray.drop (L / 2) ++ (zeroLeaf L).ridArray.drop (L - L / 2) })
      (by omega) (by simp)
    simpa only [Nat.add_sub_cancel] using h1

/-! ### Entries of a leaf -/

theorem filter_zip_keys (n : Nat) :
    ∀ (A : List Int) (R : List RecordId), (∀ x ∈ A, x ≠ -1) →
      ((A ++ List.replicate n (-1)).zip R).filter (fun e => decide (e.1 ≠ -1)) = A.zip R
  | [], R, _ => by
    rw [List.nil_append, List.zip_nil_left, List.filter_eq_nil_iff]
    intro e he
    have h1 := (List.of_mem_zip (a := e.1) (b := e.2) he).1
    have h2 := List.eq_of_mem_replicate h1
    simp [h2]
  | a :: A, [], _ => by simp
  | a :: A, r :: R, h => by
    have ha : a ≠ -1 := h a (by simp)
    have ih := filter_zip_keys n A R (fun x hx => h x (by simp [hx]))
    simp only [List.cons_append, List.zip_cons_cons, List.filter_cons, ha, ne_eq,
      not_false_eq_true, decide_True, if_true, ih]

theorem filter_keys (n : Nat) (A : List Int) (h : ∀ x ∈ A, x ≠ -1) :
    (A ++ List.replicate n (-1)).filter (fun x => decide (x ≠ -1)) = A := by
  have : List.filter (fun x => decide (x ≠ -1)) A = A := by
    rw [List.filter_eq_self]; intro x hx; simpa using h x hx
  rw [List.filter_append, this, List.filter_replicate]
  simp

theorem zip_take_left {α β : Type} :
    ∀ (m : Nat) (K : List α) (R : List β), (K.take m).zip R = (K.zip R).take m
  | 0, K, R => by simp
  | m + 1, [], R => by simp
  | m + 1, k :: K, [] => by simp
  | m + 1, k :: K, r :: R => by simp [zip_take_left m K R]

theorem drop_zip_eq {α β : Type} (m : Nat) (K : List α) (R : List β) :
    (K.zip R).drop m = (K.drop m).zip (R.drop m) := by
  unfold List.zip
  exact List.drop_zipWith

theorem zip_append_right_junk {α β : Type} (A : List α) (B J : List β)
    (h : A.length = B.length) : A.zip (B ++ J) = A.zip B := by
  have := @List.zip_append α β A [] B J h
  simpa using this

theorem leafEntries_full (node : LeafNodeInt) (hfull : ∀ x ∈ node.keyArray, x ≠ -1) :
    leafEntries node = node.keyArray.zip node.ridArray := by
  have := filter_zip_keys 0 node.keyArray node.ridArray hfull
  simpa [leafEntries] using this

theorem pairwise_split_bounds {r : Int → Int → Prop} (K : List Int) (m : Nat)
    (hm : m < K.length) (h : K.Pairwise r) :
    (∀ a ∈ K.take m, r a K[m]) ∧ (∀ b ∈ K.drop m, b = K[m] ∨ r K[m] b) := by
  have hK : K = K.take m ++ K[m] :: K.drop (m + 1) := by
    rw [← List.drop_eq_getElem_cons hm, List.take_append_drop]
  rw [hK] at h
  have hp := List.pairwise_append.mp h
  constructor
  · intro a ha
    exact hp.2.2 a ha K[m] (List.mem_cons_self _ _)
  · intro b hb
    rw [List.drop_eq_getElem_cons hm] at hb
    rcases List.mem_cons.mp hb with hb | hb
    · exact Or.inl hb
    · exact Or.inr ((List.pairwise_cons.mp hp.2.1).1 b hb)

/-! ### Leaf split: partition and order -/

/-- Leaf split at an even capacity: for every even leaf capacity `L ≥ 2` and every full leaf
with entries `e[0..L)`, `splitLeafNode` succeeds, the original leaf then holds exactly
`e[0..L/2)` in order, the new right leaf holds exactly `e[L/2..L)` in order (keys and record
locators), the returned separator is `e[L/2].key`, which is the first key of the right leaf,
and the two counts add up to `L`. -/
theorem splitLeafNode_partitions_even (L : Nat) (s : BTreeIndex) (p : Nat)
    (node : LeafNodeInt) (hL : 2 ≤ L) (heven : L % 2 = 0)
    (hread : readLeaf s.file p = some node)
    (hk : node.keyArray.length = L) (hr : node.ridArray.length = L)
    (hfull : ∀ x ∈ node.keyArray, x ≠ -1) :
    ∃ s1 sep pid left right,
      splitLeafNode L s p = some (s1, sep, pid)
      ∧ readLeaf s1.file p = some left ∧ readLeaf s1.file pid = some right
      ∧ (leafEntries node).length = L
      ∧ leafEntries left = (leafEntries node).take (L / 2)
      ∧ leafEntries right = (leafEntries node).drop (L / 2)
      ∧ (leafEntries node)[L / 2]?.map Prod.fst = some sep
      ∧ (leafEntries right).head?.map Prod.fst = some sep
      ∧ (leafEntries left).length + (leafEntries right).length = L := by
  obtain ⟨s1, sep, left, right, hsplit, hsep, hleft, hright, _, hrl, hrr⟩ :=
    splitLeafNode_eq L s p node (by omega) hread hk hr
  have hm : L - L / 2 = L / 2 := by omega
  have hmL : L / 2 < L := by omega
  have hfullE := leafEntries_full node hfull
  have hlenE : (leafEntries node).length = L := by
    rw [hfullE, List.length_zip, hk, hr, Nat.min_self]
  have hEl : leafEntries left = (leafEntries node).take (L / 2) := by
    rw [hfullE, ← zip_take_left, hleft]
    exact filter_zip_keys _ _ _ (fun x hx => hfull x (List.mem_of_mem_take hx))
  have hdk : (node.keyArray.drop (L / 2)).take (L / 2) = node.keyArray.drop (L / 2) :=
    List.take_of_length_le (by simp only [List.length_drop]; omega)
  have hEr : leafEntries right = (leafEntries node).drop (L / 2) := by
    rw [hfullE, drop_zip_eq, hright]
    simp only [leafEntries, hdk]
    rw [filter_zip_keys _ _ _ (fun x hx => hfull x (List.mem_of_mem_drop hx))]
    exact zip_append_right_junk _ _ _ (by simp only [List.length_drop]; omega)
  have hget : (leafEntries node)[L / 2]?.map Prod.fst = some sep := by
    have hr2 : node.ridArray[L / 2]? = some node.ridArray[L / 2] :=
      List.getElem?_eq_getElem (by omega)
    have hz : (node.keyArray.zip node.ridArray)[L / 2]? = some (sep, node.ridArray[L / 2]) :=
      List.getElem?_zip_eq_some.mpr ⟨hsep, hr2⟩
    rw [hfullE, hz]; rfl
  refine ⟨s1, sep, _, left, right, hsplit, hrl, hrr, hlenE, hEl, hEr, hget, ?_, ?_⟩
  · rw [hEr, ← hget, List.head?_drop]
  · rw [hEl, hEr, List.length_take, List.length_drop, hlenE]; omega

/-- Leaf split at the even capacity 4, on the full leaf `[1, 3, 5, 8]`. -/
theorem splitLeafNode_partitions_even_witness :
    ∃ s1 sep pid left right,
      splitLeafNode 4 (indexOfLeaf fullLeaf4) 2 = some (s1, sep, pid)
      ∧ readLeaf s1.file 2 = some left ∧ readLeaf s1.file pid = some right
      ∧ (leafEntries fullLeaf4).length = 4
      ∧ leafEntries left = (leafEntries fullLeaf4).take (4 / 2)
      ∧ leafEntries right = (leafEntries fullLeaf4).drop (4 / 2)
      ∧ (leafEntries fullLeaf4)[4 / 2]?.map Prod.fst = some sep
      ∧ (leafEntries right).head?.map Prod.fst = some sep
      ∧ (leafEntries left).length + (leafEntries right).length = 4 :=
  splitLeafNode_partitions_even 4 (indexOfLeaf fullLeaf4) 2 fullLeaf4 (by decide) (by decide)
    rfl rfl rfl (by decide)

/-- C3. Defect of `splitLeafNode` at an odd capacity.  With capacity 3 and the full leaf
`[1, 2, 3]` the midpoint is 1: the copy loop of lines 335-338 moves the entries with keys 2
and 3 to slots 0 and 1 of the right leaf, and the wipe loop of lines 339-342 then sets slots
1 and 2 of both leaves to `-1`, slot 1 of the right leaf included.  After the call the
original leaf holds the entry with key 1, the right leaf holds only the entry with key 2,
and the entry with key 3 is in neither leaf: the right leaf is not `e[1..3)` and the two
counts add up to 2, not 3. -/
theorem splitLeafNode_odd_capacity_loses_entry :
    (∃ rightNode1,
      forLoop (splitLeafCopyBody (3 / 2) fullLeaf3) (3 / 2) (3 - 3 / 2) (zeroLeaf 3)
        = some rightNode1
      ∧ rightNode1.keyArray = [2, 3, 0]
      ∧ rightNode1.ridArray = [⟨2, 0⟩, ⟨3, 0⟩, ⟨0, 0⟩])
    ∧ ∃ s1 sep pid left right,
      splitLeafNode 3 (indexOfLeaf fullLeaf3) 2 = some (s1, sep, pid)
      ∧ readLeaf s1.file 2 = some left ∧ readLeaf s1.file pid = some right
      ∧ left.keyArray = [1, -1, -1]
      ∧ right.keyArray = [2, -1, -1]
      ∧ leafEntries left = [(1, ⟨1, 0⟩)]
      ∧ leafEntries right = [(2, ⟨2, 0⟩)]
      ∧ (leafEntries fullLeaf3).drop (3 / 2) = [(2, ⟨2, 0⟩), (3, ⟨3, 0⟩)]
      ∧ leafEntries right ≠ (leafEntries fullLeaf3).drop (3 / 2)
      ∧ (leafEntries left).length + (leafEntries right).length ≠ 3 :=
  ⟨⟨_, rfl, rfl, rfl⟩,
    ⟨_, _, _, _, _, rfl, rfl, rfl, rfl, rfl, by decide, by decide, by decide, by decide,
      by decide⟩⟩

/-- C4 (amended: `≤` on the left). Leaf split orders both halves around the separator: for
every full leaf whose keys are in non-decreasing order, `splitLeafNode` succeeds, every key in
the right sibling is `≥` the returned separator and every key left in the original leaf is
`≤` the separator; when the keys are strictly increasing, every key left in the original
leaf is `<` the separator. -/
theorem splitLeafNode_orders_halves (L : Nat) (s : BTreeIndex) (p : Nat)
    (node : LeafNodeInt) (hL : 0 < L)
    (hread : readLeaf s.file p = some node)
    (hk : node.keyArray.length = L) (hr : node.ridArray.length = L)
    (hfull : ∀ x ∈ node.keyArray, x ≠ -1)
    (hsorted : node.keyArray.Sorted (· ≤ ·)) :
    ∃ s1 sep pid left right,
      splitLeafNode L s p = some (s1, sep, pid)
      ∧ readLeaf s1.file p = some left ∧ readLeaf s1.file pid = some right
      ∧ (∀ x ∈ leafKeys right, sep ≤ x)
      ∧ (∀ x ∈ leafKeys left, x ≤ sep)
      ∧ (node.keyArray.Sorted (· < ·) → ∀ x ∈ leafKeys left, x < sep) := by
  obtain ⟨s1, sep, left, right, hsplit, hsep, hleft, hright, _, hrl, hrr⟩ :=
    splitLeafNode_eq L s p node hL hread hk hr
  have hmL : L / 2 < node.keyArray.length := by
    rw [hk]; exact Nat.div_lt_self hL (by decide)
  have hsepv : node.keyArray[L / 2] = sep := by
    rw [List.getElem?_eq_getElem hmL] at hsep
    exact Option.some.inj hsep
  have hKl : leafKeys left = node.keyArray.take (L / 2) := by
    rw [hleft]
    exact filter_keys _ _ (fun x hx => hfull x (List.mem_of_mem_take hx))
  have hKr : leafKeys right = (node.keyArray.drop (L / 2)).take (L / 2) := by
    rw [hright]
    exact filter_keys _ _
      (fun x hx => hfull x (List.mem_of_mem_drop (List.mem_of_mem_take hx)))
  have hb := pairwise_split_bounds node.keyArray (L / 2) hmL hsorted
  rw [hsepv] at hb
  refine ⟨s1, sep, _, left, right, hsplit, hrl, hrr, ?_, ?_, ?_⟩
  · intro x hx
    rw [hKr] at hx
    rcases hb.2 x (List.mem_of_mem_take hx) with h | h
    · exact le_of_eq h.symm
    · exact h
  · intro x hx
    rw [hKl] at hx
    exact hb.1 x hx
  · intro hstrict x hx
    rw [hKl] at hx
    have hb2 := pairwise_split_bounds node.keyArray (L / 2) hmL hstrict
    rw [hsepv] at hb2
    exact hb2.1 x hx

/-- C4 (amended), instance: the full sorted leaf `[1, 5, 5, 8]` of capacity 4. -/
theorem splitLeafNode_orders_halves_witness :
    ∃ s1 sep pid left right,
      splitLeafNode 4 (indexOfLeaf dupLeaf4) 2 = some (s1, sep, pid)
      ∧ readLeaf s1.file 2 = some left ∧ readLeaf s1.file pid = some right
      ∧ (∀ x ∈ leafKeys right, sep ≤ x)
      ∧ (∀ x ∈ leafKeys left, x ≤ sep)
      ∧ (dupLeaf4.keyArray.Sorted (· < ·) → ∀ x ∈ leafKeys left, x < sep) :=
  splitLeafNode_orders_halves 4 (indexOfLeaf dupLeaf4) 2 dupLeaf4 (by decide) rfl rfl rfl
    (by decide) (by decide)

/-- C4, counterexample: the full leaf `[1, 5, 5, 8]` is sorted (with a duplicate key); its
split returns the separator 5 and leaves the key 5 in the original leaf, which is not
strictly below the separator. -/
theorem splitLeafNode_duplicate_counterexample :
    dupLeaf4.keyArray.Sorted (· ≤ ·) ∧ (∀ x ∈ dupLeaf4.keyArray, x ≠ -1)
    ∧ ∃ s1 sep pid left,
      splitLeafNode 4 (indexOfLeaf dupLeaf4) 2 = some (s1, sep, pid)
      ∧ readLeaf s1.file 2 = some left
      ∧ sep = 5 ∧ leafKeys left = [1, 5]
      ∧ ¬ (∀ x ∈ leafKeys left, x < sep) :=
  ⟨by decide, by decide, _, _, _, _, rfl, rfl, rfl, by decide, by decide⟩

/-! ### `insertToNode`, parent update and internal split at concrete inputs -/

/-- C2, instance: inserting 4 into the leaf `[3, 5, -1, -1]` of capacity 4. -/
theorem insertToNode_keeps_sorted_witness :
    ∃ node1 ks1, insertToNode 4 leaf35 4 (ridOf 4) = some node1
      ∧ node1.keyArray = ks1 ++ List.replicate (4 - (2 + 1)) (-1)
      ∧ ks1.length = 2 + 1 ∧ (∀ x ∈ ks1, x ≠ -1) ∧ ks1.Sorted (· ≤ ·)
      ∧ ks1.Perm (4 :: [3, 5]) :=
  insertToNode_keeps_sorted 4 2 leaf35 [3, 5] 4 (ridOf 4) (by decide) rfl rfl (by decide)
    (by decide) (by decide)

/-- Whatever the leaf and the entry, `insertToNode` returns the record locator array it was
given. -/
theorem insertToNode_ridArray (L : Nat) (node node1 : LeafNodeInt) (key : Int)
    (rid : RecordId) (h : insertToNode L node key rid = some node1) :
    node1.ridArray = node.ridArray := by
  unfold insertToNode at h
  simp only at h
  split at h
  · exact Option.noConfusion h
  · split at h
    · exact Option.noConfusion h
    · simp only [Option.some.injEq] at h
      rw [← h]

/-- C1. `insertToNode` never stores the record locator: inserting `(3, ridOf 3)` into the
root leaf that holds the entry `(5, ridOf 5)` shifts the key 5 and writes the key 3, but the
record locator array is unchanged.  The leaf then pairs key 3 with the locator of key 5, and
the entry `(3, ridOf 3)` is not in the leaf. -/
theorem insertToNode_drops_record_locator :
    ∃ node1, insertToNode 4 leafAfter5 3 (ridOf 3) = some node1
      ∧ node1.keyArray = [3, 5, -1, -1]
      ∧ node1.ridArray = leafAfter5.ridArray
      ∧ leafEntries leafAfter5 = [(5, ridOf 5)]
      ∧ leafEntries node1 = [(3, ridOf 5), (5, ⟨0, 0⟩)]
      ∧ (3, ridOf 3) ∉ leafEntries node1
      ∧ ¬ (leafEntries node1).Perm ((3, ridOf 3) :: leafEntries leafAfter5) :=
  ⟨_, rfl, rfl, rfl, by decide, by decide, by decide, by decide⟩

/-- C5. The parent update drops the child that follows the split one: the root has the
separator 5 and the children 2 and 4; splitting the full child 2 (separator 2, new page 5)
writes page 5 over the reference to page 4, so the root ends with the separators 2 and 5 and
the children 2 and 5 only.  The same state arises from `insertEntry` alone, with the keys
5, 3, 8, 1, 2, 0 inserted into an empty tree. -/
theorem fullNodeHandler_overwrites_next_child :
    readNonLeaf fullChildIndex.file 3
        = some { level := 1, keyArray := [5, -1, -1, -1], pageNoArray := [2, 4, 0, 0, 0] }
    ∧ (∃ s1 parent, fullNodeHandler 4 4 fullChildIndex 2 (some 3) 2 true = some s1
        ∧ readNonLeaf s1.file 3 = some parent
        ∧ parent.keyArray = [2, 5, -1, -1]
        ∧ parent.pageNoArray = [2, 5, 0, 0, 0]
        ∧ 4 ∉ parent.pageNoArray)
    ∧ (∃ s2 root, insertAll 4 4 1 (emptyIndex "rel" 0 Datatype.INTEGER 0)
          [(5, ridOf 5), (3, ridOf 3), (8, ridOf 8), (1, ridOf 1), (2, ridOf 2), (0, ridOf 0)]
          = some s2
        ∧ readNonLeaf s2.file s2.rootPageNum = some root
        ∧ root.keyArray = [2, 5, -1, -1]
        ∧ root.pageNoArray = [2, 5, 0, 0, 0]) :=
  ⟨rfl, ⟨_, _, rfl, rfl, rfl, rfl, by decide⟩, ⟨_, _, rfl, rfl, rfl, rfl⟩⟩

/-- C6. `splitNonLeafNode` keeps the promoted separator in the right half: splitting the full
internal node with separators 10, 20, 30, 40 (both capacities 4) returns the separator 30 and
a right node whose first key is 30. -/
theorem splitNonLeafNode_keeps_separator :
    fullInternal4.keyArray.Sorted (· < ·)
    ∧ ∃ s1 sep pid left right,
      splitNonLeafNode 4 4 (indexOfInternal fullInternal4) 2 = some (s1, sep, pid)
      ∧ readNonLeaf s1.file 2 = some left ∧ readNonLeaf s1.file pid = some right
      ∧ sep = 30
      ∧ left.keyArray = [10, 20, -1, -1]
      ∧ right.keyArray = [30, 40, -1, -1]
      ∧ sep ∈ right.keyArray :=
  ⟨by decide, _, _, _, _, _, rfl, rfl, rfl, rfl, rfl, rfl, by decide⟩

/-! ### Child selection -/

theorem findChild_spec (M n : Nat) (node : NonLeafNodeInt) (k : Int) (hnM : n ≤ M)
    (hkl : node.keyArray.length = M)
    (hchild : ∀ j, j ≤ n → ∃ p, node.pageNoArray[j]? = some p ∧ p ≠ 0)
    (hnull : ∀ j, n < j → j ≤ M → node.pageNoArray[j]? = some 0) :
    ∀ (r i : Nat), i + r = M → i ≤ n →
      (∀ j, j < i → ∃ x, node.keyArray[j]? = some x ∧ x ≤ k) →
      ∃ c, findChild node k r i = some c ∧ c ≤ n
        ∧ (∀ j, j < c → ∃ x, node.keyArray[j]? = some x ∧ x ≤ k)
        ∧ (c < n → ∃ x, node.keyArray[c]? = some x ∧ k < x)
  | 0, i, hir, hin, hbefore => by
    refine ⟨i, rfl, hin, hbefore, ?_⟩
    intro h; omega
  | r + 1, i, hir, hin, hbefore => by
    unfold findChild
    by_cases hi : i < n
    · obtain ⟨p, hp, hp0⟩ := hchild (i + 1) (by omega)
      have hx : node.keyArray[i]? = some node.keyArray[i] :=
        List.getElem?_eq_getElem (by omega)
      simp only [hp, hp0, if_false, hx]
      by_cases hgt : node.keyArray[i] > k
      · rw [if_pos hgt]
        exact ⟨i, rfl, hin, hbefore, fun _ => ⟨_, hx, hgt⟩⟩
      · rw [if_neg hgt]
        apply findChild_spec M n node k hnM hkl hchild hnull r (i + 1) (by omega) (by omega)
        intro j hj
        by_cases hji : j < i
        · exact hbefore j hji
        · have : j = i := by omega
          subst this
          exact ⟨_, hx, not_lt.mp hgt⟩
    · have hp := hnull (i + 1) (by omega) (by omega)
      simp only [hp, if_true]
      refine ⟨i, rfl, hin, hbefore, ?_⟩
      intro h; omega

/-- C7. Child selection during descent: for every internal node of capacity `M` with `n ≤ M`
separators, children `0..n` non-null and every child slot after `n` null, and every key `k`,
the loop of `traverse` ends with an index `c ≤ n` such that every separator before `c` is
`≤ k` and, when `c < n`, the separator at `c` is `> k`: `c` is the smallest index whose
separator exceeds `k`, or `n` when there is none.  (Holds for any `n`, also without the
order of the separators.) -/
theorem traverse_child_selection (M n : Nat) (node : NonLeafNodeInt) (k : Int) (hnM : n ≤ M)
    (hkl : node.keyArray.length = M)
    (hchild : ∀ j, j ≤ n → ∃ p, node.pageNoArray[j]? = some p ∧ p ≠ 0)
    (hnull : ∀ j, n < j → j ≤ M → node.pageNoArray[j]? = some 0) :
    ∃ c, findChild node k M 0 = some c ∧ c ≤ n
      ∧ (∀ j, j < c → ∃ x, node.keyArray[j]? = some x ∧ x ≤ k)
      ∧ (c < n → ∃ x, node.keyArray[c]? = some x ∧ k < x) :=
  findChild_spec M n node k hnM hkl hchild hnull M 0 (by omega) (by omega)
    (fun j hj => absurd hj (Nat.not_lt_zero j))

/-- C7, instance: key 15 in the node with separators 10 and 20 goes to child 1. -/
theorem traverse_child_selection_witness :
    ∃ c, findChild internal2of4 15 4 0 = some c ∧ c ≤ 2
      ∧ (∀ j, j < c → ∃ x, internal2of4.keyArray[j]? = some x ∧ x ≤ 15)
      ∧ (c < 2 → ∃ x, internal2of4.keyArray[c]? = some x ∧ 15 < x) :=
  traverse_child_selection 4 2 internal2of4 15 (by decide) rfl
    (fun j hj => by
      interval_cases j
      · exact ⟨3, rfl, by decide⟩
      · exact ⟨4, rfl, by decide⟩
      · exact ⟨5, rfl, by decide⟩)
    (fun j h1 h2 => by
      interval_cases j
      · rfl
      · rfl)

/-! ### First insertion -/

theorem wr_replicate_zero {α : Type} (L : Nat) (a v : α) (hL : 0 < L) :
    wr (List.replicate L a) 0 v = some (v :: List.replicate (L - 1) a) := by
  obtain ⟨n, rfl⟩ : ∃ n, L = n + 1 := ⟨L - 1, by omega⟩
  simp [wr, List.replicate_succ]

/-- Closed form of the first-insertion branch (lines 113-129). -/
theorem insertFirst_eq (L : Nat) (s : BTreeIndex) (metadata : IndexMetaInfo) (k : Int)
    (rid : RecordId) (hL : 0 < L)
    (hmd : readHeader s.file s.headerPageNum = some metadata) :
    insertFirst L s metadata k rid
      = some { s with
          file := ((s.file ++ [Page.leaf (zeroLeaf L)]).set (s.headerPageNum - 1)
              (Page.header { metadata with rootPageNo := s.file.length + 1 })).set
            s.file.length (Page.leaf (singleEntryLeaf L k rid))
          rootPageNum := s.file.length + 1
          numOfNodes := s.numOfNodes + 1 } := by
  obtain ⟨h0, h1⟩ := readPage_some (readHeader_some hmd)
  have hne : s.file.length + 1 ≠ (s.headerPageNum : Nat) := by omega
  unfold insertFirst allocPage
  simp only
  rw [writePage_eq _ _ _ h0 (by simp only [List.length_append, List.length_singleton]; omega)]
  simp only
  have hrd : readLeaf ((s.file ++ [Page.leaf (zeroLeaf L)]).set (s.headerPageNum - 1)
      (Page.header { metadata with rootPageNo := s.file.length + 1 })) (s.file.length + 1)
      = some (zeroLeaf L) := by
    apply readLeaf_of_readPage
    rw [readPage_set_other _ _ _ _ (by omega) h0 hne]
    exact readPage_alloc _ _
  rw [hrd]
  simp only
  rw [forLoop_fill_all (-1) L (zeroLeaf L).keyArray (by simp [zeroLeaf])]
  simp only [zeroLeaf, wr_replicate_zero L _ _ hL]
  rw [writePage_eq _ _ _ (by omega)
    (by simp only [List.length_set, List.length_append, List.length_singleton]; omega)]
  simp [singleEntryLeaf]

/-- Closed form of `insertEntry` on an empty tree, for a key other than 4999. -/
theorem insertEntry_first_eq (L M fuel : Nat) (s : BTreeIndex) (metadata : IndexMetaInfo)
    (k : Int) (rid : RecordId) (hL : 0 < L) (hk : k ≠ 4999)
    (hmd : readHeader s.file s.headerPageNum = some metadata)
    (hroot : metadata.rootPageNo = 0) :
    insertEntry L M fuel s k rid
      = some { s with
          file := (((s.file ++ [Page.leaf (zeroLeaf L)]).set (s.headerPageNum - 1)
              (Page.header { metadata with rootPageNo := s.file.length + 1 })).set
            s.file.length (Page.leaf (singleEntryLeaf L k rid))).set (s.headerPageNum - 1)
              (Page.header { metadata with rootPageNo := s.file.length + 1 })
          rootPageNum := s.file.length + 1
          numOfNodes := s.numOfNodes + 1 } := by
  obtain ⟨h0, h1⟩ := readPage_some (readHeader_some hmd)
  have hne : (s.headerPageNum : Nat) ≠ s.file.length + 1 := by unfold PageId; omega
  have hlen : (s.headerPageNum : Nat) ≤
      (((s.file ++ [Page.leaf (zeroLeaf L)]).set (s.headerPageNum - 1)
        (Page.header { metadata with rootPageNo := s.file.length + 1 })).set s.file.length
        (Page.leaf (singleEntryLeaf L k rid))).length := by
    simp only [List.length_set, List.length_append, List.length_singleton]
    unfold PageId; omega
  have hrdh : readHeader (((s.file ++ [Page.leaf (zeroLeaf L)]).set (s.headerPageNum - 1)
      (Page.header { metadata with rootPageNo := s.file.length + 1 })).set s.file.length
        (Page.leaf (singleEntryLeaf L k rid))) s.headerPageNum
      = some { metadata with rootPageNo := s.file.length + 1 } := by
    apply readHeader_of_readPage
    have := readPage_set_other ((s.file ++ [Page.leaf (zeroLeaf L)]).set (s.headerPageNum - 1)
      (Page.header { metadata with rootPageNo := s.file.length + 1 })) s.headerPageNum
      (s.file.length + 1) (Page.leaf (singleEntryLeaf L k rid)) h0 (by omega) hne
    simp only [Nat.add_sub_cancel] at this
    rw [this]
    exact readPage_set_same _ _ _ h0
      (by simp only [List.length_append, List.length_singleton]; omega)
  unfold insertEntry
  simp only [hmd, hroot, if_true, insertFirst_eq L s metadata k rid hL hmd, hrdh]
  rw [writePage_eq _ _ _ h0 hlen]
  simp only [hk, if_false]

/-- C8 (amended). First insertion into an empty tree: when the metadata root page number is
0, `insertEntry(k, r)` with a key other than 4999 succeeds, allocates exactly one page, a
leaf, and makes it the root: the metadata root page number and `rootPageNum` both equal the
new page number, which is not 0; the leaf has key `k` and record locator `r` in slot 0 and
every other key slot is empty; so it holds exactly the one entry `(k, r)` when `k ≠ -1`,
and no entry when `k = -1` (slot 0 then reads as empty); the node counter is incremented. -/
theorem insertEntry_first (L M fuel : Nat) (s : BTreeIndex) (metadata : IndexMetaInfo)
    (k : Int) (rid : RecordId) (hL : 0 < L) (hk : k ≠ 4999)
    (hmd : readHeader s.file s.headerPageNum = some metadata)
    (hroot : metadata.rootPageNo = 0) :
    ∃ s1 metadata1 rootNode,
      insertEntry L M fuel s k rid = some s1
      ∧ s1.file.length = s.file.length + 1
      ∧ readPage s.file s1.rootPageNum = none
      ∧ s1.rootPageNum = s.file.length + 1
      ∧ s1.rootPageNum ≠ 0
      ∧ readHeader s1.file s1.headerPageNum = some metadata1
      ∧ metadata1.rootPageNo = s1.rootPageNum
      ∧ readLeaf s1.file s1.rootPageNum = some rootNode
      ∧ rootNode.keyArray = k :: List.replicate (L - 1) (-1)
      ∧ rootNode.ridArray[0]? = some rid
      ∧ leafEntries rootNode = (if k = -1 then [] else [(k, rid)])
      ∧ s1.numOfNodes = s.numOfNodes + 1 := by
  obtain ⟨h0, h1⟩ := readPage_some (readHeader_some hmd)
  have hne : (s.headerPageNum : Nat) ≠ s.file.length + 1 := by unfold PageId; omega
  have hlen : (s.headerPageNum : Nat) ≤
      (((s.file ++ [Page.leaf (zeroLeaf L)]).set (s.headerPageNum - 1)
        (Page.header { metadata with rootPageNo := s.file.length + 1 })).set s.file.length
        (Page.leaf (singleEntryLeaf L k rid))).length := by
    simp only [List.length_set, List.length_append, List.length_singleton]
    unfold PageId; omega
  refine ⟨_, { metadata with rootPageNo := s.file.length + 1 }, singleEntryLeaf L k rid,
    insertEntry_first_eq L M fuel s metadata k rid hL hk hmd hroot, ?_, ?_, rfl, ?_, ?_, rfl,
    ?_, rfl, by simp [singleEntryLeaf], ?_, rfl⟩
  · simp only [List.length_set, List.length_append, List.length_singleton]
  · simp only [readPage]
    rw [if_neg (Nat.succ_ne_zero _)]
    simp
  · exact Nat.succ_ne_zero _
  · apply readHeader_of_readPage
    exact readPage_set_same _ _ _ h0 hlen
  · apply readLeaf_of_readPage
    simp only
    rw [readPage_set_other _ _ _ _ (by omega) h0 (Ne.symm hne)]
    have := readPage_set_same ((s.file ++ [Page.leaf (zeroLeaf L)]).set (s.headerPageNum - 1)
      (Page.header { metadata with rootPageNo := s.file.length + 1 })) (s.file.length + 1)
      (Page.leaf (singleEntryLeaf L k rid)) (by omega)
      (by simp only [List.length_set, List.length_append, List.length_singleton]; omega)
    simpa only [Nat.add_sub_cancel] using this
  · unfold leafEntries singleEntryLeaf
    simp only [List.zip_cons_cons, List.filter_cons]
    have hnil : List.filter (fun e : Int × RecordId => decide (e.1 ≠ -1))
        ((List.replicate (L - 1) (-1)).zip (List.replicate (L - 1) ⟨0, 0⟩)) = [] := by
      simp
    rw [hnil]
    by_cases hk1 : k = -1 <;> simp [hk1]

/-- C8 (amended), instance: the first insertion `insertEntry(5, ridOf 5)` with leaf
capacity 4. -/
theorem insertEntry_first_witness :
    ∃ s1 metadata1 rootNode,
      insertEntry 4 4 1 (emptyIndex "rel" 0 Datatype.INTEGER 0) 5 (ridOf 5) = some s1
      ∧ s1.file.length = (emptyIndex "rel" 0 Datatype.INTEGER 0).file.length + 1
      ∧ readPage (emptyIndex "rel" 0 Datatype.INTEGER 0).file s1.rootPageNum = none
      ∧ s1.rootPageNum = (emptyIndex "rel" 0 Datatype.INTEGER 0).file.length + 1
      ∧ s1.rootPageNum ≠ 0
      ∧ readHeader s1.file s1.headerPageNum = some metadata1
      ∧ metadata1.rootPageNo = s1.rootPageNum
      ∧ readLeaf s1.file s1.rootPageNum = some rootNode
      ∧ rootNode.keyArray = 5 :: List.replicate (4 - 1) (-1)
      ∧ rootNode.ridArray[0]? = some (ridOf 5)
      ∧ leafEntries rootNode = (if (5 : Int) = -1 then [] else [(5, ridOf 5)])
      ∧ s1.numOfNodes = (emptyIndex "rel" 0 Datatype.INTEGER 0).numOfNodes + 1 :=
  insertEntry_first 4 4 1 (emptyIndex "rel" 0 Datatype.INTEGER 0)
    { relationName := "rel", attrByteOffset := 0, attrType := Datatype.INTEGER,
      rootPageNo := 0 } 5 (ridOf 5) (by decide) (by decide) rfl rfl

/-- C8, counterexample: on the empty index with leaf capacity 4, `insertEntry(-1, r)` builds
a root leaf whose slot 0 holds the key `-1`, so the leaf reads as holding no entry; and
`insertEntry(4999, r)` runs `testPrint` (line 191) on the leaf root, which reads the leaf as
an internal node, so the call has no result. -/
theorem insertEntry_first_counterexample :
    (∃ s1 rootNode,
      insertEntry 4 4 1 (emptyIndex "rel" 0 Datatype.INTEGER 0) (-1) (ridOf 7) = some s1
      ∧ readLeaf s1.file s1.rootPageNum = some rootNode
      ∧ rootNode.keyArray = [-1, -1, -1, -1]
      ∧ leafEntries rootNode = []
      ∧ leafEntries rootNode ≠ [(-1, ridOf 7)])
    ∧ insertEntry 4 4 1 (emptyIndex "rel" 0 Datatype.INTEGER 0) 4999 (ridOf 7) = none :=
  ⟨⟨_, _, rfl, rfl, rfl, by decide, by decide⟩, rfl⟩

/-! ### Parent update and new root -/

/-- Closed form of lines 247-256 on a parent whose stored keys are `A ++ B`, the keys of `A`
ending with one not above `middleKey` and all keys of `B` above it. -/
theorem pushUp_eq (M : Nat) (parentNode : NonLeafNodeInt) (middleKey : Int)
    (currPageNo rightPageNum : Nat) (A B : List Int) (t : Nat)
    (hM : M = A.length + B.length + (t + 1))
    (hkeys : parentNode.keyArray = A ++ B ++ List.replicate (t + 1) (-1))
    (hpages : parentNode.pageNoArray.length = M + 1)
    (hA : ∀ a, A.getLast? = some a → ¬ (middleKey < a) ∧ a ≠ -1)
    (hB : ∀ b ∈ B, middleKey < b ∧ b ≠ -1) :
    pushUp M parentNode middleKey currPageNo rightPageNum
      = some { parentNode with
          keyArray := A ++ middleKey :: B ++ List.replicate t (-1)
          pageNoArray := (parentNode.pageNoArray.set A.length currPageNo).set (A.length + 1)
            rightPageNum } := by
  unfold pushUp
  simp only [hM, hkeys, shiftKeys_insert middleKey A B t hA hB]
  have h1 := wr_append_cons A (B.headD (-1)) middleKey (B ++ List.replicate t (-1))
  simp only [List.cons_append, List.append_assoc] at h1 ⊢
  rw [h1]
  simp only
  rw [wr_eq_some _ _ _ (by omega)]
  simp only
  rw [wr_eq_some _ _ _ (by simp only [List.length_set]; omega)]

/-- Closed form of lines 221-229 when there is no parent. -/
theorem newParent_none (M : Nat) (s : BTreeIndex) :
    newParent M s none
      = some ({ s with
                  file := s.file ++ [Page.nonLeaf { level := 1,
                                                    keyArray := List.replicate M (-1),
                                                    pageNoArray := List.replicate (M + 1) 0 }]
                  rootPageNum := s.file.length + 1 }, s.file.length + 1) := by
  unfold newParent allocPage
  simp only [readNonLeaf_of_readPage (readPage_alloc s.file _)]
  rw [forLoop_fill_all (-1) M (zeroNonLeaf M).keyArray (by simp [zeroNonLeaf])]
  simp only
  rw [writePage_eq _ _ _ (by omega) (by simp)]
  simp [zeroNonLeaf]

/-! ### The scenario of spec section 8: keys 5, 3, 8, 1, 9, 2, 7 with leaf capacity 4 -/

theorem set2_replicate {α : Type} (n : Nat) (a x y : α) :
    ((List.replicate (n + 2) a).set 0 x).set 1 y = x :: y :: List.replicate n a := by
  simp [List.replicate_succ]

theorem scenario_step1 (M fuel : Nat) (nm : String) (offs : Int) (ty : Datatype) (root0 : Nat)
    (r1 : RecordId) :
    insertEntry 4 M fuel (emptyIndex nm offs ty root0) 5 r1
    = some (scenarioIndex nm offs ty 2 1
        [Page.leaf ⟨[5, -1, -1, -1], [r1, ⟨0, 0⟩, ⟨0, 0⟩, ⟨0, 0⟩], 0⟩]) := rfl

theorem scenario_step2 (M fuel : Nat) (nm : String) (offs : Int) (ty : Datatype)
    (r1 r2 : RecordId) :
    insertEntry 4 M fuel
      (scenarioIndex nm offs ty 2 1
        [Page.leaf ⟨[5, -1, -1, -1], [r1, ⟨0, 0⟩, ⟨0, 0⟩, ⟨0, 0⟩], 0⟩]) 3 r2
    = some (scenarioIndex nm offs ty 2 1
        [Page.leaf ⟨[3, 5, -1, -1], [r1, ⟨0, 0⟩, ⟨0, 0⟩, ⟨0, 0⟩], 0⟩]) := rfl

theorem scenario_step3 (M fuel : Nat) (nm : String) (offs : Int) (ty : Datatype)
    (r1 r3 : RecordId) :
    insertEntry 4 M fuel
      (scenarioIndex nm offs ty 2 1
        [Page.leaf ⟨[3, 5, -1, -1], [r1, ⟨0, 0⟩, ⟨0, 0⟩, ⟨0, 0⟩], 0⟩]) 8 r3
    = some (scenarioIndex nm offs ty 2 1
        [Page.leaf ⟨[3, 5, 8, -1], [r1, ⟨0, 0⟩, ⟨0, 0⟩, ⟨0, 0⟩], 0⟩]) := rfl

theorem scenario_step4 (m fuel : Nat) (nm : String) (offs : Int) (ty : Datatype)
    (r1 r4 : RecordId) :
    insertEntry 4 (m + 3) fuel
      (scenarioIndex nm offs ty 2 1
        [Page.leaf ⟨[3, 5, 8, -1], [r1, ⟨0, 0⟩, ⟨0, 0⟩, ⟨0, 0⟩], 0⟩]) 1 r4
    = some (scenarioIndex nm offs ty 3 3
        [Page.leaf ⟨[1, 3, -1, -1], [r1, ⟨0, 0⟩, ⟨0, 0⟩, ⟨0, 0⟩], 0⟩,
         Page.nonLeaf ⟨1, 5 :: List.replicate (m + 2) (-1), 2 :: 4 :: List.replicate (m + 2) 0⟩,
         Page.leaf ⟨[5, 8, -1, -1], [⟨0, 0⟩, ⟨0, 0⟩, ⟨0, 0⟩, ⟨0, 0⟩], 0⟩]) := by
  have hins : insertToNode 4 ⟨[3, 5, 8, -1], [r1, ⟨0, 0⟩, ⟨0, 0⟩, ⟨0, 0⟩], 0⟩ 1 r4
      = some ⟨[1, 3, 5, 8], [r1, ⟨0, 0⟩, ⟨0, 0⟩, ⟨0, 0⟩], 0⟩ := rfl
  have hsplit : splitLeafNodes 4 ⟨[1, 3, 5, 8], [r1, ⟨0, 0⟩, ⟨0, 0⟩, ⟨0, 0⟩], 0⟩ (zeroLeaf 4)
      = some (⟨[1, 3, -1, -1], [r1, ⟨0, 0⟩, ⟨0, 0⟩, ⟨0, 0⟩], 0⟩,
              ⟨[5, 8, -1, -1], [⟨0, 0⟩, ⟨0, 0⟩, ⟨0, 0⟩, ⟨0, 0⟩], 0⟩, 5) := rfl
  have hpush := pushUp_eq (m + 3)
    ⟨1, List.replicate (m + 3) (-1), List.replicate (m + 3 + 1) 0⟩ 5 2 4 [] [] (m + 2)
    (by simp) (by simp) (by simp) (by simp) (by simp)
  simp only [List.nil_append, List.length_nil] at hpush
  simp [insertEntry, insertSingle, scenarioIndex, readHeader, readLeaf, readNonLeaf,
    readPage, writePage, fullNodeHandler, newParent_none, splitLeafNode, allocPage, lastKey,
    hins, hsplit, hpush]
  exact set2_replicate (m + 2) 0 2 4

theorem scenario_step5 (m fuel : Nat) (nm : String) (offs : Int) (ty : Datatype)
    (r1 r5 : RecordId) :
    insertEntry 4 (m + 3) (fuel + 1)
      (scenarioIndex nm offs ty 3 3
        [Page.leaf ⟨[1, 3, -1, -1], [r1, ⟨0, 0⟩, ⟨0, 0⟩, ⟨0, 0⟩], 0⟩,
         Page.nonLeaf ⟨1, 5 :: List.replicate (m + 2) (-1), 2 :: 4 :: List.replicate (m + 2) 0⟩,
         Page.leaf ⟨[5, 8, -1, -1], [⟨0, 0⟩, ⟨0, 0⟩, ⟨0, 0⟩, ⟨0, 0⟩], 0⟩]) 9 r5
    = some (scenarioIndex nm offs ty 3 3
        [Page.leaf ⟨[1, 3, -1, -1], [r1, ⟨0, 0⟩, ⟨0, 0⟩, ⟨0, 0⟩], 0⟩,
         Page.nonLeaf ⟨1, 5 :: List.replicate (m + 2) (-1), 2 :: 4 :: List.replicate (m + 2) 0⟩,
         Page.leaf ⟨[5, 8, 9, -1], [⟨0, 0⟩, ⟨0, 0⟩, ⟨0, 0⟩, ⟨0, 0⟩], 0⟩]) := by
  have hins : insertToNode 4 ⟨[5, 8, -1, -1], [⟨0, 0⟩, ⟨0, 0⟩, ⟨0, 0⟩, ⟨0, 0⟩], 0⟩ 9 r5
      = some ⟨[5, 8, 9, -1], [⟨0, 0⟩, ⟨0, 0⟩, ⟨0, 0⟩, ⟨0, 0⟩], 0⟩ := rfl
  simp [insertEntry, insertGeneral, traverse, findChild, splitIfFull, scenarioIndex, readHeader,
    readLeaf, readNonLeaf, readPage, writePage, lastKey, hins]

theorem scenario_step6 (m fuel : Nat) (nm : String) (offs : Int) (ty : Datatype)
    (r1 r6 : RecordId) :
    insertEntry 4 (m + 3) (fuel + 1)
      (scenarioIndex nm offs ty 3 3
        [Page.leaf ⟨[1, 3, -1, -1], [r1, ⟨0, 0⟩, ⟨0, 0⟩, ⟨0, 0⟩], 0⟩,
         Page.nonLeaf ⟨1, 5 :: List.replicate (m + 2) (-1), 2 :: 4 :: List.replicate (m + 2) 0⟩,
         Page.leaf ⟨[5, 8, 9, -1], [⟨0, 0⟩, ⟨0, 0⟩, ⟨0, 0⟩, ⟨0, 0⟩], 0⟩]) 2 r6
    = some (scenarioIndex nm offs ty 3 3
        [Page.leaf ⟨[1, 2, 3, -1], [r1, ⟨0, 0⟩, ⟨0, 0⟩, ⟨0, 0⟩], 0⟩,
         Page.nonLeaf ⟨1, 5 :: List.replicate (m + 2) (-1), 2 :: 4 :: List.replicate (m + 2) 0⟩,
         Page.leaf ⟨[5, 8, 9, -1], [⟨0, 0⟩, ⟨0, 0⟩, ⟨0, 0⟩, ⟨0, 0⟩], 0⟩]) := by
  have hins : insertToNode 4 ⟨[1, 3, -1, -1], [r1, ⟨0, 0⟩, ⟨0, 0⟩, ⟨0, 0⟩], 0⟩ 2 r6
      = some ⟨[1, 2, 3, -1], [r1, ⟨0, 0⟩, ⟨0, 0⟩, ⟨0, 0⟩], 0⟩ := rfl
  simp [insertEntry, insertGeneral, traverse, findChild, splitIfFull, scenarioIndex, readHeader,
    readLeaf, readNonLeaf, readPage, writePage, lastKey, hins]

theorem scenario_step7 (m fuel : Nat) (nm : String) (offs : Int) (ty : Datatype)
    (r1 r7 : RecordId) :
    insertEntry 4 (m + 3) (fuel + 1)
      (scenarioIndex nm offs ty 3 3
        [Page.leaf ⟨[1, 2, 3, -1], [r1, ⟨0, 0⟩, ⟨0, 0⟩, ⟨0, 0⟩], 0⟩,
         Page.nonLeaf ⟨1, 5 :: List.replicate (m + 2) (-1), 2 :: 4 :: List.replicate (m + 2) 0⟩,
         Page.leaf ⟨[5, 8, 9, -1], [⟨0, 0⟩, ⟨0, 0⟩, ⟨0, 0⟩, ⟨0, 0⟩], 0⟩]) 7 r7
    = some (scenarioIndex nm offs ty 3 5
        [Page.leaf ⟨[1, 2, 3, -1], [r1, ⟨0, 0⟩, ⟨0, 0⟩, ⟨0, 0⟩], 0⟩,
         Page.nonLeaf ⟨1, 5 :: 8 :: List.replicate (m + 1) (-1),
           2 :: 4 :: 5 :: List.replicate (m + 1) 0⟩,
         Page.leaf ⟨[5, 7, -1, -1], [⟨0, 0⟩, ⟨0, 0⟩, ⟨0, 0⟩, ⟨0, 0⟩], 0⟩,
         Page.leaf ⟨[8, 9, -1, -1], [⟨0, 0⟩, ⟨0, 0⟩, ⟨0, 0⟩, ⟨0, 0⟩], 0⟩]) := by
  have hins : insertToNode 4 ⟨[5, 8, 9, -1], [⟨0, 0⟩, ⟨0, 0⟩, ⟨0, 0⟩, ⟨0, 0⟩], 0⟩ 7 r7
      = some ⟨[5, 7, 8, 9], [⟨0, 0⟩, ⟨0, 0⟩, ⟨0, 0⟩, ⟨0, 0⟩], 0⟩ := rfl
  have hsplit : splitLeafNodes 4 ⟨[5, 7, 8, 9], [⟨0, 0⟩, ⟨0, 0⟩, ⟨0, 0⟩, ⟨0, 0⟩], 0⟩ (zeroLeaf 4)
      = some (⟨[5, 7, -1, -1], [⟨0, 0⟩, ⟨0, 0⟩, ⟨0, 0⟩, ⟨0, 0⟩], 0⟩,
              ⟨[8, 9, -1, -1], [⟨0, 0⟩, ⟨0, 0⟩, ⟨0, 0⟩, ⟨0, 0⟩], 0⟩, 8) := rfl
  have hpush := pushUp_eq (m + 3)
    ⟨1, 5 :: List.replicate (m + 2) (-1), 2 :: 4 :: List.replicate (m + 2) 0⟩ 8 4 5 [5] []
    (m + 1) (by simp only [List.length_singleton, List.length_nil]; omega)
    (by simp [List.replicate_succ]) (by simp) (by simp) (by simp)
  simp only [List.length_singleton, List.singleton_append, List.nil_append] at hpush
  simp [insertEntry, insertGeneral, traverse, findChild, splitIfFull, scenarioIndex, readHeader,
    readLeaf, readNonLeaf, readPage, writePage, lastKey, fullNodeHandler, newParent,
    splitLeafNode, allocPage, hins, hsplit, hpush]
  simp [List.replicate_succ]

/-- The seven insertions of the scenario, for any internal capacity `m + 3`. -/
theorem scenario_insertAll (m f : Nat) (nm : String) (offs : Int) (ty : Datatype)
    (root0 : Nat) (r1 r2 r3 r4 r5 r6 r7 : RecordId) :
    insertAll 4 (m + 3) (f + 1) (emptyIndex nm offs ty root0)
        [(5, r1), (3, r2), (8, r3), (1, r4), (9, r5), (2, r6), (7, r7)]
      = some (scenarioIndex nm offs ty 3 5
        [Page.leaf ⟨[1, 2, 3, -1], [r1, ⟨0, 0⟩, ⟨0, 0⟩, ⟨0, 0⟩], 0⟩,
         Page.nonLeaf ⟨1, 5 :: 8 :: List.replicate (m + 1) (-1),
           2 :: 4 :: 5 :: List.replicate (m + 1) 0⟩,
         Page.leaf ⟨[5, 7, -1, -1], [⟨0, 0⟩, ⟨0, 0⟩, ⟨0, 0⟩, ⟨0, 0⟩], 0⟩,
         Page.leaf ⟨[8, 9, -1, -1], [⟨0, 0⟩, ⟨0, 0⟩, ⟨0, 0⟩, ⟨0, 0⟩], 0⟩]) := by
  simp only [insertAll, scenario_step1, scenario_step2, scenario_step3, scenario_step4,
    scenario_step5, scenario_step6, scenario_step7]

/-- C9. Concrete scenario, key order: starting from an empty tree with leaf capacity 4 and
any internal capacity `M ≥ 3`, the insertions of the keys 5, 3, 8, 1, 9, 2, 7 (in that order,
with any record locators) all succeed, and reading the leaves from left to right in the order
of the root's child references yields exactly the keys 1, 2, 3, 5, 7, 8, 9. -/
theorem scenario_leaf_chain (M fuel : Nat) (hM : 3 ≤ M) (hfuel : 1 ≤ fuel) (nm : String)
    (offs : Int) (ty : Datatype) (root0 : Nat) (r1 r2 r3 r4 r5 r6 r7 : RecordId) :
    ∃ s, insertAll 4 M fuel (emptyIndex nm offs ty root0)
          [(5, r1), (3, r2), (8, r3), (1, r4), (9, r5), (2, r6), (7, r7)] = some s
      ∧ leafChainKeys s = some [1, 2, 3, 5, 7, 8, 9] := by
  obtain ⟨m, rfl⟩ : ∃ m, M = m + 3 := ⟨M - 3, by omega⟩
  obtain ⟨f, rfl⟩ : ∃ f, fuel = f + 1 := ⟨fuel - 1, by omega⟩
  refine ⟨_, scenario_insertAll m f nm offs ty root0 r1 r2 r3 r4 r5 r6 r7, ?_⟩
  simp [leafChainKeys, keysOfLeaves, childPages, leafKeys, scenarioIndex, readPage, readLeaf,
    List.replicate_succ]

/-- C9, instance: internal capacity 3, depth bound 1, record locator `ridOf k` for key `k`. -/
theorem scenario_leaf_chain_witness :
    3 ≤ 3 ∧ 1 ≤ 1 ∧
    ∃ s, insertAll 4 3 1 (emptyIndex "rel" 0 Datatype.INTEGER 0)
          [(5, ridOf 5), (3, ridOf 3), (8, ridOf 8), (1, ridOf 1), (9, ridOf 9), (2, ridOf 2),
           (7, ridOf 7)] = some s
      ∧ leafChainKeys s = some [1, 2, 3, 5, 7, 8, 9] :=
  ⟨by decide, by decide,
    scenario_leaf_chain 3 1 (by decide) (by decide) "rel" 0 Datatype.INTEGER 0 (ridOf 5)
      (ridOf 3) (ridOf 8) (ridOf 1) (ridOf 9) (ridOf 2) (ridOf 7)⟩

/-! ### Scan operations -/

theorem scanAll_none : ∀ (fuel : Nat) (s : BTreeIndex) (outRid : RecordId),
    scanAll fuel s outRid = none
  | 0, _, _ => rfl
  | fuel + 1, s, outRid => by
    simp only [scanAll, scanNext, scanAll_none fuel s outRid]

/-- C10 (amended). The scan operations do nothing: for every index, bounds and operators,
`startScan` returns normally and leaves the index unchanged; `scanNext` returns normally and
leaves the index and the caller's record locator unchanged; so however often `scanNext` is
called, no record locator of the index is produced and scan-completed is never signalled. -/
theorem scan_operations_do_nothing (s : BTreeIndex) (low high : Int) (lowOp highOp : Operator)
    (outRid : RecordId) :
    startScan s low lowOp high highOp = Except.ok s
    ∧ scanNext s outRid = Except.ok (s, outRid)
    ∧ ∀ fuel, scanAll fuel s outRid = none :=
  ⟨rfl, rfl, fun fuel => scanAll_none fuel s outRid⟩

/-- C10, counterexample: after the insertions of the keys 5, 3, 8, 1, 9, 2, 7 (leaf capacity 4,
internal capacity 4) and `startScan` with the bounds `3 ≤ key ≤ 8`, the first `scanNext`
returns normally with the caller's record locator untouched, and no number of `scanNext`
calls yields the record locators of the keys 3, 5, 7, 8 followed by scan-completed. -/
theorem scan_counterexample :
    ∃ s s1, insertAll 4 4 1 (emptyIndex "rel" 0 Datatype.INTEGER 0) scenarioEntries = some s
      ∧ startScan s 3 Operator.GTE 8 Operator.LTE = Except.ok s1
      ∧ scanNext s1 ⟨0, 0⟩ = Except.ok (s1, ⟨0, 0⟩)
      ∧ ¬ ∃ fuel, scanAll fuel s1 ⟨0, 0⟩ = some [ridOf 3, ridOf 5, ridOf 7, ridOf 8] :=
  ⟨_, _, scenario_insertAll 1 0 "rel" 0 Datatype.INTEGER 0 (ridOf 5) (ridOf 3) (ridOf 8)
      (ridOf 1) (ridOf 9) (ridOf 2) (ridOf 7),
    rfl, rfl, fun h => by
      obtain ⟨fuel, h⟩ := h
      rw [scanAll_none] at h
      exact Option.noConfusion h⟩

/-! ### Scan cursor state -/

/-- C11 (amended). `scanNext` never signals scan-not-initialized: for every index, also one
on which no scan was started or on which the last scan was ended with `endScan`, `scanNext`
returns normally and leaves the index and the caller's record locator unchanged. -/
theorem scanNext_returns_normally (s : BTreeIndex) (low high : Int) (lowOp highOp : Operator)
    (outRid : RecordId) :
    scanNext s outRid ≠ Except.error ScanError.ScanNotInitialized
    ∧ scanNext s outRid = Except.ok (s, outRid)
    ∧ ((startScan s low lowOp high highOp).bind endScan).bind (fun s2 => scanNext s2 outRid)
        = Except.ok (s, outRid) :=
  ⟨fun h => Except.noConfusion h, rfl, rfl⟩

/-- C11, counterexample: on the freshly constructed index, where no scan was ever started,
`scanNext` returns normally instead of signalling scan-not-initialized. -/
theorem scanNext_unstarted_counterexample :
    scanNext (emptyIndex "rel" 0 Datatype.INTEGER 0) ⟨0, 0⟩
        = Except.ok (emptyIndex "rel" 0 Datatype.INTEGER 0, ⟨0, 0⟩)
    ∧ scanNext (emptyIndex "rel" 0 Datatype.INTEGER 0) ⟨0, 0⟩
        ≠ Except.error ScanError.ScanNotInitialized :=
  ⟨rfl, fun h => Except.noConfusion h⟩

/-! ### Internal split and new root at concrete inputs -/

/-- C16. `splitNonLeafNode` splits at the leaf midpoint: with leaf capacity 4 and internal
capacity 6, the full internal node with separators 10, 20, 30, 40, 50, 60 is split at index
`4 / 2 = 2`, not `6 / 2 = 3`: the returned separator is 30 (not 40), the left half keeps
10, 20 (not 10, 20, 30), and the right half keeps only 30, 40. -/
theorem splitNonLeafNode_uses_leaf_midpoint :
    ∃ s1 sep pid left right,
      splitNonLeafNode 4 6 (indexOfInternal fullInternal6) 2 = some (s1, sep, pid)
      ∧ readNonLeaf s1.file 2 = some left ∧ readNonLeaf s1.file pid = some right
      ∧ fullInternal6.keyArray[4 / 2]? = some sep
      ∧ fullInternal6.keyArray[6 / 2]? = some 40
      ∧ sep = 30
      ∧ left.keyArray = [10, 20, -1, -1, -1, -1]
      ∧ left.keyArray ≠ fullInternal6.keyArray.take (6 / 2) ++ List.replicate (6 - 6 / 2) (-1)
      ∧ right.keyArray = [30, 40, -1, -1, -1, -1] :=
  ⟨_, _, _, _, _, rfl, rfl, rfl, rfl, rfl, rfl, rfl, by decide, rfl⟩

/-- C17. The new root is always marked as having leaf children: when `fullNodeHandler` splits
the full internal node of page 2 with no parent and `isLeaf = false`, the new root gets the
level marker 1 although its two children (pages 2 and 4) are internal nodes. -/
theorem fullNodeHandler_new_root_level :
    readNonLeaf (indexOfInternal fullInternal4).file 2 = some fullInternal4
    ∧ ∃ s1 root left right,
      fullNodeHandler 4 4 (indexOfInternal fullInternal4) 2 none 2 false = some s1
      ∧ readNonLeaf s1.file s1.rootPageNum = some root
      ∧ root.level = 1
      ∧ root.pageNoArray = [2, 4, 0, 0, 0]
      ∧ readNonLeaf s1.file 2 = some left ∧ readNonLeaf s1.file 4 = some right
      ∧ readLeaf s1.file 2 = none ∧ readLeaf s1.file 4 = none :=
  ⟨rfl, _, _, _, _, rfl, rfl, rfl, rfl, rfl, rfl, rfl, rfl⟩

/-- C19. A full internal root is handed to the leaf split: with leaf capacity 2 and internal
capacity 2, after the keys 5 and 3 the insertion of 8 fills the root (separators 5 and 8);
`insertEntry` then calls `fullNodeHandler` with `isLeaf = 1` on this internal node, so
`splitLeafNode` is applied to a page that is not a leaf (no result in the model), whereas with
`isLeaf = 0` `splitNonLeafNode` splits it. -/
theorem insertEntry_internal_root_split_as_leaf :
    insertAll 2 2 1 (emptyIndex "rel" 0 Datatype.INTEGER 0) [(5, ridOf 5), (3, ridOf 3)]
        = some beforeRootFull
    ∧ traverse 2 2 1 beforeRootFull 3 8 (ridOf 8) = some rootFull
    ∧ readNonLeaf rootFull.file 3
        = some { level := 1, keyArray := [5, 8], pageNoArray := [2, 4, 5] }
    ∧ lastKey [5, 8] 2 = some 8
    ∧ readLeaf rootFull.file 3 = none
    ∧ insertGeneral 2 2 1 beforeRootFull
        { relationName := "rel", attrByteOffset := 0, attrType := Datatype.INTEGER,
          rootPageNo := 3 } 8 (ridOf 8)
        = (fullNodeHandler 2 2 rootFull 3 none rootFull.rootPageNum true).map
            (fun s2 => { s2 with numOfNodes := s2.numOfNodes + 1 })
    ∧ fullNodeHandler 2 2 rootFull 3 none rootFull.rootPageNum true = none
    ∧ (fullNodeHandler 2 2 rootFull 3 none rootFull.rootPageNum false).isSome = true
    ∧ insertEntry 2 2 1 beforeRootFull 8 (ridOf 8) = none :=
  ⟨rfl, rfl, rfl, rfl, rfl, rfl, rfl, rfl, rfl⟩

/-! ### Position of the inserted key and the sentinel key -/

theorem filter_le_eq_take (k : Int) (ks : List Int) (h : ks.Sorted (· ≤ ·)) :
    ks.filter (fun x => decide (x ≤ k)) = ks.take (ks.countP (fun x => decide (x ≤ k)))
    ∧ ks.filter (fun x => decide (k < x)) = ks.drop (ks.countP (fun x => decide (x ≤ k))) := by
  have hs := sorted_filter_split k ks h
  have hc : ks.countP (fun x => decide (x ≤ k))
      = (ks.filter (fun x => decide (x ≤ k))).length := List.countP_eq_length_filter _ _
  rw [hc]
  constructor
  · have := List.take_left (ks.filter (fun x => decide (x ≤ k)))
      (ks.filter (fun x => decide (k < x)))
    rw [← hs] at this
    exact this.symm
  · have := List.drop_left (ks.filter (fun x => decide (x ≤ k)))
      (ks.filter (fun x => decide (k < x)))
    rw [← hs] at this
    exact this.symm

/-- Closed form of `insertToNode` on a non-full sorted leaf, for any key. -/
theorem insertToNode_sorted_eq (L n : Nat) (node : LeafNodeInt) (ks : List Int) (k : Int)
    (rid : RecordId) (hn : n < L) (hlen : ks.length = n)
    (hkeys : node.keyArray = ks ++ List.replicate (L - n) (-1))
    (hns : ∀ x ∈ ks, x ≠ -1) (hsorted : ks.Sorted (· ≤ ·)) :
    insertToNode L node k rid
      = some { node with
          keyArray := ks.filter (fun x => decide (x ≤ k))
            ++ k :: ks.filter (fun x => decide (k < x)) ++ List.replicate (L - (n + 1)) (-1) } := by
  have hs := sorted_filter_split k ks hsorted
  have hAB : (ks.filter (fun x => decide (x ≤ k))).length
      + (ks.filter (fun x => decide (k < x))).length = n := by
    rw [← hlen, ← List.length_append, ← hs]
  have ht : L - n = (L - (n + 1)) + 1 := by omega
  apply insertToNode_eq L node k rid _ _ (L - (n + 1)) (by omega)
  · rw [hkeys, ← hs, ← ht]
  · intro a ha
    have h1 := List.mem_filter.mp (List.mem_of_getLast?_eq_some ha)
    simp only [decide_eq_true_eq] at h1
    exact ⟨not_lt.mpr h1.2, hns a h1.1⟩
  · intro b hb
    have h1 := List.mem_filter.mp hb
    simp only [decide_eq_true_eq] at h1
    exact ⟨h1.2, hns b h1.1⟩

/-- C15. Equal keys are placed after the existing ones: for every non-full sorted leaf with
`n` stored keys `ks` and every key `k ≠ -1`, `insertToNode` succeeds and writes `k` at the
index `i` equal to the number of stored keys that are `≤ k`; the keys before `i` are
unchanged and the keys from `i` on follow `k`, one slot to the right, in the same order. -/
theorem insertToNode_position (L n : Nat) (node : LeafNodeInt) (ks : List Int) (k : Int)
    (rid : RecordId) (hn : n < L) (hlen : ks.length = n)
    (hkeys : node.keyArray = ks ++ List.replicate (L - n) (-1))
    (hns : ∀ x ∈ ks, x ≠ -1) (hsorted : ks.Sorted (· ≤ ·)) (hk : k ≠ -1) :
    ∃ node1, insertToNode L node k rid = some node1
      ∧ ks.countP (fun x => decide (x ≤ k)) ≤ n
      ∧ node1.keyArray = ks.take (ks.countP (fun x => decide (x ≤ k)))
          ++ k :: ks.drop (ks.countP (fun x => decide (x ≤ k)))
          ++ List.replicate (L - (n + 1)) (-1)
      ∧ node1.keyArray[ks.countP (fun x => decide (x ≤ k))]? = some k
      ∧ (∀ j, j < ks.countP (fun x => decide (x ≤ k)) → node1.keyArray[j]? = ks[j]?)
      ∧ (∀ j, ks.countP (fun x => decide (x ≤ k)) ≤ j → j < n →
          node1.keyArray[j + 1]? = ks[j]?) := by
  have heq := insertToNode_sorted_eq L n node ks k rid hn hlen hkeys hns hsorted
  obtain ⟨hA, hB⟩ := filter_le_eq_take k ks hsorted
  rw [hA, hB] at heq
  have hi : ks.countP (fun x => decide (x ≤ k)) ≤ n := by
    rw [← hlen]; exact List.countP_le_length _
  generalize ks.countP (fun x => decide (x ≤ k)) = i at heq hi
  have hlt : (ks.take i).length = i := by
    rw [List.length_take]; omega
  refine ⟨_, heq, hi, rfl, ?_, ?_, ?_⟩
  · simp only [List.append_assoc, List.cons_append]
    rw [List.getElem?_append_right (by omega)]
    simp [hlt]
  · intro j hj
    simp only [List.append_assoc, List.cons_append]
    rw [List.getElem?_append_left (by omega), List.getElem?_take_of_lt hj]
  · intro j hij hjn
    simp only [List.append_assoc, List.cons_append]
    rw [List.getElem?_append_right (by omega), hlt]
    have e : j + 1 - i = (j - i) + 1 := by omega
    rw [e, List.getElem?_cons_succ, List.getElem?_append_left
      (by simp only [List.length_drop]; omega), List.getElem?_drop]
    congr 1; omega

/-- C15, instance: inserting 5 into the leaf `[3, 5, -1, -1]` puts it at index 2. -/
theorem insertToNode_position_witness :
    ∃ node1, insertToNode 4 leaf35 5 (ridOf 5) = some node1
      ∧ [3, 5].countP (fun x => decide (x ≤ (5 : Int))) ≤ 2
      ∧ node1.keyArray = [3, 5].take ([3, 5].countP (fun x => decide (x ≤ (5 : Int))))
          ++ 5 :: [3, 5].drop ([3, 5].countP (fun x => decide (x ≤ (5 : Int))))
          ++ List.replicate (4 - (2 + 1)) (-1)
      ∧ node1.keyArray[[3, 5].countP (fun x => decide (x ≤ (5 : Int)))]? = some 5
      ∧ (∀ j, j < [3, 5].countP (fun x => decide (x ≤ (5 : Int))) →
          node1.keyArray[j]? = ([3, 5] : List Int)[j]?)
      ∧ (∀ j, [3, 5].countP (fun x => decide (x ≤ (5 : Int))) ≤ j → j < 2 →
          node1.keyArray[j + 1]? = ([3, 5] : List Int)[j]?) :=
  insertToNode_position 4 2 leaf35 [3, 5] 5 (ridOf 5) (by decide) rfl rfl (by decide)
    (by decide) (by decide)

/-! ### The sentinel key -/

theorem lastKey_sentinel_suffix (L : Nat) (X : List Int) (c : Nat)
    (h : X.length + (c + 1) = L) :
    lastKey (X ++ List.replicate (c + 1) (-1)) L = some (-1) := by
  unfold lastKey
  rw [if_neg (by omega), List.getElem?_append_right (by omega)]
  rw [List.getElem?_replicate, if_pos (by omega)]

theorem lastKey_full (L : Nat) (X : List Int) (h0 : 0 < L) (h : X.length = L) :
    ∃ x, lastKey X L = some x ∧ x ∈ X := by
  unfold lastKey
  rw [if_neg (by omega)]
  have hl : L - 1 < X.length := by omega
  exact ⟨X[L - 1], List.getElem?_eq_getElem hl, List.getElem_mem hl⟩

/-- C12 (amended). The key `-1` is the empty-slot marker, every other value is usable: for
every non-full sorted leaf holding `n` entries, `insertToNode` with key `-1` succeeds and the
leaf still holds the same `n` keys (the slot written with `-1` reads as empty), while
`insertToNode` with a key other than `-1` makes it hold `n + 1` keys; and a leaf whose stored
keys are followed by empty slots is judged full (last key slot not `-1`) exactly when it
holds `L` keys. -/
theorem sentinel_key_not_counted (L n : Nat) (node : LeafNodeInt) (ks : List Int)
    (rid : RecordId) (hn : n < L) (hlen : ks.length = n)
    (hkeys : node.keyArray = ks ++ List.replicate (L - n) (-1))
    (hns : ∀ x ∈ ks, x ≠ -1) (hsorted : ks.Sorted (· ≤ ·)) :
    (∃ node1, insertToNode L node (-1) rid = some node1
      ∧ leafKeys node1 = leafKeys node ∧ (leafKeys node1).length = n)
    ∧ (∀ k, k ≠ -1 → ∃ node1, insertToNode L node k rid = some node1
      ∧ (leafKeys node1).length = n + 1)
    ∧ (∀ ks2 : List Int, ks2.length ≤ L → (∀ x ∈ ks2, x ≠ -1) →
        ∃ x, lastKey (ks2 ++ List.replicate (L - ks2.length) (-1)) L = some x
          ∧ (x ≠ -1 ↔ ks2.length = L)) := by
  have hs := sorted_filter_split (-1) ks hsorted
  have hnode : leafKeys node = ks := by
    unfold leafKeys; rw [hkeys]; exact filter_keys _ _ hns
  refine ⟨?_, ?_, ?_⟩
  · have hsame : leafKeys
        { node with
          keyArray := ks.filter (fun x => decide (x ≤ -1))
            ++ (-1) :: ks.filter (fun x => decide (-1 < x))
            ++ List.replicate (L - (n + 1)) (-1) } = leafKeys node := by
      have hA : ∀ x ∈ ks.filter (fun x => decide (x ≤ -1)), x ≠ -1 :=
        fun x hx => hns x (List.mem_filter.mp hx).1
      have hB : ∀ x ∈ ks.filter (fun x => decide (-1 < x)), x ≠ -1 :=
        fun x hx => hns x (List.mem_filter.mp hx).1
      have h1 : (ks.filter (fun x => decide (x ≤ -1))).filter (fun x => decide (x ≠ -1))
          = ks.filter (fun x => decide (x ≤ -1)) := by
        rw [List.filter_eq_self]; intro x hx; simpa using hA x hx
      rw [hnode]
      unfold leafKeys
      simp only [List.append_assoc, List.cons_append, List.filter_append, h1,
        List.filter_cons, ne_eq, not_true_eq_false, decide_False, Bool.false_eq_true,
        if_false]
      have h2 := filter_keys (L - (n + 1)) _ hB
      simp only [List.filter_append, ne_eq] at h2
      rw [h2]
      exact hs.symm
    exact ⟨_, insertToNode_sorted_eq L n node ks (-1) rid hn hlen hkeys hns hsorted, hsame,
      by rw [hsame, hnode, hlen]⟩
  · intro k hk
    refine ⟨_, insertToNode_sorted_eq L n node ks k rid hn hlen hkeys hns hsorted, ?_⟩
    have hall : ∀ x ∈ ks.filter (fun x => decide (x ≤ k)) ++ k :: ks.filter
        (fun x => decide (k < x)), x ≠ -1 := by
      intro x hx
      rcases List.mem_append.mp hx with hx | hx
      · exact hns x (List.mem_filter.mp hx).1
      · rcases List.mem_cons.mp hx with rfl | hx
        · exact hk
        · exact hns x (List.mem_filter.mp hx).1
    unfold leafKeys
    simp only
    rw [filter_keys _ _ hall]
    have hsk := sorted_filter_split k ks hsorted
    have : (ks.filter (fun x => decide (x ≤ k))).length
        + (ks.filter (fun x => decide (k < x))).length = n := by
      rw [← hlen, ← List.length_append, ← hsk]
    simp only [List.length_append, List.length_cons]
    omega
  · intro ks2 hle hns2
    by_cases hfull : ks2.length = L
    · obtain ⟨x, hx, hmem⟩ := lastKey_full L (ks2 ++ List.replicate (L - ks2.length) (-1))
        (by omega) (by simp only [List.length_append, List.length_replicate]; omega)
      refine ⟨x, hx, ?_⟩
      rw [hfull, Nat.sub_self, List.replicate_zero, List.append_nil] at hmem
      exact ⟨fun _ => hfull, fun _ => hns2 x hmem⟩
    · have hc : L - ks2.length = (L - ks2.length - 1) + 1 := by omega
      refine ⟨-1, ?_, ?_⟩
      · rw [hc]; exact lastKey_sentinel_suffix L ks2 _ (by omega)
      · exact ⟨fun h => absurd rfl h, fun h => absurd h hfull⟩

/-- C12 (amended), instance: the leaf `[3, 5, -1, -1]` of capacity 4. -/
theorem sentinel_key_not_counted_witness :
    (∃ node1, insertToNode 4 leaf35 (-1) (ridOf 9) = some node1
      ∧ leafKeys node1 = leafKeys leaf35 ∧ (leafKeys node1).length = 2)
    ∧ (∀ k, k ≠ -1 → ∃ node1, insertToNode 4 leaf35 k (ridOf 9) = some node1
      ∧ (leafKeys node1).length = 2 + 1)
    ∧ (∀ ks2 : List Int, ks2.length ≤ 4 → (∀ x ∈ ks2, x ≠ -1) →
        ∃ x, lastKey (ks2 ++ List.replicate (4 - ks2.length) (-1)) 4 = some x
          ∧ (x ≠ -1 ↔ ks2.length = 4)) :=
  sentinel_key_not_counted 4 2 leaf35 [3, 5] (ridOf 9) (by decide) rfl rfl (by decide)
    (by decide)

/-- C12, counterexample: inserting the key `-1` into the leaf holding 5 gives the key array
`[-1, 5, -1, -1]`, whose occupied slots still hold the single key 5; and inserting `-1` into
the leaf holding 5, 7, 9 gives `[-1, 5, 7, 9]`, which is judged full (last slot not `-1`)
while only three of its slots are occupied. -/
theorem sentinel_key_counterexample :
    (∃ node1, insertToNode 4 leafAfter5 (-1) (ridOf 9) = some node1
      ∧ node1.keyArray = [-1, 5, -1, -1]
      ∧ leafKeys leafAfter5 = [5]
      ∧ leafKeys node1 = [5]
      ∧ (leafKeys node1).length ≠ (leafKeys leafAfter5).length + 1)
    ∧ (∃ node2, insertToNode 4 leaf579 (-1) (ridOf 9) = some node2
      ∧ node2.keyArray = [-1, 5, 7, 9]
      ∧ lastKey node2.keyArray 4 = some 9
      ∧ (leafKeys node2).length = 3) :=
  ⟨⟨_, rfl, rfl, by decide, by decide, by decide⟩, ⟨_, rfl, rfl, rfl, by decide⟩⟩

/-! ### Capacity bound after an insertion step -/

/-- The shifting loop started below the end of the array stays inside the array. -/
theorem shiftKeys_total (k : Int) :
    ∀ (i : Nat) (arr : List Int), i < arr.length →
      ∃ j arr1, shiftKeys k i arr = some (j, arr1) ∧ j ≤ i ∧ arr1.length = arr.length
  | 0, arr, _ => ⟨0, arr, rfl, le_refl _, rfl⟩
  | i + 1, arr, h => by
    have hx : arr[i]? = some arr[i] := List.getElem?_eq_getElem (by omega)
    unfold shiftKeys
    simp only [hx]
    by_cases hc : k < arr[i] ∨ arr[i] = -1
    · rw [if_pos hc]
      by_cases hs : arr[i] ≠ -1
      · rw [if_pos hs, wr_eq_some _ _ _ h]
        obtain ⟨j, arr1, h1, h2, h3⟩ := shiftKeys_total k i (arr.set (i + 1) arr[i])
          (by simp only [List.length_set]; omega)
        exact ⟨j, arr1, h1, by omega, by rw [h3, List.length_set]⟩
      · rw [if_neg hs]
        obtain ⟨j, arr1, h1, h2, h3⟩ := shiftKeys_total k i arr (by omega)
        exact ⟨j, arr1, h1, by omega, h3⟩
    · rw [if_neg hc]
      exact ⟨i + 1, arr, rfl, le_refl _, rfl⟩

/-- A leaf whose last key slot is empty accepts any insertion without a store past the last
slot. -/
theorem insertToNode_total (L : Nat) (node : LeafNodeInt) (k : Int) (rid : RecordId)
    (hlen : node.keyArray.length = L) (hlast : lastKey node.keyArray L = some (-1)) :
    ∃ node1, insertToNode L node k rid = some node1 := by
  unfold lastKey at hlast
  by_cases h0 : L = 0
  · rw [if_pos h0] at hlast; exact Option.noConfusion hlast
  · rw [if_neg h0] at hlast
    obtain ⟨i, rfl⟩ : ∃ i, L = i + 1 := ⟨L - 1, by omega⟩
    rw [Nat.add_sub_cancel] at hlast
    obtain ⟨j, arr1, h1, h2, h3⟩ := shiftKeys_total k i node.keyArray (by omega)
    unfold insertToNode
    simp only [shiftKeys, hlast, or_true, if_true, ne_eq, not_true_eq_false, if_false, h1]
    rw [wr_eq_some _ _ _ (by omega)]
    exact ⟨_, rfl⟩

/-- A leaf whose last key slot is empty holds fewer keys than it has slots. -/
theorem leafKeys_lt (L : Nat) (node : LeafNodeInt) (hlen : node.keyArray.length = L)
    (hlast : lastKey node.keyArray L = some (-1)) : (leafKeys node).length < L := by
  unfold lastKey at hlast
  by_cases h0 : L = 0
  · rw [if_pos h0] at hlast; exact Option.noConfusion hlast
  · rw [if_neg h0] at hlast
    unfold leafKeys
    rw [← hlen, List.length_filter_lt_length_iff_exists]
    obtain ⟨hl, hv⟩ := List.getElem?_eq_some.mp hlast
    exact ⟨_, List.getElem_mem hl, by simp [hv]⟩

/-- C18. The leaf capacity bound is restored by every insertion step: for every leaf capacity
`L ≥ 2`, every non-full sorted leaf and every key, `insertToNode` followed by the fullness
test and, when it fires, the leaf split succeeds, and every resulting leaf (the original
and, after a split, the new right sibling) holds strictly fewer than `L` keys, has its last
key slot empty, and accepts the next `insertToNode` of any key without a store past its last
slot. -/
theorem insert_step_restores_capacity (L n : Nat) (node rightPage : LeafNodeInt)
    (ks : List Int) (k : Int) (rid : RecordId) (hL : 2 ≤ L) (hn : n < L)
    (hlen : ks.length = n) (hkeys : node.keyArray = ks ++ List.replicate (L - n) (-1))
    (hrid : node.ridArray.length = L)
    (hrk : rightPage.keyArray.length = L) (hrr : rightPage.ridArray.length = L)
    (hns : ∀ x ∈ ks, x ≠ -1) (hsorted : ks.Sorted (· ≤ ·)) :
    ∃ leaves, insertStepLeaves L node rightPage k rid = some leaves
      ∧ ∀ x ∈ leaves, (leafKeys x).length < L
          ∧ lastKey x.keyArray L = some (-1)
          ∧ ∀ k2 r2, ∃ x2, insertToNode L x k2 r2 = some x2 := by
  have heq := insertToNode_sorted_eq L n node ks k rid hn hlen hkeys hns hsorted
  have hsk := sorted_filter_split k ks hsorted
  have hAB : (ks.filter (fun x => decide (x ≤ k))).length
      + (ks.filter (fun x => decide (k < x))).length = n := by
    rw [← hlen, ← List.length_append, ← hsk]
  have hlen1 : (ks.filter (fun x => decide (x ≤ k))
      ++ k :: ks.filter (fun x => decide (k < x))
      ++ List.replicate (L - (n + 1)) (-1)).length = L := by
    simp only [List.length_append, List.length_cons, List.length_replicate]; omega
  have hgood : ∀ x : LeafNodeInt, x.keyArray.length = L → lastKey x.keyArray L = some (-1) →
      (leafKeys x).length < L ∧ lastKey x.keyArray L = some (-1)
        ∧ ∀ k2 r2, ∃ x2, insertToNode L x k2 r2 = some x2 :=
    fun x h1 h2 => ⟨leafKeys_lt L x h1 h2, h2, fun k2 r2 => insertToNode_total L x k2 r2 h1 h2⟩
  obtain ⟨test, htest, -⟩ := lastKey_full L _ (by omega) hlen1
  unfold insertStepLeaves
  simp only [heq, htest]
  by_cases ht : test = -1
  · rw [if_neg (by simpa using ht)]
    refine ⟨_, rfl, ?_⟩
    intro x hx
    rw [List.mem_singleton] at hx
    subst hx
    exact hgood _ hlen1 (by rw [htest, ht])
  · rw [if_pos ht]
    obtain ⟨middleKey, -, hsplit⟩ := splitLeafNodes_eq L
      { node with keyArray := ks.filter (fun x => decide (x ≤ k))
          ++ k :: ks.filter (fun x => decide (k < x))
          ++ List.replicate (L - (n + 1)) (-1) } rightPage (by omega) hlen1 hrid hrk hrr
    rw [hsplit]
    have hm : L / 2 < L := Nat.div_lt_self (by omega) (by decide)
    have hc : L - L / 2 = (L - L / 2 - 1) + 1 := by omega
    refine ⟨_, rfl, ?_⟩
    intro x hx
    simp only [List.mem_cons, List.mem_singleton, List.not_mem_nil, or_false] at hx
    rcases hx with rfl | rfl
    · apply hgood
      · simp only [List.length_append, List.length_take, List.length_replicate, hlen1]
        omega
      · simp only
        rw [hc]
        apply lastKey_sentinel_suffix
        simp only [List.length_take, hlen1]
        omega
    · apply hgood
      · simp only [List.length_append, List.length_take, List.length_drop,
          List.length_replicate, hlen1]
        omega
      · simp only
        rw [hc]
        apply lastKey_sentinel_suffix
        simp only [List.length_take, List.length_drop, hlen1]
        omega

/-- C18, instance: inserting 6 into the leaf `[5, 7, 9, -1]` of capacity 4 fills it and
triggers the split. -/
theorem insert_step_restores_capacity_witness :
    ∃ leaves, insertStepLeaves 4 leaf579 (zeroLeaf 4) 6 (ridOf 6) = some leaves
      ∧ ∀ x ∈ leaves, (leafKeys x).length < 4
          ∧ lastKey x.keyArray 4 = some (-1)
          ∧ ∀ k2 r2, ∃ x2, insertToNode 4 x k2 r2 = some x2 :=
  insert_step_restores_capacity 4 3 leaf579 (zeroLeaf 4) [5, 7, 9] 6 (ridOf 6) (by decide)
    (by decide) rfl rfl rfl rfl rfl (by decide) (by decide)

/-! ### Bulk load -/

/-- The key read by the constructor is the integer at byte `4 * attrByteOffset`. -/
theorem constructorKey_eq (record : List Nat) (b : Nat) :
    constructorKey record (b : Int) = int32At record (4 * b) := by
  unfold constructorKey
  rw [if_neg (by omega)]
  simp

/-- C13. Bulk load reads the key at four times the configured byte offset: for the record
holding the integers 10, 20, 30, 40, 50 and the attribute byte offset 4, the 4-byte integer
that starts at byte 4 is 20, but the constructor passes 50, the integer at byte 16, to
`insertEntry`; the index built from this record holds the key 50. -/
theorem constructor_key_offset_scaled :
    int32At record5 4 = some 20
    ∧ constructorKey record5 4 = some 50
    ∧ constructorKey record5 4 = int32At record5 16
    ∧ ∃ s root, constructIndex 4 4 1 "rel" 4 Datatype.INTEGER 0 [(ridOf 1, record5)] = some s
        ∧ readLeaf s.file s.rootPageNum = some root
        ∧ root.keyArray = [50, -1, -1, -1] :=
  ⟨rfl, rfl, rfl, _, _, rfl, rfl, rfl⟩

/-! ### Root split -/

theorem readPage_set_set_other (file : List Page) (p q r : Nat) (x y : Page) (h0 : 0 < p)
    (hq : 0 < q) (hr : 0 < r) (hpq : p ≠ q) (hpr : p ≠ r) :
    readPage ((file.set (q - 1) x).set (r - 1) y) p = readPage file p := by
  rw [readPage_set_other _ _ _ _ h0 hr hpr, readPage_set_other _ _ _ _ h0 hq hpq]

/-- Closed form of `fullNodeHandler` on a leaf without parent: the new root is the page
after the last one, the right half the page after it. -/
theorem fullNodeHandler_root_eq (L M : Nat) (s : BTreeIndex) (P : Nat) (node : LeafNodeInt)
    (hL : 0 < L) (hM : 0 < M) (hread : readLeaf s.file P = some node)
    (hk : node.keyArray.length = L) (hr : node.ridArray.length = L) :
    ∃ s1 sep left right,
      fullNodeHandler L M s P none P true = some s1
      ∧ node.keyArray[L / 2]? = some sep
      ∧ s1.file.length = s.file.length + 2
      ∧ s1.rootPageNum = s.file.length + 1
      ∧ s1.headerPageNum = s.headerPageNum
      ∧ s1.numOfNodes = s.numOfNodes + 1
      ∧ readNonLeaf s1.file (s.file.length + 1)
          = some { level := 1, keyArray := sep :: List.replicate (M - 1) (-1),
                   pageNoArray := P :: (s.file.length + 2) :: List.replicate (M - 1) 0 }
      ∧ readLeaf s1.file P = some left
      ∧ readLeaf s1.file (s.file.length + 2) = some right
      ∧ splitLeafNodes L node (zeroLeaf L) = some (left, right, sep)
      ∧ (∀ q pg, readPage s.file q = some pg → q ≠ P → readPage s1.file q = some pg) := by
  obtain ⟨hP0, hP1⟩ := readPage_some (readLeaf_some hread)
  obtain ⟨m, rfl⟩ : ∃ m, M = m + 1 := ⟨M - 1, by omega⟩
  have hread1 : readLeaf (s.file ++ [Page.nonLeaf ⟨1, List.replicate (m + 1) (-1), List.replicate (m + 1 + 1) 0⟩]) P = some node :=
    readLeaf_of_readPage (readPage_append _ (readLeaf_some hread))
  obtain ⟨s2, sep, left, right, hsplit, hsep, hleft, hright, hs2, hrl, hrr⟩ :=
    splitLeafNode_eq L
      { s with
        file := s.file ++ [Page.nonLeaf ⟨1, List.replicate (m + 1) (-1), List.replicate (m + 1 + 1) 0⟩]
        rootPageNum := s.file.length + 1 } P node hL hread1 hk hr
  simp only [List.length_append, List.length_singleton] at hsplit hs2 hrr
  have hroot0 : readPage s2.file (s.file.length + 1)
      = some (Page.nonLeaf ⟨1, List.replicate (m + 1) (-1), List.replicate (m + 1 + 1) 0⟩) := by
    rw [hs2]
    have := readPage_set_set_other ((s.file ++ [Page.nonLeaf ⟨1, List.replicate (m + 1) (-1), List.replicate (m + 1 + 1) 0⟩]) ++ [Page.leaf (zeroLeaf L)])
      (s.file.length + 1) P (s.file.length + 1 + 1) (Page.leaf left) (Page.leaf right)
      (by omega) hP0 (by omega) (by omega) (by omega)
    simp only [Nat.add_sub_cancel] at this
    rw [this]
    exact readPage_append _ (readPage_alloc _ _)
  have hpush := pushUp_eq (m + 1)
    ⟨1, List.replicate (m + 1) (-1), List.replicate (m + 1 + 1) 0⟩ sep P (s.file.length + 1 + 1) [] [] m
    (by simp) (by simp) (by simp) (by simp) (by simp)
  simp only [List.nil_append, List.length_nil, Nat.zero_add, List.singleton_append] at hpush
  rw [set2_replicate m 0 P (s.file.length + 1 + 1)] at hpush
  have hlen2 : s2.file.length = s.file.length + 2 := by
    rw [hs2]; simp only [List.length_set, List.length_append, List.length_singleton]
  refine ⟨{ s2 with
              file := s2.file.set (s.file.length + 1 - 1)
                        (Page.nonLeaf ⟨1, sep :: List.replicate m (-1),
                          P :: (s.file.length + 1 + 1) :: List.replicate m 0⟩) },
    sep, left, right, ?_, hsep, ?_, ?_, ?_, ?_, ?_, ?_, ?_, ?_, ?_⟩
  · unfold fullNodeHandler
    simp only [newParent_none, if_true, hsplit, readNonLeaf_of_readPage hroot0, hpush]
    rw [writePage_eq _ _ _ (by omega) (by omega)]
  · simp only [List.length_set]; exact hlen2
  · rw [hs2]
  · rw [hs2]
  · rw [hs2]
  · apply readNonLeaf_of_readPage
    simp only [Nat.add_sub_cancel]
    have := readPage_set_same s2.file (s.file.length + 1)
      (Page.nonLeaf ⟨1, sep :: List.replicate m (-1), P :: (s.file.length + 1 + 1) :: List.replicate m 0⟩)
      (by omega) (by omega)
    simpa only [Nat.add_sub_cancel] using this
  · apply readLeaf_of_readPage
    simp only
    rw [readPage_set_other _ _ _ _ hP0 (by omega) (by omega)]
    exact readLeaf_some hrl
  · apply readLeaf_of_readPage
    simp only
    rw [readPage_set_other _ _ _ _ (by omega) (by omega) (by omega)]
    exact readLeaf_some hrr
  · obtain ⟨mk, hmk, hsp⟩ := splitLeafNodes_eq L node (zeroLeaf L) hL hk hr
      (by simp [zeroLeaf]) (by simp [zeroLeaf])
    rw [hsep] at hmk
    rw [hsp, hleft, hright, ← Option.some.inj hmk]
  · intro q pg hq hne
    obtain ⟨hq0, hq1⟩ := readPage_some hq
    simp only
    rw [readPage_set_other _ _ _ _ hq0 (by omega) (by omega), hs2]
    have := readPage_set_set_other ((s.file ++ [Page.nonLeaf ⟨1, List.replicate (m + 1) (-1), List.replicate (m + 1 + 1) 0⟩]) ++ [Page.leaf (zeroLeaf L)])
      q P (s.file.length + 1 + 1) (Page.leaf left) (Page.leaf right)
      hq0 hP0 (by omega) hne (by omega)
    simp only [Nat.add_sub_cancel] at this
    rw [this]
    exact readPage_append _ (readPage_append _ hq)

/-- C14. Root split creates a two-child root: when the root, a leaf stored in page `P`, is
split by `fullNodeHandler` with no parent, a new page is allocated for the new root and
`rootPageNum` becomes that page; the new root holds exactly one separator, the separator of
the leaf split, every other key slot being empty; child 0 is `P`, which holds the left half,
child 1 is the newly allocated page of the right half, and every other child slot is null.
(The leaf need not be full for this.) -/
theorem root_split_two_children (L M : Nat) (s : BTreeIndex) (P : Nat) (node : LeafNodeInt)
    (hL : 0 < L) (hM : 0 < M) (hread : readLeaf s.file P = some node)
    (hk : node.keyArray.length = L) (hr : node.ridArray.length = L) :
    ∃ s1 sep root left right,
      fullNodeHandler L M s P none P true = some s1
      ∧ readPage s.file s1.rootPageNum = none
      ∧ s1.rootPageNum = s.file.length + 1
      ∧ readNonLeaf s1.file s1.rootPageNum = some root
      ∧ root.keyArray = sep :: List.replicate (M - 1) (-1)
      ∧ root.pageNoArray = P :: (s.file.length + 2) :: List.replicate (M - 1) 0
      ∧ readPage s.file (s.file.length + 2) = none
      ∧ splitLeafNodes L node (zeroLeaf L) = some (left, right, sep)
      ∧ readLeaf s1.file P = some left
      ∧ readLeaf s1.file (s.file.length + 2) = some right := by
  obtain ⟨s1, sep, left, right, h1, -, -, h4, -, -, h7, h8, h9, h10, -⟩ :=
    fullNodeHandler_root_eq L M s P node hL hM hread hk hr
  have hnone : ∀ c : Nat, 0 < c → readPage s.file (s.file.length + c) = none := by
    intro c hc
    have hne : s.file.length + c ≠ 0 := by omega
    unfold readPage
    rw [if_neg hne, List.getElem?_eq_none (by omega)]
  refine ⟨s1, sep, ⟨1, sep :: List.replicate (M - 1) (-1),
      P :: (s.file.length + 2) :: List.replicate (M - 1) 0⟩, left, right, h1, ?_, h4, ?_, rfl, rfl,
    hnone 2 (by omega), h10, h8, h9⟩
  · rw [h4]; exact hnone 1 (by omega)
  · rw [h4]; exact h7

/-- C14, instance: the full root leaf `[1, 3, 5, 8]` of capacity 4 in page 2. -/
theorem root_split_two_children_witness :
    ∃ s1 sep root left right,
      fullNodeHandler 4 4 (indexOfLeaf fullLeaf4) 2 none 2 true = some s1
      ∧ readPage (indexOfLeaf fullLeaf4).file s1.rootPageNum = none
      ∧ s1.rootPageNum = (indexOfLeaf fullLeaf4).file.length + 1
      ∧ readNonLeaf s1.file s1.rootPageNum = some root
      ∧ root.keyArray = sep :: List.replicate (4 - 1) (-1)
      ∧ root.pageNoArray = 2 :: ((indexOfLeaf fullLeaf4).file.length + 2)
          :: List.replicate (4 - 1) 0
      ∧ readPage (indexOfLeaf fullLeaf4).file ((indexOfLeaf fullLeaf4).file.length + 2) = none
      ∧ splitLeafNodes 4 fullLeaf4 (zeroLeaf 4) = some (left, right, sep)
      ∧ readLeaf s1.file 2 = some left
      ∧ readLeaf s1.file ((indexOfLeaf fullLeaf4).file.length + 2) = some right :=
  root_split_two_children 4 4 (indexOfLeaf fullLeaf4) 2 fullLeaf4 (by decide) (by decide)
    rfl rfl rfl

/-! ### Pages keep their node type -/

theorem KeepsPages.refl (file : List Page) : KeepsPages file file :=
  fun _ pg h => ⟨pg, h, rfl⟩

theorem KeepsPages.trans {f1 f2 f3 : List Page} (h12 : KeepsPages f1 f2)
    (h23 : KeepsPages f2 f3) : KeepsPages f1 f3 := by
  intro p pg h
  obtain ⟨pg1, h1, k1⟩ := h12 p pg h
  obtain ⟨pg2, h2, k2⟩ := h23 p pg1 h1
  exact ⟨pg2, h2, k2.trans k1⟩

theorem keeps_append (file : List Page) (x : Page) : KeepsPages file (file ++ [x]) :=
  fun _ pg h => ⟨pg, readPage_append x h, rfl⟩

theorem writePage_some {file file1 : List Page} {p : Nat} {pg : Page}
    (h : writePage file p pg = some file1) :
    0 < p ∧ p ≤ file.length ∧ file1 = file.set (p - 1) pg := by
  unfold writePage at h
  unfold PageId at *
  by_cases hp : p = 0
  · rw [if_pos hp] at h; exact Option.noConfusion h
  · rw [if_neg hp] at h
    by_cases hl : p - 1 < file.length
    · rw [if_pos hl] at h
      exact ⟨by omega, by omega, (Option.some.inj h).symm⟩
    · rw [if_neg hl] at h; exact Option.noConfusion h

theorem readPage_writePage {file file1 : List Page} {p : Nat} {pg : Page}
    (h : writePage file p pg = some file1) : readPage file1 p = some pg := by
  obtain ⟨h0, h1, rfl⟩ := writePage_some h
  exact readPage_set_same file p pg h0 h1

theorem keeps_write {file file1 : List Page} {p : Nat} {pg old : Page}
    (h : writePage file p pg = some file1) (hold : readPage file p = some old)
    (hk : pg.kind = old.kind) : KeepsPages file file1 := by
  obtain ⟨h0, h1, rfl⟩ := writePage_some h
  intro q pgq hq
  by_cases hqp : q = p
  · subst hqp
    rw [hold] at hq
    exact ⟨pg, readPage_set_same file q pg h0 h1, by rw [hk, Option.some.inj hq]⟩
  · obtain ⟨hq0, _⟩ := readPage_some hq
    exact ⟨pgq, by rw [readPage_set_other _ _ _ _ hq0 h0 hqp]; exact hq, rfl⟩

theorem kind_leaf {pg : Page} (h : pg.kind = 1) : ∃ n, pg = Page.leaf n := by
  cases pg with
  | header m => simp [Page.kind] at h
  | leaf n => exact ⟨n, rfl⟩
  | nonLeaf n => simp [Page.kind] at h

theorem kind_nonLeaf {pg : Page} (h : pg.kind = 2) : ∃ n, pg = Page.nonLeaf n := by
  cases pg with
  | header m => simp [Page.kind] at h
  | leaf n => simp [Page.kind] at h
  | nonLeaf n => exact ⟨n, rfl⟩

theorem kind_header {pg : Page} (h : pg.kind = 0) : ∃ m, pg = Page.header m := by
  cases pg with
  | header m => exact ⟨m, rfl⟩
  | leaf n => simp [Page.kind] at h
  | nonLeaf n => simp [Page.kind] at h

theorem keeps_readLeaf {f f1 : List Page} {p : Nat} {n : LeafNodeInt} (hk : KeepsPages f f1)
    (h : readLeaf f p = some n) : ∃ n1, readLeaf f1 p = some n1 := by
  obtain ⟨pg1, h1, k1⟩ := hk p _ (readLeaf_some h)
  obtain ⟨n1, rfl⟩ := kind_leaf k1
  exact ⟨n1, readLeaf_of_readPage h1⟩

theorem keeps_readNonLeaf {f f1 : List Page} {p : Nat} {n : NonLeafNodeInt}
    (hk : KeepsPages f f1) (h : readNonLeaf f p = some n) :
    ∃ n1, readNonLeaf f1 p = some n1 := by
  obtain ⟨pg1, h1, k1⟩ := hk p _ (readNonLeaf_some h)
  obtain ⟨n1, rfl⟩ := kind_nonLeaf k1
  exact ⟨n1, readNonLeaf_of_readPage h1⟩

theorem keeps_readHeader {f f1 : List Page} {p : Nat} {m : IndexMetaInfo}
    (hk : KeepsPages f f1) (h : readHeader f p = some m) :
    ∃ m1, readHeader f1 p = some m1 := by
  obtain ⟨pg1, h1, k1⟩ := hk p _ (readHeader_some h)
  obtain ⟨m1, rfl⟩ := kind_header k1
  exact ⟨m1, readHeader_of_readPage h1⟩

/-- A leaf split keeps every page and adds one to the node counter. -/
theorem splitLeafNode_keeps {L : Nat} {s s1 : BTreeIndex} {p : Nat} {k : Int} {pid : PageId}
    (h : splitLeafNode L s p = some (s1, k, pid)) :
    KeepsPages s.file s1.file ∧ s1.numOfNodes = s.numOfNodes + 1
      ∧ s1.headerPageNum = s.headerPageNum ∧ s1.rootPageNum = s.rootPageNum := by
  unfold splitLeafNode allocPage at h
  simp only at h
  cases hA : readLeaf (s.file ++ [Page.leaf (zeroLeaf L)]) p with
  | none => simp [hA] at h
  | some left =>
    cases hB : readLeaf (s.file ++ [Page.leaf (zeroLeaf L)]) (s.file.length + 1) with
    | none => simp [hA, hB] at h
    | some right =>
      simp only [hA, hB] at h
      cases hC : splitLeafNodes L left right with
      | none => simp [hC] at h
      | some r =>
        obtain ⟨left1, right1, mk⟩ := r
        simp only [hC] at h
        cases hD : writePage (s.file ++ [Page.leaf (zeroLeaf L)]) p (Page.leaf left1) with
        | none => simp [hD] at h
        | some file1 =>
          simp only [hD] at h
          cases hE : writePage file1 (s.file.length + 1) (Page.leaf right1) with
          | none => simp [hE] at h
          | some file2 =>
            simp only [hE, Option.some.injEq, Prod.mk.injEq] at h
            obtain ⟨rfl, -, -⟩ := h
            have k1 := keeps_write hD (readLeaf_some hA) rfl
            obtain ⟨pg1, h1, kk⟩ := k1 _ _ (readLeaf_some hB)
            have k2 := keeps_write hE h1 kk.symm
            exact ⟨(keeps_append _ _).trans (k1.trans k2), rfl, rfl, rfl⟩

/-- An internal split keeps every page and adds one to the node counter. -/
theorem splitNonLeafNode_keeps {L M : Nat} {s s1 : BTreeIndex} {p : Nat} {k : Int}
    {pid : PageId} (h : splitNonLeafNode L M s p = some (s1, k, pid)) :
    KeepsPages s.file s1.file ∧ s1.numOfNodes = s.numOfNodes + 1
      ∧ s1.headerPageNum = s.headerPageNum ∧ s1.rootPageNum = s.rootPageNum := by
  unfold splitNonLeafNode allocPage at h
  simp only at h
  cases hA : readNonLeaf (s.file ++ [Page.nonLeaf (zeroNonLeaf M)]) p with
  | none => simp [hA] at h
  | some left =>
    cases hB : readNonLeaf (s.file ++ [Page.nonLeaf (zeroNonLeaf M)]) (s.file.length + 1) with
    | none => simp [hA, hB] at h
    | some right =>
      simp only [hA, hB] at h
      cases hC : splitNonLeafNodes L M left right with
      | none => simp [hC] at h
      | some r =>
        obtain ⟨left1, right1, mk⟩ := r
        simp only [hC] at h
        cases hD : writePage (s.file ++ [Page.nonLeaf (zeroNonLeaf M)]) p
            (Page.nonLeaf left1) with
        | none => simp [hD] at h
        | some file1 =>
          simp only [hD] at h
          cases hE : writePage file1 (s.file.length + 1) (Page.nonLeaf right1) with
          | none => simp [hE] at h
          | some file2 =>
            simp only [hE, Option.some.injEq, Prod.mk.injEq] at h
            obtain ⟨rfl, -, -⟩ := h
            have k1 := keeps_write hD (readNonLeaf_some hA) rfl
            obtain ⟨pg1, h1, kk⟩ := k1 _ _ (readNonLeaf_some hB)
            have k2 := keeps_write hE h1 kk.symm
            exact ⟨(keeps_append _ _).trans (k1.trans k2), rfl, rfl, rfl⟩

/-- The parent step keeps every page; without a parent the new root is an internal node. -/
theorem newParent_keeps {M : Nat} {s s1 : BTreeIndex} {par : Option PageId} {pp : PageId}
    (h : newParent M s par = some (s1, pp)) :
    KeepsPages s.file s1.file ∧ s1.numOfNodes = s.numOfNodes
      ∧ s1.headerPageNum = s.headerPageNum
      ∧ (∀ p, par = some p → s1.rootPageNum = s.rootPageNum)
      ∧ (par = none → s1.rootPageNum = pp ∧ ∃ r, readNonLeaf s1.file pp = some r) := by
  cases par with
  | some p =>
    simp only [newParent, Option.some.injEq, Prod.mk.injEq] at h
    obtain ⟨rfl, rfl⟩ := h
    exact ⟨KeepsPages.refl _, rfl, rfl, fun _ _ => rfl, fun hn => Option.noConfusion hn⟩
  | none =>
    rw [newParent_none, Option.some.injEq, Prod.mk.injEq] at h
    obtain ⟨rfl, rfl⟩ := h
    exact ⟨keeps_append _ _, rfl, rfl, fun _ hn => Option.noConfusion hn,
      fun _ => ⟨rfl, ⟨_, readNonLeaf_of_readPage (readPage_alloc _ _)⟩⟩⟩

/-- The function `fullNodeHandler` keeps every page and adds one to the node counter; with a
parent the root page number is unchanged, without one the new root is an internal node. -/
theorem fullNodeHandler_keeps {L M : Nat} {s s1 : BTreeIndex} {cur : PageId}
    {par : Option PageId} {cpn : PageId} {isLeaf : Bool}
    (h : fullNodeHandler L M s cur par cpn isLeaf = some s1) :
    KeepsPages s.file s1.file ∧ s1.numOfNodes = s.numOfNodes + 1
      ∧ s1.headerPageNum = s.headerPageNum
      ∧ (∀ p, par = some p → s1.rootPageNum = s.rootPageNum)
      ∧ (par = none → ∃ r, readNonLeaf s1.file s1.rootPageNum = some r) := by
  unfold fullNodeHandler at h
  cases hA : newParent M s par with
  | none => simp [hA] at h
  | some r0 =>
    obtain ⟨sa, pp⟩ := r0
    obtain ⟨ka, na, ha, ra, rna⟩ := newParent_keeps hA
    simp only [hA] at h
    cases hB : (if isLeaf = true then splitLeafNode L sa cur else splitNonLeafNode L M sa cur) with
    | none => simp [hB] at h
    | some r1 =>
      obtain ⟨sb, mk, rp⟩ := r1
      have hbk : KeepsPages sa.file sb.file ∧ sb.numOfNodes = sa.numOfNodes + 1
          ∧ sb.headerPageNum = sa.headerPageNum ∧ sb.rootPageNum = sa.rootPageNum := by
        cases isLeaf with
        | true => exact splitLeafNode_keeps (by simpa using hB)
        | false => exact splitNonLeafNode_keeps (by simpa using hB)
      obtain ⟨kb, nb, hb, rb⟩ := hbk
      simp only [hB] at h
      cases hC : readNonLeaf sb.file pp with
      | none => simp [hC] at h
      | some parent =>
        simp only [hC] at h
        cases hD : pushUp M parent mk cpn rp with
        | none => simp [hD] at h
        | some parent1 =>
          simp only [hD] at h
          cases hE : writePage sb.file pp (Page.nonLeaf parent1) with
          | none => simp [hE] at h
          | some file =>
            simp only [hE, Option.some.injEq] at h
            subst h
            have kc := keeps_write hE (readNonLeaf_some hC) rfl
            refine ⟨ka.trans (kb.trans kc), by simp only [nb, na], by simp only [hb, ha],
              fun p hp => by simp only [rb, ra p hp], fun hn => ?_⟩
            obtain ⟨hr1, -⟩ := rna hn
            simp only [rb, hr1]
            exact ⟨parent1, readNonLeaf_of_readPage (readPage_writePage hE)⟩

/-! ### The node counter -/

theorem splitIfFull_keeps {L M : Nat} {s s1 : BTreeIndex} {test : Int} {child cur : PageId}
    {i : Nat} (h : splitIfFull L M s test child cur i = some s1) :
    KeepsPages s.file s1.file ∧ s.numOfNodes ≤ s1.numOfNodes
      ∧ s1.headerPageNum = s.headerPageNum ∧ s1.rootPageNum = s.rootPageNum := by
  unfold splitIfFull at h
  by_cases ht : test ≠ -1
  · rw [if_pos ht] at h
    cases hA : readNonLeaf s.file cur with
    | none => simp [hA] at h
    | some node =>
      simp only [hA] at h
      cases hB : node.pageNoArray[i]? with
      | none => simp [hB] at h
      | some pageNo =>
        simp only [hB] at h
        cases hC : fullNodeHandler L M s child (some cur) pageNo true with
        | none => simp [hC] at h
        | some s2 =>
          simp only [hC, Option.some.injEq] at h
          subst h
          obtain ⟨k, n, hh, r, -⟩ := fullNodeHandler_keeps hC
          exact ⟨k, by simp only [n]; omega, hh, r cur rfl⟩
  · rw [if_neg ht, Option.some.injEq] at h
    subst h
    exact ⟨KeepsPages.refl _, le_refl _, rfl, rfl⟩

/-- The descent keeps every page, never lowers the node counter and leaves the page numbers
of the metadata page and of the root unchanged. -/
theorem traverse_keeps (L M : Nat) :
    ∀ (fuel : Nat) (s s1 : BTreeIndex) (cur : PageId) (key : Int) (rid : RecordId),
      traverse L M fuel s cur key rid = some s1 →
      KeepsPages s.file s1.file ∧ s.numOfNodes ≤ s1.numOfNodes
        ∧ s1.headerPageNum = s.headerPageNum ∧ s1.rootPageNum = s.rootPageNum
  | 0, s, s1, cur, key, rid, h => by simp [traverse] at h
  | fuel + 1, s, s1, cur, key, rid, h => by
    unfold traverse at h
    simp only at h
    cases hA : readNonLeaf s.file cur with
    | none => simp [hA] at h
    | some node =>
      simp only [hA] at h
      cases hB : findChild node key M 0 with
      | none => simp [hB] at h
      | some i =>
        simp only [hB] at h
        cases hC : node.pageNoArray[i]? with
        | none => simp [hC] at h
        | some childPageNo =>
          simp only [hC] at h
          by_cases hlev : node.level ≠ 1
          · rw [if_pos hlev] at h
            cases hD : readNonLeaf s.file childPageNo with
            | none => simp [hD] at h
            | some child =>
              simp only [hD] at h
              cases hE : traverse L M fuel s childPageNo key rid with
              | none => simp [hE] at h
              | some s2 =>
                simp only [hE] at h
                obtain ⟨k2, n2, h2, r2⟩ := traverse_keeps L M fuel s s2 childPageNo key rid hE
                cases hF : readNonLeaf s2.file cur with
                | none => simp [hF] at h
                | some node1 =>
                  simp only [hF] at h
                  cases hG : node1.keyArray[M]? with
                  | none => simp [hG] at h
                  | some test =>
                    simp only [hG] at h
                    obtain ⟨k3, n3, h3, r3⟩ := splitIfFull_keeps h
                    exact ⟨k2.trans k3, le_trans n2 n3, h3.trans h2, r3.trans r2⟩
          · rw [if_neg hlev] at h
            cases hD : readLeaf s.file childPageNo with
            | none => simp [hD] at h
            | some child =>
              simp only [hD] at h
              cases hE : insertToNode L child key rid with
              | none => simp [hE] at h
              | some child1 =>
                simp only [hE] at h
                cases hF : writePage s.file childPageNo (Page.leaf child1) with
                | none => simp [hF] at h
                | some file =>
                  simp only [hF] at h
                  cases hG : lastKey child1.keyArray L with
                  | none => simp [hG] at h
                  | some test =>
                    simp only [hG] at h
                    have k2 := keeps_write hF (readLeaf_some hD) rfl
                    obtain ⟨k3, n3, h3, r3⟩ := splitIfFull_keeps h
                    exact ⟨k2.trans k3, n3, h3, r3⟩

/-- After the single-leaf branch the root is a leaf and the counter is unchanged, or the
root is a new internal node and the counter grew by two. -/
theorem insertSingle_keeps {L M : Nat} {s s1 : BTreeIndex} {key : Int} {rid : RecordId}
    (h : insertSingle L M s key rid = some s1) :
    KeepsPages s.file s1.file ∧ s1.headerPageNum = s.headerPageNum
      ∧ ((s1.numOfNodes = s.numOfNodes ∧ ∃ n, readLeaf s1.file s1.rootPageNum = some n)
        ∨ (s1.numOfNodes = s.numOfNodes + 2
            ∧ ∃ r, readNonLeaf s1.file s1.rootPageNum = some r)) := by
  unfold insertSingle at h
  cases hA : readLeaf s.file s.rootPageNum with
  | none => simp [hA] at h
  | some rootNode =>
    simp only [hA] at h
    cases hB : insertToNode L rootNode key rid with
    | none => simp [hB] at h
    | some rootNode1 =>
      simp only [hB] at h
      cases hC : writePage s.file s.rootPageNum (Page.leaf rootNode1) with
      | none => simp [hC] at h
      | some file =>
        simp only [hC] at h
        have k1 := keeps_write hC (readLeaf_some hA) rfl
        cases hD : lastKey rootNode1.keyArray L with
        | none => simp [hD] at h
        | some test =>
          simp only [hD] at h
          by_cases ht : test ≠ -1
          · rw [if_pos ht] at h
            cases hE : fullNodeHandler L M { s with file := file } s.rootPageNum none
                s.rootPageNum true with
            | none => simp [hE] at h
            | some s2 =>
              simp only [hE, Option.some.injEq] at h
              subst h
              obtain ⟨k2, n2, h2, -, r2⟩ := fullNodeHandler_keeps hE
              exact ⟨k1.trans k2, h2, Or.inr ⟨by simp only [n2], r2 rfl⟩⟩
          · rw [if_neg ht, Option.some.injEq] at h
            subst h
            exact ⟨k1, rfl, Or.inl ⟨rfl, ⟨rootNode1,
              readLeaf_of_readPage (readPage_writePage hC)⟩⟩⟩

/-- After the general branch the counter has not decreased and the root is the old root
page or a new internal node. -/
theorem insertGeneral_keeps {L M fuel : Nat} {s s1 : BTreeIndex} {md : IndexMetaInfo}
    {key : Int} {rid : RecordId} (h : insertGeneral L M fuel s md key rid = some s1) :
    KeepsPages s.file s1.file ∧ s1.headerPageNum = s.headerPageNum
      ∧ s.numOfNodes ≤ s1.numOfNodes
      ∧ (s1.rootPageNum = s.rootPageNum
        ∨ ∃ r, readNonLeaf s1.file s1.rootPageNum = some r) := by
  unfold insertGeneral at h
  cases hA : readNonLeaf s.file md.rootPageNo with
  | none => simp [hA] at h
  | some root0 =>
    simp only [hA] at h
    cases hB : traverse L M fuel s md.rootPageNo key rid with
    | none => simp [hB] at h
    | some s2 =>
      simp only [hB] at h
      obtain ⟨k2, n2, h2, r2⟩ := traverse_keeps L M fuel s s2 md.rootPageNo key rid hB
      cases hC : readNonLeaf s2.file md.rootPageNo with
      | none => simp [hC] at h
      | some rootNode =>
        simp only [hC] at h
        cases hD : lastKey rootNode.keyArray M with
        | none => simp [hD] at h
        | some test =>
          simp only [hD] at h
          by_cases ht : test ≠ -1
          · rw [if_pos ht] at h
            cases hE : fullNodeHandler L M s2 md.rootPageNo none s2.rootPageNum true with
            | none => simp [hE] at h
            | some s3 =>
              simp only [hE, Option.some.injEq] at h
              subst h
              obtain ⟨k3, n3, h3, -, r3⟩ := fullNodeHandler_keeps hE
              exact ⟨k2.trans k3, h3.trans h2, by simp only [n3]; omega, Or.inr (r3 rfl)⟩
          · rw [if_neg ht, Option.some.injEq] at h
            subst h
            exact ⟨k2, h2, n2, Or.inl r2⟩

theorem readLeaf_ne_zero {file : List Page} {p : Nat} {n : LeafNodeInt}
    (h : readLeaf file p = some n) : p ≠ 0 := by
  obtain ⟨h0, -⟩ := readPage_some (readLeaf_some h)
  omega

theorem readNonLeaf_ne_zero {file : List Page} {p : Nat} {n : NonLeafNodeInt}
    (h : readNonLeaf file p = some n) : p ≠ 0 := by
  obtain ⟨h0, -⟩ := readPage_some (readNonLeaf_some h)
  omega

/-- The last step of `insertEntry` (line 189) establishes the counter relation. -/
theorem counterInv_finish {s1 : BTreeIndex} {md1 : IndexMetaInfo} {file : List Page}
    (hroot : (s1.numOfNodes = 1 ∧ ∃ n, readLeaf s1.file s1.rootPageNum = some n)
      ∨ (3 ≤ s1.numOfNodes ∧ ∃ r, readNonLeaf s1.file s1.rootPageNum = some r))
    (hh : readHeader s1.file s1.headerPageNum = some md1)
    (hw : writePage s1.file s1.headerPageNum
      (Page.header { md1 with rootPageNo := s1.rootPageNum }) = some file) :
    CounterInv { s1 with file := file } := by
  have k := keeps_write hw (readHeader_some hh) rfl
  refine ⟨{ md1 with rootPageNo := s1.rootPageNum },
    readHeader_of_readPage (readPage_writePage hw), Or.inr ?_⟩
  rcases hroot with ⟨hn, n, hl⟩ | ⟨hn, r, hr⟩
  · exact Or.inl ⟨rfl, hn, keeps_readLeaf k hl⟩
  · exact Or.inr ⟨rfl, hn, keeps_readNonLeaf k hr⟩

/-- Every `insertEntry` call preserves the counter relation. -/
theorem insertEntry_counterInv {L M fuel : Nat} {s s1 : BTreeIndex} {key : Int}
    {rid : RecordId} (hL : 0 < L) (hinv : CounterInv s)
    (h : insertEntry L M fuel s key rid = some s1) : CounterInv s1 := by
  obtain ⟨md, hmd, hcase⟩ := hinv
  unfold insertEntry at h
  simp only [hmd] at h
  cases hB : (if md.rootPageNo = 0 then insertFirst L s md key rid
      else if s.numOfNodes = 1 then insertSingle L M s key rid
      else insertGeneral L M fuel s md key rid) with
  | none => simp [hB] at h
  | some sm =>
    simp only [hB] at h
    cases hH : readHeader sm.file sm.headerPageNum with
    | none => simp [hH] at h
    | some md1 =>
      simp only [hH] at h
      cases hW : writePage sm.file sm.headerPageNum
          (Page.header { md1 with rootPageNo := sm.rootPageNum }) with
      | none => simp [hW] at h
      | some file =>
        simp only [hW] at h
        have hs1 : s1 = { sm with file := file } := by
          by_cases hk : key = 4999
          · rw [if_pos hk] at h
            cases hT : testPrint L M { sm with file := file } with
            | none => simp [hT] at h
            | some u =>
              simp only [hT, Option.some.injEq] at h
              exact h.symm
          · rw [if_neg hk, Option.some.injEq] at h
            exact h.symm
        subst hs1
        refine counterInv_finish ?_ hH hW
        by_cases hroot : md.rootPageNo = 0
        · rw [if_pos hroot, insertFirst_eq L s md key rid hL hmd, Option.some.injEq] at hB
          have hn0 : s.numOfNodes = 0 := by
            rcases hcase with ⟨-, hn⟩ | ⟨he, -, n, hl⟩ | ⟨he, -, r, hr⟩
            · exact hn
            · exact absurd (he.symm.trans hroot) (readLeaf_ne_zero hl)
            · exact absurd (he.symm.trans hroot) (readNonLeaf_ne_zero hr)
          obtain ⟨h0, h1⟩ := readPage_some (readHeader_some hmd)
          subst hB
          refine Or.inl ⟨by simp only [hn0], singleEntryLeaf L key rid, ?_⟩
          apply readLeaf_of_readPage
          have := readPage_set_same ((s.file ++ [Page.leaf (zeroLeaf L)]).set
            (s.headerPageNum - 1) (Page.header { md with rootPageNo := s.file.length + 1 }))
            (s.file.length + 1) (Page.leaf (singleEntryLeaf L key rid)) (by omega)
            (by simp only [List.length_set, List.length_append, List.length_singleton]; omega)
          simpa only [Nat.add_sub_cancel] using this
        · rw [if_neg hroot] at hB
          by_cases h1 : s.numOfNodes = 1
          · rw [if_pos h1] at hB
            obtain ⟨-, -, hres⟩ := insertSingle_keeps hB
            rcases hres with ⟨hn, hl⟩ | ⟨hn, hr⟩
            · exact Or.inl ⟨by rw [hn, h1], hl⟩
            · exact Or.inr ⟨by rw [hn, h1], hr⟩
          · rw [if_neg h1] at hB
            obtain ⟨k, -, hn, hres⟩ := insertGeneral_keeps hB
            rcases hcase with ⟨he, -⟩ | ⟨-, hn1, -⟩ | ⟨he, hn3, r, hr⟩
            · exact absurd he hroot
            · exact absurd hn1 h1
            · refine Or.inr ⟨by omega, ?_⟩
              rcases hres with hsame | hnew
              · rw [hsame]; exact keeps_readNonLeaf k hr
              · exact hnew

theorem emptyIndex_counterInv (nm : String) (offs : Int) (ty : Datatype) (root0 : Nat) :
    CounterInv (emptyIndex nm offs ty root0) :=
  ⟨_, rfl, Or.inl ⟨rfl, rfl⟩⟩

theorem insertAll_counterInv {L M fuel : Nat} (hL : 0 < L) :
    ∀ (entries : List (Int × RecordId)) (s s1 : BTreeIndex), CounterInv s →
      insertAll L M fuel s entries = some s1 → CounterInv s1
  | [], s, s1, hinv, h => by
    simp only [insertAll, Option.some.injEq] at h
    subst h; exact hinv
  | (key, rid) :: rest, s, s1, hinv, h => by
    unfold insertAll at h
    cases hA : insertEntry L M fuel s key rid with
    | none => simp [hA] at h
    | some s2 =>
      simp only [hA] at h
      exact insertAll_counterInv hL rest s2 s1 (insertEntry_counterInv hL hinv hA) h

/-- The counter relation on the pages themselves, for the runs in which every page is read
through a pointer of its own node type: after such a sequence of `insertEntry` calls on a
freshly constructed index, `numOfNodes` is 0 exactly when the metadata root page number is 0,
is 1 exactly when the root page is a leaf, and is at least 3 whenever the root page is an
internal node. -/
theorem insertAll_node_counter (L M fuel : Nat) (hL : 2 ≤ L) (nm : String) (offs : Int)
    (ty : Datatype) (root0 : Nat) (entries : List (Int × RecordId)) (s : BTreeIndex)
    (h : insertAll L M fuel (emptyIndex nm offs ty root0) entries = some s) :
    ∃ md, readHeader s.file s.headerPageNum = some md
      ∧ (s.numOfNodes = 0 ↔ md.rootPageNo = 0)
      ∧ (s.numOfNodes = 1 ↔ ∃ n, readLeaf s.file md.rootPageNo = some n)
      ∧ ((∃ r, readNonLeaf s.file md.rootPageNo = some r) → 3 ≤ s.numOfNodes)
      ∧ (s.numOfNodes = 1 → ∃ n, readLeaf s.file s.rootPageNum = some n) := by
  obtain ⟨md, hmd, hcase⟩ := insertAll_counterInv (by omega) entries _ s
    (emptyIndex_counterInv nm offs ty root0) h
  have hzero : ∀ n : LeafNodeInt, readLeaf s.file 0 ≠ some n :=
    fun n hn => readLeaf_ne_zero hn rfl
  have hzero2 : ∀ r : NonLeafNodeInt, readNonLeaf s.file 0 ≠ some r :=
    fun r hr => readNonLeaf_ne_zero hr rfl
  refine ⟨md, hmd, ?_⟩
  rcases hcase with ⟨he, hn⟩ | ⟨he, hn, n, hl⟩ | ⟨he, hn, r, hr⟩
  · rw [he, hn]
    refine ⟨⟨fun _ => rfl, fun _ => rfl⟩, ⟨fun h1 => absurd h1 (by decide), ?_⟩, ?_, ?_⟩
    · rintro ⟨n, hn⟩; exact absurd hn (hzero n)
    · rintro ⟨r, hr⟩; exact absurd hr (hzero2 r)
    · intro h1; exact absurd h1 (by decide)
  · rw [he, hn]
    have hne : s.rootPageNum ≠ 0 := readLeaf_ne_zero hl
    refine ⟨⟨fun h1 => absurd h1 (by decide), fun h1 => absurd h1 hne⟩,
      ⟨fun _ => ⟨n, hl⟩, fun _ => rfl⟩, ?_, fun _ => ⟨n, hl⟩⟩
    rintro ⟨r, hr⟩
    have h1 := readLeaf_some hl
    rw [readNonLeaf_some hr] at h1
    exact Page.noConfusion (Option.some.inj h1)
  · rw [he]
    have hne : s.rootPageNum ≠ 0 := readNonLeaf_ne_zero hr
    refine ⟨⟨fun h1 => by omega, fun h1 => absurd h1 hne⟩, ⟨fun h1 => by omega, ?_⟩,
      fun _ => hn, fun h1 => by omega⟩
    rintro ⟨n, hl⟩
    have h1 := readLeaf_some hl
    rw [readNonLeaf_some hr] at h1
    exact Page.noConfusion (Option.some.inj h1)

/-- The counter relation after the seven insertions of the scenario with leaf and internal
capacity 4. -/
theorem insertAll_node_counter_scenario :
    ∃ s md, insertAll 4 4 1 (emptyIndex "rel" 0 Datatype.INTEGER 0) scenarioEntries = some s
      ∧ readHeader s.file s.headerPageNum = some md
      ∧ (s.numOfNodes = 0 ↔ md.rootPageNo = 0)
      ∧ (s.numOfNodes = 1 ↔ ∃ n, readLeaf s.file md.rootPageNo = some n)
      ∧ ((∃ r, readNonLeaf s.file md.rootPageNo = some r) → 3 ≤ s.numOfNodes)
      ∧ (s.numOfNodes = 1 → ∃ n, readLeaf s.file s.rootPageNum = some n) := by
  have h := scenario_insertAll 1 0 "rel" 0 Datatype.INTEGER 0 (ridOf 5) (ridOf 3) (ridOf 8)
    (ridOf 1) (ridOf 9) (ridOf 2) (ridOf 7)
  obtain ⟨md, hmd, hrest⟩ := insertAll_node_counter 4 4 1 (by decide) "rel" 0
    Datatype.INTEGER 0 scenarioEntries _ h
  exact ⟨_, md, h, hmd, hrest⟩

/-! ### The node counter, for every outcome of the tests on page contents -/

theorem int32_eq {n : Int} (h0 : 0 ≤ n) (h1 : n < 2147483648) : int32 n = n := by
  unfold int32
  omega

theorem Shape.readKind_append {pages : List Nat} {a b : Nat} {c : Int} {p k : Nat}
    (x : List Nat) (a1 b1 : Nat) (c1 : Int)
    (h : Shape.readKind ⟨pages, a, b, c⟩ p = some k) :
    Shape.readKind ⟨pages ++ x, a1, b1, c1⟩ p = some k := by
  unfold Shape.readKind at h ⊢
  by_cases hp : p = 0
  · simp [hp] at h
  · simp only [hp, if_false] at h ⊢
    have hlt : p - 1 < pages.length := by
      by_contra hc
      rw [List.getElem?_eq_none (by omega)] at h
      exact Option.noConfusion h
    rw [List.getElem?_append_left hlt]
    exact h

theorem Shape.readKind_new (pages x : List Nat) (k a b : Nat) (c : Int) :
    Shape.readKind ⟨pages ++ k :: x, a, b, c⟩ (pages.length + 1) = some k := by
  unfold Shape.readKind
  rw [if_neg (Nat.succ_ne_zero _)]
  simp only [Nat.add_sub_cancel]
  rw [List.getElem?_append_right (le_refl _)]
  simp

/-- A split below a parent (`fullNodeHandler(child, currNode, ..., 1)` and `numOfNodes++`)
allocates one leaf page and adds 2 to the counter. -/
theorem Shape.childSplit_eq (s : Shape) :
    { s.fullNodeHandler false true with
        numOfNodes := int32 ((s.fullNodeHandler false true).numOfNodes + 1) }
      = ⟨s.pages ++ [1], s.rootPageNo, s.rootPageNum, int32 (int32 (s.numOfNodes + 1) + 1)⟩ :=
  rfl

/-- A split of the root (`fullNodeHandler(root, NULL, ..., 1)` and `numOfNodes++`) allocates
the new root as an internal node and one leaf page, and adds 2 to the counter. -/
theorem Shape.rootSplit_eq (s : Shape) :
    { s.fullNodeHandler true true with
        numOfNodes := int32 ((s.fullNodeHandler true true).numOfNodes + 1) }
      = ⟨(s.pages ++ [2]) ++ [1], s.rootPageNo, s.pages.length + 1,
          int32 (int32 (s.numOfNodes + 1) + 1)⟩ :=
  rfl

/-- The descent, while the file stays within `2 ^ 30` pages: the counter does not wrap
around, the root page number is unchanged and every page keeps its node type. -/
theorem Shape.traverse_inv :
    ∀ (d : Descent) (s : Shape), (s.traverse d).pages.length ≤ 1073741824 →
      0 ≤ s.numOfNodes → s.numOfNodes + 2 ≤ 2 * s.pages.length →
      s.numOfNodes ≤ (s.traverse d).numOfNodes
        ∧ (s.traverse d).numOfNodes + 2 ≤ 2 * (s.traverse d).pages.length
        ∧ (s.traverse d).rootPageNum = s.rootPageNum
        ∧ (s.traverse d).rootPageNo = s.rootPageNo
        ∧ s.pages.length ≤ (s.traverse d).pages.length
        ∧ ∀ p k, s.readKind p = some k → (s.traverse d).readKind p = some k
  | Descent.leafChild full, s, hlen, h0, h2 => by
    cases full with
    | false => exact ⟨le_refl _, h2, rfl, rfl, le_refl _, fun _ _ h => h⟩
    | true =>
      have he : s.traverse (Descent.leafChild true)
          = ⟨s.pages ++ [1], s.rootPageNo, s.rootPageNum,
              int32 (int32 (s.numOfNodes + 1) + 1)⟩ := rfl
      rw [he] at hlen ⊢
      simp only [List.length_append, List.length_singleton] at hlen
      have e1 : int32 (s.numOfNodes + 1) = s.numOfNodes + 1 := int32_eq (by omega) (by omega)
      have e2 : int32 (s.numOfNodes + 1 + 1) = s.numOfNodes + 1 + 1 :=
        int32_eq (by omega) (by omega)
      rw [e1, e2]
      refine ⟨?_, ?_, rfl, rfl, ?_, ?_⟩
      · dsimp only
        omega
      · dsimp only
        rw [List.length_append, List.length_singleton]
        push_cast
        omega
      · dsimp only
        rw [List.length_append, List.length_singleton]
        omega
      · intro p k h
        exact Shape.readKind_append [1] _ _ _ h
  | Descent.innerChild below full, s, hlen, h0, h2 => by
    cases full with
    | false => exact Shape.traverse_inv below s hlen h0 h2
    | true =>
      have he : s.traverse (Descent.innerChild below true)
          = ⟨(s.traverse below).pages ++ [1], (s.traverse below).rootPageNo,
              (s.traverse below).rootPageNum,
              int32 (int32 ((s.traverse below).numOfNodes + 1) + 1)⟩ := rfl
      rw [he] at hlen ⊢
      simp only [List.length_append, List.length_singleton] at hlen
      obtain ⟨i1, i2, i3, i4, i5, i6⟩ := Shape.traverse_inv below s (by omega) h0 h2
      have e1 : int32 ((s.traverse below).numOfNodes + 1) = (s.traverse below).numOfNodes + 1 :=
        int32_eq (by omega) (by omega)
      have e2 : int32 ((s.traverse below).numOfNodes + 1 + 1)
          = (s.traverse below).numOfNodes + 1 + 1 := int32_eq (by omega) (by omega)
      rw [e1, e2]
      refine ⟨?_, ?_, i3, i4, ?_, ?_⟩
      · dsimp only
        omega
      · dsimp only
        rw [List.length_append, List.length_singleton]
        push_cast
        omega
      · dsimp only
        rw [List.length_append, List.length_singleton]
        omega
      · intro p k h
        exact Shape.readKind_append [1] _ _ _ (i6 p k h)

/-- Every `insertEntry` call preserves the relation between the counter and the root,
while the file stays within `2 ^ 30` pages; the file does not shrink. -/
theorem Shape.insertEntry_inv (s : Shape) (o : Outcome) (hinv : s.Inv)
    (hlen : (s.insertEntry o).pages.length ≤ 1073741824) :
    (s.insertEntry o).Inv ∧ s.pages.length ≤ (s.insertEntry o).pages.length := by
  obtain ⟨h0, h2, hcase⟩ := hinv
  rcases hcase with ⟨hr, hn⟩ | ⟨hr, hn, hk⟩ | ⟨hr, hn, hk⟩
  · have he : s.insertEntry o = ⟨s.pages ++ [1], s.pages.length + 1, s.pages.length + 1,
        int32 (s.numOfNodes + 1)⟩ := by
      unfold Shape.insertEntry
      rw [if_pos hr]
      rfl
    rw [he] at hlen ⊢
    have e1 : int32 (s.numOfNodes + 1) = 1 := by
      rw [hn]
      exact int32_eq (by omega) (by omega)
    rw [e1]
    refine ⟨⟨?_, ?_, Or.inr (Or.inl ⟨rfl, rfl, ?_⟩)⟩, ?_⟩
    · dsimp only
      omega
    · dsimp only
      rw [List.length_append, List.length_singleton]
      push_cast
      omega
    · exact Shape.readKind_new s.pages [] 1 _ _ _
    · dsimp only
      rw [List.length_append, List.length_singleton]
      omega
  · have hne : s.rootPageNo ≠ 0 := by
      intro hz
      rw [hr] at hz
      simp [Shape.readKind, hz] at hk
    cases hf : o.rootLeafFull with
    | false =>
      have he : s.insertEntry o = ⟨s.pages, s.rootPageNum, s.rootPageNum, s.numOfNodes⟩ := by
        unfold Shape.insertEntry
        rw [if_neg hne, if_pos hn, hf]
        rfl
      rw [he]
      exact ⟨⟨h0, h2, Or.inr (Or.inl ⟨rfl, hn, hk⟩)⟩, le_refl _⟩
    | true =>
      have he : s.insertEntry o = ⟨(s.pages ++ [2]) ++ [1], s.pages.length + 1,
          s.pages.length + 1, int32 (int32 (s.numOfNodes + 1) + 1)⟩ := by
        unfold Shape.insertEntry
        rw [if_neg hne, if_pos hn, hf]
        rfl
      rw [he] at hlen ⊢
      have e1 : int32 (int32 (s.numOfNodes + 1) + 1) = 3 := by
        rw [hn]
        unfold int32
        omega
      rw [e1]
      refine ⟨⟨?_, ?_, Or.inr (Or.inr ⟨rfl, le_refl _, ?_⟩)⟩, ?_⟩
      · dsimp only
        omega
      · dsimp only
        simp only [List.length_append, List.length_singleton]
        push_cast
        omega
      · rw [List.append_assoc]
        exact Shape.readKind_new s.pages [1] 2 _ _ _
      · dsimp only
        simp only [List.length_append, List.length_singleton]
        omega
  · have hne : s.rootPageNo ≠ 0 := by
      intro hz
      rw [hr] at hz
      simp [Shape.readKind, hz] at hk
    have hn1 : s.numOfNodes ≠ 1 := by omega
    cases hf : o.rootFull with
    | false =>
      have he : s.insertEntry o = ⟨(s.traverse o.descent).pages,
          (s.traverse o.descent).rootPageNum, (s.traverse o.descent).rootPageNum,
          (s.traverse o.descent).numOfNodes⟩ := by
        unfold Shape.insertEntry
        rw [if_neg hne, if_neg hn1, hf]
        rfl
      rw [he] at hlen ⊢
      obtain ⟨i1, i2, i3, i4, i5, i6⟩ := Shape.traverse_inv o.descent s hlen h0 h2
      refine ⟨⟨?_, i2, Or.inr (Or.inr ⟨rfl, ?_, ?_⟩)⟩, i5⟩
      · dsimp only
        omega
      · dsimp only
        omega
      · have := i6 _ _ hk
        rw [← i3] at this
        exact this
    | true =>
      have he : s.insertEntry o = ⟨((s.traverse o.descent).pages ++ [2]) ++ [1],
          (s.traverse o.descent).pages.length + 1, (s.traverse o.descent).pages.length + 1,
          int32 (int32 ((s.traverse o.descent).numOfNodes + 1) + 1)⟩ := by
        unfold Shape.insertEntry
        rw [if_neg hne, if_neg hn1, hf]
        rfl
      rw [he] at hlen ⊢
      simp only [List.length_append, List.length_singleton] at hlen
      obtain ⟨i1, i2, i3, i4, i5, i6⟩ := Shape.traverse_inv o.descent s (by omega) h0 h2
      have e1 : int32 ((s.traverse o.descent).numOfNodes + 1)
          = (s.traverse o.descent).numOfNodes + 1 := int32_eq (by omega) (by omega)
      have e2 : int32 ((s.traverse o.descent).numOfNodes + 1 + 1)
          = (s.traverse o.descent).numOfNodes + 1 + 1 := int32_eq (by omega) (by omega)
      rw [e1, e2]
      refine ⟨⟨?_, ?_, Or.inr (Or.inr ⟨rfl, ?_, ?_⟩)⟩, ?_⟩
      · dsimp only
        omega
      · dsimp only
        simp only [List.length_append, List.length_singleton]
        push_cast
        omega
      · dsimp only
        omega
      · rw [List.append_assoc]
        exact Shape.readKind_new _ [1] 2 _ _ _
      · dsimp only
        simp only [List.length_append, List.length_singleton]
        omega

theorem Shape.traverse_length :
    ∀ (d : Descent) (s : Shape), s.pages.length ≤ (s.traverse d).pages.length
  | Descent.leafChild full, s => by
    cases full with
    | false => exact le_refl _
    | true =>
      show s.pages.length ≤ (s.pages ++ [1]).length
      simp
  | Descent.innerChild below full, s => by
    have ih := Shape.traverse_length below s
    cases full with
    | false => exact ih
    | true =>
      show s.pages.length ≤ ((s.traverse below).pages ++ [1]).length
      rw [List.length_append, List.length_singleton]
      omega

/-- The file does not shrink during an `insertEntry` call. -/
theorem Shape.insertEntry_length (s : Shape) (o : Outcome) :
    s.pages.length ≤ (s.insertEntry o).pages.length := by
  have ht := Shape.traverse_length o.descent s
  unfold Shape.insertEntry
  by_cases hr : s.rootPageNo = 0
  · rw [if_pos hr]
    show s.pages.length ≤ (s.pages ++ [1]).length
    simp
  · rw [if_neg hr]
    by_cases hn : s.numOfNodes = 1
    · rw [if_pos hn]
      cases hf : o.rootLeafFull with
      | false => exact le_refl _
      | true =>
        show s.pages.length ≤ ((s.pages ++ [2]) ++ [1]).length
        simp
    · rw [if_neg hn]
      cases hf : o.rootFull with
      | false => exact ht
      | true =>
        show s.pages.length ≤ (((s.traverse o.descent).pages ++ [2]) ++ [1]).length
        simp only [List.length_append, List.length_singleton]
        omega

/-- The file does not shrink during a sequence of calls. -/
theorem Shape.insertAll_length :
    ∀ (calls : List Outcome) (s : Shape), s.pages.length ≤ (s.insertAll calls).pages.length
  | [], s => le_refl _
  | o :: rest, s =>
    le_trans (Shape.insertEntry_length s o) (Shape.insertAll_length rest (s.insertEntry o))

/-- Every sequence of calls preserves the relation between the counter and the root, while
the file stays within `2 ^ 30` pages. -/
theorem Shape.insertAll_inv :
    ∀ (calls : List Outcome) (s : Shape), s.Inv →
      (s.insertAll calls).pages.length ≤ 1073741824 → (s.insertAll calls).Inv
  | [], s, hinv, _ => hinv
  | o :: rest, s, hinv, hlen =>
    Shape.insertAll_inv rest (s.insertEntry o)
      (Shape.insertEntry_inv s o hinv
        (le_trans (Shape.insertAll_length rest (s.insertEntry o)) hlen)).1 hlen

theorem Shape.emptyIndex_inv (rootPageNum : Nat) : (Shape.emptyIndex rootPageNum).Inv :=
  ⟨le_refl _, by show (0 : Int) + 2 ≤ 2 * (([0] : List Nat).length : Int); decide,
    Or.inl ⟨rfl, rfl⟩⟩

/-- C20. The node counter follows the root of the tree.  After every sequence of
`insertEntry` calls on a freshly constructed index, whatever the capacities and whatever the
outcome of each test the code makes on page contents, and as long as the index file holds
at most `2 ^ 30` pages: `numOfNodes` is 0 exactly when the tree is empty (metadata root
page number 0), is 1 exactly when the root page is the page allocated as a leaf, and is at
least 3 whenever the root page is a page allocated as an internal node; so whenever the
branch `numOfNodes == 1` is taken, the page `rootPageNum` it reads as a leaf is a leaf.  The
counter stays within the range of `int`. -/
theorem node_counter_follows_tree (rootPageNum : Nat) (calls : List Outcome) (s : Shape)
    (hs : (Shape.emptyIndex rootPageNum).insertAll calls = s)
    (hpages : s.pages.length ≤ 1073741824) :
    (s.numOfNodes = 0 ↔ s.rootPageNo = 0)
      ∧ (s.numOfNodes = 1 ↔ s.readKind s.rootPageNo = some 1)
      ∧ (s.readKind s.rootPageNo = some 2 → 3 ≤ s.numOfNodes)
      ∧ (s.numOfNodes = 1 → s.readKind s.rootPageNum = some 1)
      ∧ (0 ≤ s.numOfNodes ∧ s.numOfNodes < 2147483648) := by
  subst hs
  obtain ⟨h0, h2, hcase⟩ := Shape.insertAll_inv calls _ (Shape.emptyIndex_inv rootPageNum) hpages
  generalize (Shape.emptyIndex rootPageNum).insertAll calls = s at *
  have hz : s.readKind 0 = none := rfl
  refine ⟨?_, ?_, ?_, ?_, h0, by omega⟩
  · rcases hcase with ⟨hr, hn⟩ | ⟨hr, hn, hk⟩ | ⟨hr, hn, hk⟩
    · exact ⟨fun _ => hr, fun _ => hn⟩
    · refine ⟨fun h => by omega, fun h => ?_⟩
      rw [← hr, h, hz] at hk
      exact Option.noConfusion hk
    · refine ⟨fun h => by omega, fun h => ?_⟩
      rw [← hr, h, hz] at hk
      exact Option.noConfusion hk
  · rcases hcase with ⟨hr, hn⟩ | ⟨hr, hn, hk⟩ | ⟨hr, hn, hk⟩
    · refine ⟨fun h => by omega, fun h => ?_⟩
      rw [hr, hz] at h
      exact Option.noConfusion h
    · rw [hr]
      exact ⟨fun _ => hk, fun _ => hn⟩
    · rw [hr, hk]
      exact ⟨fun h => by omega, fun h => absurd (Option.some.inj h) (by decide)⟩
  · rcases hcase with ⟨hr, hn⟩ | ⟨hr, hn, hk⟩ | ⟨hr, hn, hk⟩
    · intro h
      rw [hr, hz] at h
      exact Option.noConfusion h
    · rw [hr, hk]
      intro h
      exact absurd (Option.some.inj h) (by decide)
    · exact fun _ => hn
  · rcases hcase with ⟨hr, hn⟩ | ⟨hr, hn, hk⟩ | ⟨hr, hn, hk⟩
    · intro h; omega
    · exact fun _ => hk
    · intro h; omega

/-- C20, instance: three calls in which the root leaf fills at the second call and both the
child leaf and the root fill at the third; the counter ends at 7 and the root is the page
allocated last but one, as an internal node. -/
theorem node_counter_follows_tree_witness :
    (Shape.emptyIndex 0).insertAll
        [⟨false, Descent.leafChild false, false⟩, ⟨true, Descent.leafChild false, false⟩,
          ⟨false, Descent.leafChild true, true⟩]
      = ⟨[0, 1, 2, 1, 1, 2, 1], 6, 6, 7⟩
    ∧ (⟨[0, 1, 2, 1, 1, 2, 1], 6, 6, 7⟩ : Shape).pages.length ≤ 1073741824
    ∧ (((⟨[0, 1, 2, 1, 1, 2, 1], 6, 6, 7⟩ : Shape).numOfNodes = 0
        ↔ (⟨[0, 1, 2, 1, 1, 2, 1], 6, 6, 7⟩ : Shape).rootPageNo = 0)
      ∧ ((⟨[0, 1, 2, 1, 1, 2, 1], 6, 6, 7⟩ : Shape).numOfNodes = 1
        ↔ Shape.readKind ⟨[0, 1, 2, 1, 1, 2, 1], 6, 6, 7⟩ 6 = some 1)
      ∧ (Shape.readKind ⟨[0, 1, 2, 1, 1, 2, 1], 6, 6, 7⟩ 6 = some 2
        → 3 ≤ (⟨[0, 1, 2, 1, 1, 2, 1], 6, 6, 7⟩ : Shape).numOfNodes)
      ∧ ((⟨[0, 1, 2, 1, 1, 2, 1], 6, 6, 7⟩ : Shape).numOfNodes = 1
        → Shape.readKind ⟨[0, 1, 2, 1, 1, 2, 1], 6, 6, 7⟩ 6 = some 1)
      ∧ (0 ≤ (⟨[0, 1, 2, 1, 1, 2, 1], 6, 6, 7⟩ : Shape).numOfNodes
        ∧ (⟨[0, 1, 2, 1, 1, 2, 1], 6, 6, 7⟩ : Shape).numOfNodes < 2147483648)) :=
  ⟨by decide, by decide,
    node_counter_follows_tree 0
      [⟨false, Descent.leafChild false, false⟩, ⟨true, Descent.leafChild false, false⟩,
        ⟨false, Descent.leafChild true, true⟩]
      ⟨[0, 1, 2, 1, 1, 2, 1], 6, 6, 7⟩ (by decide) (by decide)⟩

/-! ### The page-level functions follow the bookkeeping functions -/

theorem kinds_write {file file1 : List Page} {p : Nat} {pg old : Page}
    (h : writePage file p pg = some file1) (hold : readPage file p = some old)
    (hk : pg.kind = old.kind) : file1.map Page.kind = file.map Page.kind := by
  obtain ⟨h0, h1, rfl⟩ := writePage_some h
  have hget : file[p - 1]? = some old := by
    have hp : p ≠ 0 := by omega
    unfold readPage at hold
    rw [if_neg hp] at hold
    exact hold
  apply List.ext_getElem?
  intro i
  rw [List.getElem?_map, List.getElem?_map, List.getElem?_set]
  by_cases hi : p - 1 = i
  · subst hi
    have hlt : p - 1 < file.length := by omega
    rw [if_pos rfl, if_pos hlt, hget]
    simp [hk]
  · rw [if_neg hi]

/-- A leaf split appends one leaf page and adds one to the node counter. -/
theorem splitLeafNode_kinds {L : Nat} {s s1 : BTreeIndex} {p : Nat} {k : Int} {pid : PageId}
    (h : splitLeafNode L s p = some (s1, k, pid)) :
    s1.file.map Page.kind = s.file.map Page.kind ++ [1]
      ∧ s1.numOfNodes = s.numOfNodes + 1 ∧ s1.rootPageNum = s.rootPageNum := by
  unfold splitLeafNode allocPage at h
  simp only at h
  cases hA : readLeaf (s.file ++ [Page.leaf (zeroLeaf L)]) p with
  | none => simp [hA] at h
  | some left =>
    cases hB : readLeaf (s.file ++ [Page.leaf (zeroLeaf L)]) (s.file.length + 1) with
    | none => simp [hA, hB] at h
    | some right =>
      simp only [hA, hB] at h
      cases hC : splitLeafNodes L left right with
      | none => simp [hC] at h
      | some r =>
        obtain ⟨left1, right1, mk⟩ := r
        simp only [hC] at h
        cases hD : writePage (s.file ++ [Page.leaf (zeroLeaf L)]) p (Page.leaf left1) with
        | none => simp [hD] at h
        | some file1 =>
          simp only [hD] at h
          cases hE : writePage file1 (s.file.length + 1) (Page.leaf right1) with
          | none => simp [hE] at h
          | some file2 =>
            simp only [hE, Option.some.injEq, Prod.mk.injEq] at h
            obtain ⟨rfl, -, -⟩ := h
            have k1 := keeps_write hD (readLeaf_some hA) rfl
            have e1 := kinds_write hD (readLeaf_some hA) rfl
            obtain ⟨pg1, h1, kk⟩ := k1 _ _ (readLeaf_some hB)
            have e2 := kinds_write hE h1 kk.symm
            refine ⟨?_, rfl, rfl⟩
            show file2.map Page.kind = s.file.map Page.kind ++ [1]
            rw [e2, e1, List.map_append]
            rfl

/-- The function `fullNodeHandler` with `isLeaf = 1`: below a parent one leaf page is
appended; without a parent the new root, an internal node, and one leaf page are appended.
The node counter grows by one. -/
theorem fullNodeHandler_kinds {L M : Nat} {s s1 : BTreeIndex} {cur : PageId}
    {par : Option PageId} {cpn : PageId}
    (h : fullNodeHandler L M s cur par cpn true = some s1) :
    s1.numOfNodes = s.numOfNodes + 1
      ∧ (∀ p, par = some p → s1.file.map Page.kind = s.file.map Page.kind ++ [1]
          ∧ s1.rootPageNum = s.rootPageNum)
      ∧ (par = none → s1.file.map Page.kind = (s.file.map Page.kind ++ [2]) ++ [1]
          ∧ s1.rootPageNum = s.file.length + 1) := by
  unfold fullNodeHandler at h
  cases hA : newParent M s par with
  | none => simp [hA] at h
  | some r0 =>
    obtain ⟨sa, pp⟩ := r0
    simp only [hA, if_true] at h
    cases hB : splitLeafNode L sa cur with
    | none => simp [hB] at h
    | some r1 =>
      obtain ⟨sb, mk, rp⟩ := r1
      obtain ⟨eb, nb, rb⟩ := splitLeafNode_kinds hB
      simp only [hB] at h
      cases hC : readNonLeaf sb.file pp with
      | none => simp [hC] at h
      | some parent =>
        simp only [hC] at h
        cases hD : pushUp M parent mk cpn rp with
        | none => simp [hD] at h
        | some parent1 =>
          simp only [hD] at h
          cases hE : writePage sb.file pp (Page.nonLeaf parent1) with
          | none => simp [hE] at h
          | some file =>
            simp only [hE, Option.some.injEq] at h
            subst h
            have ec := kinds_write hE (readNonLeaf_some hC) rfl
            cases par with
            | some p =>
              simp only [newParent, Option.some.injEq, Prod.mk.injEq] at hA
              obtain ⟨rfl, rfl⟩ := hA
              refine ⟨nb, fun _ _ => ⟨?_, rb⟩, fun hn => Option.noConfusion hn⟩
              show file.map Page.kind = _
              rw [ec, eb]
            | none =>
              rw [newParent_none, Option.some.injEq, Prod.mk.injEq] at hA
              obtain ⟨rfl, rfl⟩ := hA
              refine ⟨nb, fun _ hn => Option.noConfusion hn, fun _ => ⟨?_, rb⟩⟩
              show file.map Page.kind = _
              rw [ec, eb, List.map_append]
              rfl

theorem int32_succ_succ (n m : Nat) (hm : m = n + 2) (h : (m : Int) < 2147483648) :
    int32 (int32 ((n : Int) + 1) + 1) = (m : Int) := by
  unfold int32
  omega

/-- The conditional split of a child is the bookkeeping step of lines 402-405 and
410-420. -/
theorem splitIfFull_shape {L M : Nat} {s s1 : BTreeIndex} {test : Int} {child cur : PageId}
    {i : Nat} (h : splitIfFull L M s test child cur i = some s1)
    (hn : (s1.numOfNodes : Int) < 2147483648) (ro : Nat) :
    shapeWith ro s1
      = (if test ≠ -1 then
          ⟨(shapeWith ro s).pages ++ [1], (shapeWith ro s).rootPageNo,
            (shapeWith ro s).rootPageNum,
            int32 (int32 ((shapeWith ro s).numOfNodes + 1) + 1)⟩
        else shapeWith ro s) := by
  unfold splitIfFull at h
  by_cases ht : test ≠ -1
  · rw [if_pos ht] at h ⊢
    cases hA : readNonLeaf s.file cur with
    | none => simp [hA] at h
    | some node =>
      simp only [hA] at h
      cases hB : node.pageNoArray[i]? with
      | none => simp [hB] at h
      | some pageNo =>
        simp only [hB] at h
        cases hC : fullNodeHandler L M s child (some cur) pageNo true with
        | none => simp [hC] at h
        | some s2 =>
          simp only [hC, Option.some.injEq] at h
          subst h
          obtain ⟨n2, e2, -⟩ := fullNodeHandler_kinds hC
          obtain ⟨e3, r3⟩ := e2 cur rfl
          have hi := int32_succ_succ s.numOfNodes (s2.numOfNodes + 1) (by omega) hn
          unfold shapeWith at hi ⊢
          simp only [e3, r3, hi]
  · rw [if_neg ht, Option.some.injEq] at h
    subst h
    rw [if_neg ht]

/-- The descent follows the bookkeeping function `Shape.traverse`, for some outcome of the
tests on page contents. -/
theorem traverse_shape (L M : Nat) :
    ∀ (fuel : Nat) (s s1 : BTreeIndex) (cur : PageId) (key : Int) (rid : RecordId),
      traverse L M fuel s cur key rid = some s1 → (s1.numOfNodes : Int) < 2147483648 →
      ∃ d, ∀ ro, shapeWith ro s1 = (shapeWith ro s).traverse d
  | 0, s, s1, cur, key, rid, h, _ => by simp [traverse] at h
  | fuel + 1, s, s1, cur, key, rid, h, hn => by
    unfold traverse at h
    simp only at h
    cases hA : readNonLeaf s.file cur with
    | none => simp [hA] at h
    | some node =>
      simp only [hA] at h
      cases hB : findChild node key M 0 with
      | none => simp [hB] at h
      | some i =>
        simp only [hB] at h
        cases hC : node.pageNoArray[i]? with
        | none => simp [hC] at h
        | some childPageNo =>
          simp only [hC] at h
          by_cases hlev : node.level ≠ 1
          · rw [if_pos hlev] at h
            cases hD : readNonLeaf s.file childPageNo with
            | none => simp [hD] at h
            | some child =>
              simp only [hD] at h
              cases hE : traverse L M fuel s childPageNo key rid with
              | none => simp [hE] at h
              | some s2 =>
                simp only [hE] at h
                cases hF : readNonLeaf s2.file cur with
                | none => simp [hF] at h
                | some node1 =>
                  simp only [hF] at h
                  cases hG : node1.keyArray[M]? with
                  | none => simp [hG] at h
                  | some test =>
                    simp only [hG] at h
                    obtain ⟨-, n3, -, -⟩ := splitIfFull_keeps h
                    obtain ⟨-, -, -, r2⟩ := traverse_keeps L M fuel s s2 childPageNo key rid hE
                    obtain ⟨d, hd⟩ := traverse_shape L M fuel s s2 childPageNo key rid hE
                      (by omega)
                    have h3 := splitIfFull_shape h hn
                    by_cases ht : test ≠ -1
                    · refine ⟨Descent.innerChild d true, fun ro => ?_⟩
                      rw [h3 ro, if_pos ht, hd ro]
                      rfl
                    · refine ⟨Descent.innerChild d false, fun ro => ?_⟩
                      rw [h3 ro, if_neg ht, hd ro]
                      rfl
          · rw [if_neg hlev] at h
            cases hD : readLeaf s.file childPageNo with
            | none => simp [hD] at h
            | some child =>
              simp only [hD] at h
              cases hE : insertToNode L child key rid with
              | none => simp [hE] at h
              | some child1 =>
                simp only [hE] at h
                cases hF : writePage s.file childPageNo (Page.leaf child1) with
                | none => simp [hF] at h
                | some file =>
                  simp only [hF] at h
                  cases hG : lastKey child1.keyArray L with
                  | none => simp [hG] at h
                  | some test =>
                    simp only [hG] at h
                    have e2 := kinds_write hF (readLeaf_some hD) rfl
                    have hsh : ∀ ro, shapeWith ro { s with file := file } = shapeWith ro s := by
                      intro ro
                      unfold shapeWith
                      simp only [e2]
                    have h3 := splitIfFull_shape h hn
                    by_cases ht : test ≠ -1
                    · refine ⟨Descent.leafChild true, fun ro => ?_⟩
                      rw [h3 ro, if_pos ht, hsh ro]
                      rfl
                    · refine ⟨Descent.leafChild false, fun ro => ?_⟩
                      rw [h3 ro, if_neg ht, hsh ro]
                      rfl

theorem kinds_set {file : List Page} {i : Nat} {pg old : Page} (hget : file[i]? = some old)
    (hk : pg.kind = old.kind) : (file.set i pg).map Page.kind = file.map Page.kind := by
  have hlt : i < file.length := by
    by_contra hc
    rw [List.getElem?_eq_none (by omega)] at hget
    exact Option.noConfusion hget
  apply List.ext_getElem?
  intro j
  rw [List.getElem?_map, List.getElem?_map, List.getElem?_set]
  by_cases hi : i = j
  · subst hi
    rw [if_pos rfl, if_pos hlt, hget]
    simp [hk]
  · rw [if_neg hi]

/-- The steps of an `insertEntry` call that has a result. -/
theorem insertEntry_some {L M fuel : Nat} {s s1 : BTreeIndex} {key : Int} {rid : RecordId}
    (h : insertEntry L M fuel s key rid = some s1) :
    ∃ md sm md1 file, readHeader s.file s.headerPageNum = some md
      ∧ (if md.rootPageNo = 0 then insertFirst L s md key rid
          else if s.numOfNodes = 1 then insertSingle L M s key rid
          else insertGeneral L M fuel s md key rid) = some sm
      ∧ readHeader sm.file sm.headerPageNum = some md1
      ∧ writePage sm.file sm.headerPageNum
          (Page.header { md1 with rootPageNo := sm.rootPageNum }) = some file
      ∧ s1 = { sm with file := file } := by
  unfold insertEntry at h
  cases hmd : readHeader s.file s.headerPageNum with
  | none => simp [hmd] at h
  | some md =>
    simp only [hmd] at h
    cases hB : (if md.rootPageNo = 0 then insertFirst L s md key rid
        else if s.numOfNodes = 1 then insertSingle L M s key rid
        else insertGeneral L M fuel s md key rid) with
    | none => simp [hB] at h
    | some sm =>
      simp only [hB] at h
      cases hH : readHeader sm.file sm.headerPageNum with
      | none => simp [hH] at h
      | some md1 =>
        simp only [hH] at h
        cases hW : writePage sm.file sm.headerPageNum
            (Page.header { md1 with rootPageNo := sm.rootPageNum }) with
        | none => simp [hW] at h
        | some file =>
          simp only [hW] at h
          refine ⟨md, sm, md1, file, rfl, hB, hH, hW, ?_⟩
          by_cases hk : key = 4999
          · rw [if_pos hk] at h
            cases hT : testPrint L M { sm with file := file } with
            | none => simp [hT] at h
            | some u =>
              simp only [hT, Option.some.injEq] at h
              exact h.symm
          · rw [if_neg hk, Option.some.injEq] at h
            exact h.symm

/-- The first insertion appends one leaf page, makes it the root and counts it. -/
theorem insertFirst_kinds {L : Nat} {s s1 : BTreeIndex} {md : IndexMetaInfo} {k : Int}
    {rid : RecordId} (hL : 0 < L) (hmd : readHeader s.file s.headerPageNum = some md)
    (h : insertFirst L s md k rid = some s1) :
    s1.file.map Page.kind = s.file.map Page.kind ++ [1]
      ∧ s1.rootPageNum = s.file.length + 1 ∧ s1.numOfNodes = s.numOfNodes + 1 := by
  rw [insertFirst_eq L s md k rid hL hmd, Option.some.injEq] at h
  subst h
  refine ⟨?_, rfl, rfl⟩
  obtain ⟨h0, h1⟩ := readPage_some (readHeader_some hmd)
  have hp : (s.headerPageNum : Nat) ≠ 0 := by unfold PageId; omega
  have hlt : (s.headerPageNum : Nat) - 1 < s.file.length := by unfold PageId; omega
  have hne : (s.headerPageNum : Nat) - 1 ≠ s.file.length := by unfold PageId; omega
  have hget := readHeader_some hmd
  unfold readPage at hget
  rw [if_neg hp] at hget
  have g1 : (s.file ++ [Page.leaf (zeroLeaf L)])[(s.headerPageNum : Nat) - 1]?
      = some (Page.header md) := by
    rw [List.getElem?_append_left hlt]
    exact hget
  have g2 : ((s.file ++ [Page.leaf (zeroLeaf L)]).set ((s.headerPageNum : Nat) - 1)
      (Page.header { md with rootPageNo := s.file.length + 1 }))[s.file.length]?
      = some (Page.leaf (zeroLeaf L)) := by
    rw [List.getElem?_set, if_neg hne, List.getElem?_append_right (le_refl _)]
    simp
  show (((s.file ++ [Page.leaf (zeroLeaf L)]).set ((s.headerPageNum : Nat) - 1)
      (Page.header { md with rootPageNo := s.file.length + 1 })).set s.file.length
      (Page.leaf (singleEntryLeaf L k rid))).map Page.kind = _
  rw [@kinds_set _ _ (Page.leaf (singleEntryLeaf L k rid)) _ g2 rfl,
    @kinds_set _ _ (Page.header { md with rootPageNo := s.file.length + 1 }) _ g1 rfl,
    List.map_append]
  rfl

/-- The single-leaf branch is the bookkeeping step of lines 140-153. -/
theorem insertSingle_shape {L M : Nat} {s s1 : BTreeIndex} {key : Int} {rid : RecordId}
    (h : insertSingle L M s key rid = some s1) (hn : (s1.numOfNodes : Int) < 2147483648) :
    s.numOfNodes ≤ s1.numOfNodes
      ∧ ∃ b : Bool, ∀ ro, shapeWith ro s1
        = (if b = true then
            ⟨((shapeWith ro s).pages ++ [2]) ++ [1], (shapeWith ro s).rootPageNo,
              (shapeWith ro s).pages.length + 1,
              int32 (int32 ((shapeWith ro s).numOfNodes + 1) + 1)⟩
          else shapeWith ro s) := by
  unfold insertSingle at h
  cases hA : readLeaf s.file s.rootPageNum with
  | none => simp [hA] at h
  | some rootNode =>
    simp only [hA] at h
    cases hB : insertToNode L rootNode key rid with
    | none => simp [hB] at h
    | some rootNode1 =>
      simp only [hB] at h
      cases hC : writePage s.file s.rootPageNum (Page.leaf rootNode1) with
      | none => simp [hC] at h
      | some file =>
        simp only [hC] at h
        have e1 := kinds_write hC (readLeaf_some hA) rfl
        obtain ⟨-, -, hfile⟩ := writePage_some hC
        cases hD : lastKey rootNode1.keyArray L with
        | none => simp [hD] at h
        | some test =>
          simp only [hD] at h
          by_cases ht : test ≠ -1
          · rw [if_pos ht] at h
            cases hE : fullNodeHandler L M { s with file := file } s.rootPageNum none
                s.rootPageNum true with
            | none => simp [hE] at h
            | some s2 =>
              simp only [hE, Option.some.injEq] at h
              subst h
              obtain ⟨n2, -, e2⟩ := fullNodeHandler_kinds hE
              obtain ⟨e3, r3⟩ := e2 rfl
              have n2a : s2.numOfNodes = s.numOfNodes + 1 := n2
              have e3a : s2.file.map Page.kind = (file.map Page.kind ++ [2]) ++ [1] := e3
              have r3a : s2.rootPageNum = file.length + 1 := r3
              have hna : ((s2.numOfNodes + 1 : Nat) : Int) < 2147483648 := hn
              have hi := int32_succ_succ s.numOfNodes (s2.numOfNodes + 1) (by omega) hna
              have hlen : file.length = s.file.length := by rw [hfile, List.length_set]
              refine ⟨?_, true, fun ro => ?_⟩
              · show s.numOfNodes ≤ s2.numOfNodes + 1
                omega
              · rw [if_pos rfl]
                show (⟨s2.file.map Page.kind, ro, s2.rootPageNum,
                    ((s2.numOfNodes + 1 : Nat) : Int)⟩ : Shape)
                  = ⟨(s.file.map Page.kind ++ [2]) ++ [1], ro,
                      (s.file.map Page.kind).length + 1,
                      int32 (int32 ((s.numOfNodes : Int) + 1) + 1)⟩
                rw [e3a, r3a, hi, e1, hlen, List.length_map]
          · rw [if_neg ht, Option.some.injEq] at h
            subst h
            refine ⟨le_refl _, false, fun ro => ?_⟩
            rw [if_neg (by decide)]
            show (⟨file.map Page.kind, ro, s.rootPageNum, (s.numOfNodes : Int)⟩ : Shape)
              = ⟨s.file.map Page.kind, ro, s.rootPageNum, (s.numOfNodes : Int)⟩
            rw [e1]

/-- The general branch is the bookkeeping step of lines 156-169. -/
theorem insertGeneral_shape {L M fuel : Nat} {s s1 : BTreeIndex} {md : IndexMetaInfo}
    {key : Int} {rid : RecordId} (h : insertGeneral L M fuel s md key rid = some s1)
    (hn : (s1.numOfNodes : Int) < 2147483648) :
    s.numOfNodes ≤ s1.numOfNodes
      ∧ ∃ (d : Descent) (b : Bool), ∀ ro, shapeWith ro s1
        = (if b = true then
            ⟨(((shapeWith ro s).traverse d).pages ++ [2]) ++ [1],
              ((shapeWith ro s).traverse d).rootPageNo,
              ((shapeWith ro s).traverse d).pages.length + 1,
              int32 (int32 (((shapeWith ro s).traverse d).numOfNodes + 1) + 1)⟩
          else (shapeWith ro s).traverse d) := by
  unfold insertGeneral at h
  cases hA : readNonLeaf s.file md.rootPageNo with
  | none => simp [hA] at h
  | some root0 =>
    simp only [hA] at h
    cases hB : traverse L M fuel s md.rootPageNo key rid with
    | none => simp [hB] at h
    | some s2 =>
      simp only [hB] at h
      obtain ⟨-, n2, -, -⟩ := traverse_keeps L M fuel s s2 md.rootPageNo key rid hB
      cases hC : readNonLeaf s2.file md.rootPageNo with
      | none => simp [hC] at h
      | some rootNode =>
        simp only [hC] at h
        cases hD : lastKey rootNode.keyArray M with
        | none => simp [hD] at h
        | some test =>
          simp only [hD] at h
          by_cases ht : test ≠ -1
          · rw [if_pos ht] at h
            cases hE : fullNodeHandler L M s2 md.rootPageNo none s2.rootPageNum true with
            | none => simp [hE] at h
            | some s3 =>
              simp only [hE, Option.some.injEq] at h
              subst h
              obtain ⟨n3, -, e3⟩ := fullNodeHandler_kinds hE
              obtain ⟨e4, r4⟩ := e3 rfl
              have hna : ((s3.numOfNodes + 1 : Nat) : Int) < 2147483648 := hn
              have hn2 : (s2.numOfNodes : Int) < 2147483648 := by omega
              obtain ⟨d, hd⟩ := traverse_shape L M fuel s s2 md.rootPageNo key rid hB hn2
              have hi := int32_succ_succ s2.numOfNodes (s3.numOfNodes + 1) (by omega) hna
              refine ⟨?_, d, true, fun ro => ?_⟩
              · show s.numOfNodes ≤ s3.numOfNodes + 1
                omega
              · rw [if_pos rfl, ← hd ro]
                show (⟨s3.file.map Page.kind, ro, s3.rootPageNum,
                    ((s3.numOfNodes + 1 : Nat) : Int)⟩ : Shape)
                  = ⟨(s2.file.map Page.kind ++ [2]) ++ [1], ro,
                      (s2.file.map Page.kind).length + 1,
                      int32 (int32 ((s2.numOfNodes : Int) + 1) + 1)⟩
                rw [e4, r4, hi, List.length_map]
          · rw [if_neg ht, Option.some.injEq] at h
            subst h
            obtain ⟨d, hd⟩ := traverse_shape L M fuel s s2 md.rootPageNo key rid hB hn
            refine ⟨n2, d, false, fun ro => ?_⟩
            rw [if_neg (by decide)]
            exact hd ro

theorem int32_succ (n m : Nat) (hm : m = n + 1) (h : (m : Int) < 2147483648) :
    int32 ((n : Int) + 1) = (m : Int) := by
  unfold int32
  omega

/-- Every `insertEntry` call of the page-level functions that has a result is a call of the
bookkeeping function `Shape.insertEntry`, for some outcome of the tests on page contents. -/
theorem insertEntry_shape {L M fuel : Nat} {s s1 : BTreeIndex} {key : Int} {rid : RecordId}
    {sh : Shape} (hL : 0 < L) (hsh : shapeOf s = some sh)
    (h : insertEntry L M fuel s key rid = some s1)
    (hn : (s1.numOfNodes : Int) < 2147483648) :
    s.numOfNodes ≤ s1.numOfNodes ∧ ∃ o, shapeOf s1 = some (sh.insertEntry o) := by
  obtain ⟨md, sm, md1, file, hmd, hB, hH, hW, rfl⟩ := insertEntry_some h
  have hsh1 : shapeOf { sm with file := file }
      = some ⟨sm.file.map Page.kind, sm.rootPageNum, sm.rootPageNum, sm.numOfNodes⟩ := by
    have hr : readHeader file sm.headerPageNum
        = some { md1 with rootPageNo := sm.rootPageNum } :=
      readHeader_of_readPage (readPage_writePage hW)
    have ek := kinds_write hW (readHeader_some hH) rfl
    unfold shapeOf
    simp only [hr]
    unfold shapeWith
    simp only [ek]
  have hsh0 : sh = shapeWith md.rootPageNo s := by
    unfold shapeOf at hsh
    simp only [hmd, Option.some.injEq] at hsh
    exact hsh.symm
  have hnm : (sm.numOfNodes : Int) < 2147483648 := hn
  rw [hsh1]
  subst hsh0
  show s.numOfNodes ≤ sm.numOfNodes ∧ _
  by_cases hroot : md.rootPageNo = 0
  · rw [if_pos hroot] at hB
    obtain ⟨e1, r1, n1⟩ := insertFirst_kinds hL hmd hB
    refine ⟨by omega, ⟨false, Descent.leafChild false, false⟩, ?_⟩
    have he : (shapeWith md.rootPageNo s).insertEntry ⟨false, Descent.leafChild false, false⟩
        = ⟨s.file.map Page.kind ++ [1], (s.file.map Page.kind).length + 1,
            (s.file.map Page.kind).length + 1, int32 ((s.numOfNodes : Int) + 1)⟩ := by
      unfold Shape.insertEntry
      rw [if_pos (show (shapeWith md.rootPageNo s).rootPageNo = 0 from hroot)]
      rfl
    rw [he, e1, r1, int32_succ s.numOfNodes sm.numOfNodes n1 hnm, List.length_map]
  · rw [if_neg hroot] at hB
    have hroot1 : ¬ (shapeWith md.rootPageNo s).rootPageNo = 0 := hroot
    by_cases hone : s.numOfNodes = 1
    · rw [if_pos hone] at hB
      have hone1 : (shapeWith md.rootPageNo s).numOfNodes = 1 := by
        show ((s.numOfNodes : Nat) : Int) = 1
        rw [hone]
        rfl
      obtain ⟨hle, b, hb⟩ := insertSingle_shape hB hnm
      refine ⟨hle, ⟨b, Descent.leafChild false, false⟩, ?_⟩
      have h1 := hb md.rootPageNo
      have he : (shapeWith md.rootPageNo s).insertEntry ⟨b, Descent.leafChild false, false⟩
          = ⟨(shapeWith md.rootPageNo sm).pages, (shapeWith md.rootPageNo sm).rootPageNum,
              (shapeWith md.rootPageNo sm).rootPageNum,
              (shapeWith md.rootPageNo sm).numOfNodes⟩ := by
        unfold Shape.insertEntry
        rw [if_neg hroot1, if_pos hone1, h1]
        cases b with
        | true => rfl
        | false => rfl
      rw [he]
      rfl
    · rw [if_neg hone] at hB
      have hone1 : ¬ (shapeWith md.rootPageNo s).numOfNodes = 1 := by
        show ¬ ((s.numOfNodes : Nat) : Int) = 1
        omega
      obtain ⟨hle, d, b, hb⟩ := insertGeneral_shape hB hnm
      refine ⟨hle, ⟨false, d, b⟩, ?_⟩
      have h1 := hb md.rootPageNo
      have he : (shapeWith md.rootPageNo s).insertEntry ⟨false, d, b⟩
          = ⟨(shapeWith md.rootPageNo sm).pages, (shapeWith md.rootPageNo sm).rootPageNum,
              (shapeWith md.rootPageNo sm).rootPageNum,
              (shapeWith md.rootPageNo sm).numOfNodes⟩ := by
        unfold Shape.insertEntry
        rw [if_neg hroot1, if_neg hone1, h1]
        cases b with
        | true => rfl
        | false => rfl
      rw [he]
      rfl

theorem shapeOf_emptyIndex (nm : String) (offs : Int) (ty : Datatype) (root0 : Nat) :
    shapeOf (emptyIndex nm offs ty root0) = some (Shape.emptyIndex root0) :=
  rfl

/-- Every run of the page-level functions is a run of the bookkeeping functions: when a
sequence of `insertEntry` calls has a result, with the node counter in the range of `int`,
the bookkeeping state of the result is the one `Shape.insertAll` computes, for some
outcomes of the tests on page contents. -/
theorem insertAll_shape {L M fuel : Nat} (hL : 0 < L) :
    ∀ (entries : List (Int × RecordId)) (s s1 : BTreeIndex) (sh : Shape),
      shapeOf s = some sh → insertAll L M fuel s entries = some s1 →
      (s1.numOfNodes : Int) < 2147483648 →
      s.numOfNodes ≤ s1.numOfNodes ∧ ∃ calls, shapeOf s1 = some (sh.insertAll calls)
  | [], s, s1, sh, hsh, h, _ => by
    simp only [insertAll, Option.some.injEq] at h
    subst h
    exact ⟨le_refl _, [], hsh⟩
  | (key, rid) :: rest, s, s1, sh, hsh, h, hn => by
    simp only [insertAll] at h
    cases hA : insertEntry L M fuel s key rid with
    | none => simp [hA] at h
    | some s2 =>
      simp only [hA] at h
      have hmono : ∀ (es : List (Int × RecordId)) (a b : BTreeIndex),
          insertAll L M fuel a es = some b → a.numOfNodes ≤ b.numOfNodes := by
        intro es
        induction es with
        | nil =>
          intro a b hab
          simp only [insertAll, Option.some.injEq] at hab
          subst hab
          exact le_refl _
        | cons e es ih =>
          intro a b hab
          obtain ⟨k, r⟩ := e
          simp only [insertAll] at hab
          cases hC : insertEntry L M fuel a k r with
          | none => simp [hC] at hab
          | some c =>
            simp only [hC] at hab
            obtain ⟨md, sm, md1, file, hmd, hB, hH, hW, rfl⟩ := insertEntry_some hC
            refine le_trans ?_ (ih _ b hab)
            show a.numOfNodes ≤ sm.numOfNodes
            by_cases hroot : md.rootPageNo = 0
            · rw [if_pos hroot] at hB
              obtain ⟨-, -, n1⟩ := insertFirst_kinds hL hmd hB
              omega
            · rw [if_neg hroot] at hB
              by_cases hone : a.numOfNodes = 1
              · rw [if_pos hone] at hB
                obtain ⟨-, -, hc⟩ := insertSingle_keeps hB
                rcases hc with ⟨hc, -⟩ | ⟨hc, -⟩ <;> omega
              · rw [if_neg hone] at hB
                exact (insertGeneral_keeps hB).2.2.1
      have h2 : (s2.numOfNodes : Int) < 2147483648 := by
        have := hmono rest s2 s1 h
        omega
      obtain ⟨hle, o, ho⟩ := insertEntry_shape hL hsh hA h2
      obtain ⟨hle1, calls, hc⟩ := insertAll_shape hL rest s2 s1 _ ho h hn
      exact ⟨le_trans hle hle1, o :: calls, hc⟩

end badgerdb
